import Mathlib

/-!
# smp_ros: graph store and MinimumTimeReachability

A shallow embedding of `include/smp/planners/base_impl.hpp` and
`include/smp/components/multipurpose/minimum_time_reachability.hpp`.

Modelling conventions.

* `double` is a type parameter `R` carrying just the operations a definition
  uses (`+`, `-`, `fabs`, the comparisons, the constants 0 and -1), with no law
  assumed; every definition is computable.  A theorem states what it assumes of
  the arithmetic: a linearly ordered ring is exact arithmetic, a linear order
  is arithmetic without NaN.  The definitions can be evaluated at `R = ℤ` and
  at `xdouble`, a fragment of the doubles that contains NaN.
* `vertex_t *` and `edge_t *` are identifiers into a heap (`Graph`); `NULL` is
  `none`.  Reading through a pointer that does not designate a live object is
  undefined behaviour in the source and is reported as `Fault.dangling`.
* `std::array<double, N>` is `Fin N → R`; `std::list<T>` is `List T`.
* Owned `state_t *`, `input_t *` and `trajectory_t *` members are modelled by
  value (the source copies them with `new state_t(*p)`).
* User callbacks are function pointers; they are identified by a number and an
  invocation is recorded in a log, the callee being assumed not to touch the
  graph (the contract of the planner).
-/

namespace smp

/-- Pointer to a `vertex_t`. -/
abbrev VertexId := Nat

/-- Pointer to an `edge_t`. -/
abbrev EdgeId := Nat

/-- Function pointer registered as an update callback. -/
abbrev FuncId := Nat

/-- Outcome of an operation that the source does not define or that did not
finish within the given number of loop iterations. -/
inductive Fault where
  | dangling
  | out_of_fuel
deriving DecidableEq, Repr

/-- The state type: `state_vars` is a `std::array<double, N>`. -/
abbrev state_t (R : Type) (N : Nat) := Fin N → R

/-- The input type: a control value with at least one scalar component;
`first` is `input[0]`. -/
structure input_t (R : Type) where
  first : R
  rest : List R

/-- A trajectory: the list of states and the list of inputs. -/
structure trajectory_t (R : Type) (N : Nat) where
  list_states : List (state_t R N)
  list_inputs : List (input_t R)

/-- The per-vertex annotations `vertex_in->data`. -/
structure vertex_data (R : Type) where
  total_cost : R
  reaches_goal : Bool

/-- A vertex of the graph. -/
structure vertex_t (R : Type) (N : Nat) where
  state : state_t R N
  data : vertex_data R
  incoming_edges : List EdgeId
  outgoing_edges : List EdgeId

/-- An edge of the graph. -/
structure edge_t (R : Type) (N : Nat) where
  vertex_src : Option VertexId
  vertex_dst : Option VertexId
  trajectory_edge : trajectory_t R N

/-- The heap holding the vertex and edge objects. -/
structure Graph (R : Type) (N : Nat) where
  vertex_mem : VertexId → Option (vertex_t R N)
  edge_mem : EdgeId → Option (edge_t R N)

/-- An axis-aligned region `(center, size)`. -/
structure region (R : Type) (N : Nat) where
  center : Fin N → R
  size : Fin N → R

/-- The component `minimum_time_reachability<typeparams, NUM_DIMENSIONS>`. -/
structure minimum_time_reachability (R : Type) (N : Nat) where
  min_cost_vertex : Option VertexId
  min_cost_trajectory : trajectory_t R N
  region_goal : region R N
  distance_function : Option ((Fin N → R) → (Fin N → R) → (Fin N → R))
  cost_function : Option (state_t R N → trajectory_t R N → state_t R N → R)
  list_update_functions : List FuncId

/-- The function `fabs` of `<cmath>` on the scalar type. -/
class Fabs (R : Type) where
  fabs : R → R

/-- In exact arithmetic `fabs` is the absolute value. -/
instance {R : Type} [LinearOrderedRing R] : Fabs R := ⟨fun a => |a|⟩

section mtr

variable {R : Type} [Zero R] [One R] [Neg R] [Add R] [Sub R] [LE R] [LT R]
  [∀ a b : R, Decidable (a ≤ b)] [∀ a b : R, Decidable (a < b)] [Fabs R] {N : Nat}

/-- The function `smp::default_distance_function`: component-wise difference. -/
def default_distance_function (state goal : Fin N → R) : Fin N → R :=
  fun i => state i - goal i

/-- The default constructor: no best vertex, goal region zeroed. -/
def minimum_time_reachability.default : minimum_time_reachability R N :=
  { min_cost_vertex := none
    min_cost_trajectory := ⟨[], []⟩
    region_goal := ⟨fun _ => 0, fun _ => 0⟩
    distance_function := none
    cost_function := none
    list_update_functions := [] }

/-- The method `set_goal_region`. -/
def set_goal_region (m : minimum_time_reachability R N) (region_in : region R N) :
    minimum_time_reachability R N × Int :=
  ({ m with region_goal := region_in }, 1)

/-- The `while (1)` loop of `ce_update_vertex_cost` that rebuilds
`min_cost_trajectory`, one iteration per unit of fuel.  The accumulator is the
trajectory built so far (`push_back` appends). -/
def rebuild_loop (g : Graph R N) :
    Nat → VertexId → trajectory_t R N → Except Fault (trajectory_t R N)
  | 0, _, _ => Except.error Fault.out_of_fuel
  | fuel + 1, vertex_ptr, acc =>
    match g.vertex_mem vertex_ptr with
    | none => Except.error Fault.dangling
    | some vx =>
      match vx.incoming_edges.getLast? with
      | none => Except.ok acc
      | some edge_curr =>
        match g.edge_mem edge_curr with
        | none => Except.error Fault.dangling
        | some ed =>
          match ed.vertex_src with
          | none => Except.error Fault.dangling
          | some src =>
            rebuild_loop g fuel src
              { list_states :=
                  acc.list_states ++ [vx.state] ++ ed.trajectory_edge.list_states.reverse
                list_inputs :=
                  acc.list_inputs ++ ed.trajectory_edge.list_inputs.reverse }

/-- What `ce_update_vertex_cost` produces: the component afterwards, the calls
made to the registered solution-updated callbacks (callback, argument) in the
order they were made, and the returned integer. -/
structure ce_result (R : Type) (N : Nat) where
  mtr : minimum_time_reachability R N
  calls : List (FuncId × trajectory_t R N)
  ret : Int

/-- The tail of `ce_update_vertex_cost` under `update_trajectory == true`:
clear the stored trajectory, rebuild it from `min_cost_vertex`, call every
registered update function. -/
def update_trajectory (fuel : Nat) (g : Graph R N) (m : minimum_time_reachability R N)
    (vertex_in : VertexId) : Except Fault (ce_result R N) :=
  match rebuild_loop g fuel vertex_in ⟨[], []⟩ with
  | Except.error f => Except.error f
  | Except.ok traj =>
    Except.ok
      { mtr := { m with min_cost_vertex := some vertex_in, min_cost_trajectory := traj }
        calls := m.list_update_functions.map fun f => (f, traj)
        ret := 1 }

/-- The method `ce_update_vertex_cost`. -/
def ce_update_vertex_cost (fuel : Nat) (g : Graph R N) (m : minimum_time_reachability R N)
    (vertex_in : VertexId) : Except Fault (ce_result R N) :=
  match g.vertex_mem vertex_in with
  | none => Except.error Fault.dangling
  | some vx =>
    if vx.data.reaches_goal = true then
      match m.min_cost_vertex with
      | none => update_trajectory fuel g m vertex_in
      | some best =>
        match g.vertex_mem best with
        | none => Except.error Fault.dangling
        | some bx =>
          if vx.data.total_cost ≤ bx.data.total_cost then
            update_trajectory fuel g m vertex_in
          else Except.ok ⟨m, [], 1⟩
    else Except.ok ⟨m, [], 1⟩

/-- The method `ce_update_edge_cost`: does nothing. -/
def ce_update_edge_cost (m : minimum_time_reachability R N) (_edge_in : EdgeId) :
    minimum_time_reachability R N × Int :=
  (m, 1)

/-- The final loop of `reaches_goal`: the first dimension whose distance
exceeds the half-size decides `false`. -/
def reaches_goal_loop (distance size : Fin N → R) : List (Fin N) → Bool
  | [] => true
  | i :: rest =>
    if Fabs.fabs (distance i) > size i then false else reaches_goal_loop distance size rest

/-- The method `reaches_goal` on the state of the vertex.  The branch that
exits on `NUM_DIMENSIONS != distance.size()` cannot be taken: the size of a
`std::array<double, NUM_DIMENSIONS>` is `NUM_DIMENSIONS`. -/
def reaches_goal (m : minimum_time_reachability R N) (vx : vertex_t R N) : Bool :=
  let state : Fin N → R := fun i => vx.state i
  let goal : Fin N → R := fun i => m.region_goal.center i
  let distance : Fin N → R :=
    match m.distance_function with
    | some f => f state goal
    | none => default_distance_function state goal
  reaches_goal_loop distance m.region_goal.size (List.finRange N)

/-- The method `mc_update_insert_vertex`: stores `reaches_goal(vertex_in)` in
the vertex. -/
def mc_update_insert_vertex (g : Graph R N) (m : minimum_time_reachability R N)
    (vertex_in : VertexId) : Except Fault (Graph R N × minimum_time_reachability R N × Int) :=
  match g.vertex_mem vertex_in with
  | none => Except.error Fault.dangling
  | some vx =>
    Except.ok
      ({ g with
          vertex_mem := Function.update g.vertex_mem vertex_in
            (some { vx with data := { vx.data with reaches_goal := reaches_goal m vx } }) },
        m, 1)

/-- The method `mc_update_insert_edge`: does nothing. -/
def mc_update_insert_edge (g : Graph R N) (m : minimum_time_reachability R N)
    (_edge_in : EdgeId) : Graph R N × minimum_time_reachability R N × Int :=
  (g, m, 1)

/-- The method `mc_update_delete_vertex`: does nothing. -/
def mc_update_delete_vertex (g : Graph R N) (m : minimum_time_reachability R N)
    (_vertex_in : VertexId) : Graph R N × minimum_time_reachability R N × Int :=
  (g, m, 1)

/-- The method `mc_update_delete_edge`: does nothing. -/
def mc_update_delete_edge (g : Graph R N) (m : minimum_time_reachability R N)
    (_edge_in : EdgeId) : Graph R N × minimum_time_reachability R N × Int :=
  (g, m, 1)

/-- The method `get_solution`: the returned integer, `trajectory_out`
afterwards, and the component.  `push_front` of each stored element in turn
yields the stored list reversed. -/
def get_solution (m : minimum_time_reachability R N) (trajectory_out : trajectory_t R N) :
    Int × trajectory_t R N × minimum_time_reachability R N :=
  match m.min_cost_vertex with
  | none => (1, trajectory_out, m)
  | some _ =>
    (1,
      { list_states :=
          m.min_cost_trajectory.list_states.foldl (fun out s => s :: out) []
        list_inputs :=
          m.min_cost_trajectory.list_inputs.foldl (fun out u => u :: out) [] },
      m)

/-- The method `default_cost_function`: the sum of `input[0]` over the inputs. -/
def default_cost_function (_state_initial_in : state_t R N) (trajectory_in : trajectory_t R N)
    (_state_final_in : state_t R N) : R :=
  trajectory_in.list_inputs.foldl (fun total_time input_curr => total_time + input_curr.first) 0

/-- The method `evaluate_cost_trajectory`: the cost and the component. -/
def evaluate_cost_trajectory (m : minimum_time_reachability R N) (state_initial_in : state_t R N)
    (trajectory_in : trajectory_t R N) (state_final_in : state_t R N) :
    R × minimum_time_reachability R N :=
  match m.cost_function with
  | some f => (f state_initial_in trajectory_in state_final_in, m)
  | none => (default_cost_function state_initial_in trajectory_in state_final_in, m)

/-- The method `get_best_cost`. -/
def get_best_cost (g : Graph R N) (m : minimum_time_reachability R N) : Except Fault R :=
  match m.min_cost_vertex with
  | none => Except.ok (-1)
  | some best =>
    match g.vertex_mem best with
    | none => Except.error Fault.dangling
    | some bx => Except.ok bx.data.total_cost

/-- The method `clear_update_function_list`. -/
def clear_update_function_list (m : minimum_time_reachability R N) :
    minimum_time_reachability R N × Int :=
  ({ m with list_update_functions := [] }, 1)

/-- The method `register_new_update_function`; `none` is the `NULL` pointer. -/
def register_new_update_function (m : minimum_time_reachability R N)
    (update_function : Option FuncId) : minimum_time_reachability R N × Int :=
  match update_function with
  | none => (m, 0)
  | some f => ({ m with list_update_functions := m.list_update_functions ++ [f] }, 1)

end mtr

/-- A notification leaving the base planner: an update of the distance
evaluator, an update of the model checker, or a call of a registered user
callback (callback, argument). -/
inductive Event where
  | de_update_insert_vertex (v : VertexId)
  | de_update_delete_vertex (v : VertexId)
  | de_update_insert_edge (e : EdgeId)
  | de_update_delete_edge (e : EdgeId)
  | mc_update_insert_vertex (v : VertexId)
  | mc_update_delete_vertex (v : VertexId)
  | mc_update_insert_edge (e : EdgeId)
  | mc_update_delete_edge (e : EdgeId)
  | update_insert_vertex_function (f : FuncId) (v : VertexId)
  | update_delete_vertex_function (f : FuncId) (v : VertexId)
  | update_insert_edge_function (f : FuncId) (e : EdgeId)
  | update_delete_edge_function (f : FuncId) (e : EdgeId)
deriving DecidableEq, Repr

/-- The planner `smp::planners::Base`: the vertex list and count, the four
callback lists, the model checker it refers to (the
`minimum_time_reachability` component), the heap of its vertices and edges,
and the log of the notifications emitted so far.  The distance evaluator is
an external component; its updates only appear in the log. -/
structure Base (R : Type) (N : Nat) where
  graph : Graph R N
  list_vertices : List VertexId
  num_vertices : Int
  model_checker : minimum_time_reachability R N
  list_update_insert_vertex_functions : List FuncId
  list_update_delete_vertex_functions : List FuncId
  list_update_insert_edge_functions : List FuncId
  list_update_delete_edge_functions : List FuncId
  trace : List Event

section base

variable {R : Type} [Zero R] [One R] [Neg R] [Add R] [Sub R] [LE R] [LT R]
  [∀ a b : R, Decidable (a ≤ b)] [∀ a b : R, Decidable (a < b)] [Fabs R] {N : Nat}

/-- The constructor `Base()`: empty vertex list, count zero. -/
def Base.new (m : minimum_time_reachability R N) (g : Graph R N) : Base R N :=
  { graph := g
    list_vertices := []
    num_vertices := 0
    model_checker := m
    list_update_insert_vertex_functions := []
    list_update_delete_vertex_functions := []
    list_update_insert_edge_functions := []
    list_update_delete_edge_functions := []
    trace := [] }

/-- The notifications `insert_vertex` emits, in the order of the source. -/
def insert_vertex_events (b : Base R N) (vertex_in : VertexId) : List Event :=
  [Event.de_update_insert_vertex vertex_in, Event.mc_update_insert_vertex vertex_in] ++
    b.list_update_insert_vertex_functions.map fun f =>
      Event.update_insert_vertex_function f vertex_in

/-- The notifications `delete_vertex` emits before it deletes any edge. -/
def delete_vertex_events (b : Base R N) (vertex_in : VertexId) : List Event :=
  [Event.de_update_delete_vertex vertex_in, Event.mc_update_delete_vertex vertex_in] ++
    b.list_update_delete_vertex_functions.map fun f =>
      Event.update_delete_vertex_function f vertex_in

/-- The notifications `insert_edge` emits. -/
def insert_edge_events (b : Base R N) (edge_in : EdgeId) : List Event :=
  [Event.de_update_insert_edge edge_in, Event.mc_update_insert_edge edge_in] ++
    b.list_update_insert_edge_functions.map fun f =>
      Event.update_insert_edge_function f edge_in

/-- The notifications `delete_edge` emits. -/
def delete_edge_events (b : Base R N) (edge_in : EdgeId) : List Event :=
  [Event.de_update_delete_edge edge_in, Event.mc_update_delete_edge edge_in] ++
    b.list_update_delete_edge_functions.map fun f =>
      Event.update_delete_edge_function f edge_in

/-- The method `Base::insert_vertex` (the `_SMP_FAST_VERTEX_DELETE` iterator
bookkeeping has no effect on the modelled state). -/
def Base.insert_vertex (b : Base R N) (vertex_in : VertexId) : Except Fault (Base R N × Int) :=
  let b1 := { b with
    list_vertices := b.list_vertices ++ [vertex_in]
    num_vertices := b.num_vertices + 1 }
  let b2 := { b1 with trace := b1.trace ++ [Event.de_update_insert_vertex vertex_in] }
  match mc_update_insert_vertex b2.graph b2.model_checker vertex_in with
  | Except.error f => Except.error f
  | Except.ok (g, m, _) =>
    let b3 := { b2 with
      graph := g
      model_checker := m
      trace := b2.trace ++ [Event.mc_update_insert_vertex vertex_in] }
    Except.ok
      ({ b3 with
          trace := b3.trace ++ b3.list_update_insert_vertex_functions.map fun f =>
            Event.update_insert_vertex_function f vertex_in },
        1)

/-- The method `Base::insert_edge`. -/
def Base.insert_edge (b : Base R N) (vertex_src_in : VertexId) (edge_in : EdgeId)
    (vertex_dst_in : VertexId) : Except Fault (Base R N × Int) :=
  match b.graph.edge_mem edge_in with
  | none => Except.error Fault.dangling
  | some ed =>
    let g1 : Graph R N := { b.graph with
      edge_mem := Function.update b.graph.edge_mem edge_in
        (some { ed with vertex_src := some vertex_src_in, vertex_dst := some vertex_dst_in }) }
    match g1.vertex_mem vertex_src_in with
    | none => Except.error Fault.dangling
    | some sx =>
      let g2 : Graph R N := { g1 with
        vertex_mem := Function.update g1.vertex_mem vertex_src_in
          (some { sx with outgoing_edges := sx.outgoing_edges ++ [edge_in] }) }
      match g2.vertex_mem vertex_dst_in with
      | none => Except.error Fault.dangling
      | some dx =>
        let g3 : Graph R N := { g2 with
          vertex_mem := Function.update g2.vertex_mem vertex_dst_in
            (some { dx with incoming_edges := dx.incoming_edges ++ [edge_in] }) }
        let (g4, m, _) := mc_update_insert_edge g3 b.model_checker edge_in
        Except.ok
          ({ b with
              graph := g4
              model_checker := m
              trace := b.trace ++ [Event.de_update_insert_edge edge_in] ++
                [Event.mc_update_insert_edge edge_in] ++
                b.list_update_insert_edge_functions.map fun f =>
                  Event.update_insert_edge_function f edge_in },
            1)

/-- The method `Base::delete_edge`; `std::list::remove` erases every element
equal to its argument. -/
def Base.delete_edge (b : Base R N) (edge_in : EdgeId) : Except Fault (Base R N × Int) :=
  let (g0, m, _) := mc_update_delete_edge b.graph b.model_checker edge_in
  let trace1 := b.trace ++ [Event.de_update_delete_edge edge_in] ++
    [Event.mc_update_delete_edge edge_in] ++
    b.list_update_delete_edge_functions.map fun f => Event.update_delete_edge_function f edge_in
  match g0.edge_mem edge_in with
  | none => Except.error Fault.dangling
  | some ed =>
    match ed.vertex_src with
    | none => Except.error Fault.dangling
    | some src =>
      match g0.vertex_mem src with
      | none => Except.error Fault.dangling
      | some sx =>
        let g1 : Graph R N := { g0 with
          vertex_mem := Function.update g0.vertex_mem src
            (some { sx with outgoing_edges := sx.outgoing_edges.filter fun x => x != edge_in }) }
        match ed.vertex_dst with
        | none => Except.error Fault.dangling
        | some dst =>
          match g1.vertex_mem dst with
          | none => Except.error Fault.dangling
          | some dx =>
            let g2 : Graph R N := { g1 with
              vertex_mem := Function.update g1.vertex_mem dst
                (some { dx with
                  incoming_edges := dx.incoming_edges.filter fun x => x != edge_in }) }
            let g3 : Graph R N := { g2 with
              edge_mem := Function.update g2.edge_mem edge_in none }
            Except.ok ({ b with graph := g3, model_checker := m, trace := trace1 }, 1)

/-- The two `for` loops of `delete_vertex`: `delete_edge` on each element of
the copied edge list in turn. -/
def Base.delete_edge_list (b : Base R N) : List EdgeId → Except Fault (Base R N)
  | [] => Except.ok b
  | edge_curr :: rest =>
    match Base.delete_edge b edge_curr with
    | Except.error f => Except.error f
    | Except.ok (b1, _) => Base.delete_edge_list b1 rest

/-- The second half of `Base::delete_vertex`, after the notifications:
`delete_edge` on a copy of the incoming edges, then on a copy of the outgoing
edges taken afterwards, then removal of the vertex from the list
(`list_vertices.remove(vertex_in)`, the variant compiled without
`_SMP_FAST_VERTEX_DELETE`), decrement of the count and `delete vertex_in`. -/
def Base.delete_vertex_edges (b1 : Base R N) (vertex_in : VertexId) :
    Except Fault (Base R N × Int) :=
  match b1.graph.vertex_mem vertex_in with
  | none => Except.error Fault.dangling
  | some vx =>
    match Base.delete_edge_list b1 vx.incoming_edges with
    | Except.error f => Except.error f
    | Except.ok b2 =>
      match b2.graph.vertex_mem vertex_in with
      | none => Except.error Fault.dangling
      | some vx2 =>
        match Base.delete_edge_list b2 vx2.outgoing_edges with
        | Except.error f => Except.error f
        | Except.ok b3 =>
          Except.ok
            ({ b3 with
                list_vertices := b3.list_vertices.filter fun x => x != vertex_in
                num_vertices := b3.num_vertices - 1
                graph := { b3.graph with
                  vertex_mem := Function.update b3.graph.vertex_mem vertex_in none } },
              1)

/-- The method `Base::delete_vertex`: the notifications, then the deletions. -/
def Base.delete_vertex (b : Base R N) (vertex_in : VertexId) : Except Fault (Base R N × Int) :=
  let (g0, m, _) := mc_update_delete_vertex b.graph b.model_checker vertex_in
  Base.delete_vertex_edges
    { b with
      graph := g0
      model_checker := m
      trace := b.trace ++ [Event.de_update_delete_vertex vertex_in] ++
        [Event.mc_update_delete_vertex vertex_in] ++
        b.list_update_delete_vertex_functions.map fun f =>
          Event.update_delete_vertex_function f vertex_in }
    vertex_in

/-- The method `clear_update_function_list_vertex_insert`. -/
def Base.clear_update_function_list_vertex_insert (b : Base R N) : Base R N × Int :=
  ({ b with list_update_insert_vertex_functions := [] }, 1)

/-- The method `register_new_update_function_vertex_insert`. -/
def Base.register_new_update_function_vertex_insert (b : Base R N)
    (vertex_update_func_in : FuncId) : Base R N × Int :=
  ({ b with
      list_update_insert_vertex_functions :=
        b.list_update_insert_vertex_functions ++ [vertex_update_func_in] }, 1)

/-- The method `clear_update_function_list_vertex_delete`. -/
def Base.clear_update_function_list_vertex_delete (b : Base R N) : Base R N × Int :=
  ({ b with list_update_delete_vertex_functions := [] }, 1)

/-- The method `register_new_update_function_vertex_delete`. -/
def Base.register_new_update_function_vertex_delete (b : Base R N)
    (vertex_update_func_in : FuncId) : Base R N × Int :=
  ({ b with
      list_update_delete_vertex_functions :=
        b.list_update_delete_vertex_functions ++ [vertex_update_func_in] }, 1)

/-- The method `clear_update_function_list_edge_insert`. -/
def Base.clear_update_function_list_edge_insert (b : Base R N) : Base R N × Int :=
  ({ b with list_update_insert_edge_functions := [] }, 1)

/-- The method `register_new_update_function_edge_insert`. -/
def Base.register_new_update_function_edge_insert (b : Base R N)
    (edge_update_func_in : FuncId) : Base R N × Int :=
  ({ b with
      list_update_insert_edge_functions :=
        b.list_update_insert_edge_functions ++ [edge_update_func_in] }, 1)

/-- The method `clear_update_function_list_edge_delete`. -/
def Base.clear_update_function_list_edge_delete (b : Base R N) : Base R N × Int :=
  ({ b with list_update_delete_edge_functions := [] }, 1)

/-- The method `register_new_update_function_edge_delete`. -/
def Base.register_new_update_function_edge_delete (b : Base R N)
    (edge_update_func_in : FuncId) : Base R N × Int :=
  ({ b with
      list_update_delete_edge_functions :=
        b.list_update_delete_edge_functions ++ [edge_update_func_in] }, 1)

end base

section chains

variable {R : Type} {N : Nat}

/-- The parent chain of a vertex: `parent_chain g root path v` holds when `root`
is a live vertex without incoming edge and `path` lists, from the root side to
`v`, each edge followed (the last element of the incoming list of the vertex
it enters) together with the vertex it enters. -/
inductive parent_chain (g : Graph R N) (root : VertexId) :
    List (edge_t R N × vertex_t R N) → VertexId → Prop where
  | nil (rx : vertex_t R N) (hroot : g.vertex_mem root = some rx)
      (hin : rx.incoming_edges = []) : parent_chain g root [] root
  | snoc (path : List (edge_t R N × vertex_t R N)) (u v : VertexId) (e : EdgeId)
      (vx : vertex_t R N) (ed : edge_t R N) (hchain : parent_chain g root path u)
      (hv : g.vertex_mem v = some vx) (hlast : vx.incoming_edges.getLast? = some e)
      (he : g.edge_mem e = some ed) (hsrc : ed.vertex_src = some u) :
      parent_chain g root (path ++ [(ed, vx)]) v

/-- The states along a chain in forward order: for each edge its states, then
the state of the vertex it enters. -/
def chain_states : List (edge_t R N × vertex_t R N) → List (state_t R N)
  | [] => []
  | p :: rest => p.1.trajectory_edge.list_states ++ [p.2.state] ++ chain_states rest

/-- The inputs along a chain in forward order. -/
def chain_inputs : List (edge_t R N × vertex_t R N) → List (input_t R)
  | [] => []
  | p :: rest => p.1.trajectory_edge.list_inputs ++ chain_inputs rest

end chains

section examples

/-- Example heap over the integers, one dimension, a tree: root `0` (state 0,
cost 0, in the goal), vertex `1` (state 5, cost 3, in the goal) entered by
edge `0` from the root, vertex `2` (state 6, cost 3, in the goal) entered by
edge `1` from the root, vertex `3` (state 7, cost 4, in the goal) entered by
edge `2` from the root. -/
def exV0 : vertex_t ℤ 1 := ⟨fun _ => 0, ⟨0, true⟩, [], [0, 1, 2]⟩

/-- Vertex `1` of the example heap. -/
def exV1 : vertex_t ℤ 1 := ⟨fun _ => 5, ⟨3, true⟩, [0], []⟩

/-- Vertex `2` of the example heap. -/
def exV2 : vertex_t ℤ 1 := ⟨fun _ => 6, ⟨3, true⟩, [1], []⟩

/-- Vertex `3` of the example heap. -/
def exV3 : vertex_t ℤ 1 := ⟨fun _ => 7, ⟨4, true⟩, [2], []⟩

/-- Edge `0` of the example heap: one intermediate state (2), one input. -/
def exE0 : edge_t ℤ 1 := ⟨some 0, some 1, ⟨[fun _ => 2], [⟨3, []⟩]⟩⟩

/-- Edge `1` of the example heap: no intermediate state. -/
def exE1 : edge_t ℤ 1 := ⟨some 0, some 2, ⟨[], [⟨3, []⟩]⟩⟩

/-- Edge `2` of the example heap. -/
def exE2 : edge_t ℤ 1 := ⟨some 0, some 3, ⟨[], [⟨4, []⟩]⟩⟩

/-- The example heap. -/
def exG : Graph ℤ 1 :=
  { vertex_mem := fun i =>
      match i with
      | 0 => some exV0
      | 1 => some exV1
      | 2 => some exV2
      | 3 => some exV3
      | _ => none
    edge_mem := fun i =>
      match i with
      | 0 => some exE0
      | 1 => some exE1
      | 2 => some exE2
      | _ => none }

/-- A component whose best vertex is vertex `1` of the example heap. -/
def exM1 : minimum_time_reachability ℤ 1 :=
  { min_cost_vertex := some 1
    min_cost_trajectory := ⟨[fun _ => 5, fun _ => 2], [⟨3, []⟩]⟩
    region_goal := ⟨fun _ => 6, fun _ => 2⟩
    distance_function := none
    cost_function := none
    list_update_functions := [7] }

end examples

section more_examples

/-- A heap with the single vertex `0`, without edge, in the goal, whose total
cost is -1. -/
def exGneg : Graph ℤ 1 :=
  { vertex_mem := fun i =>
      match i with
      | 0 => some ⟨fun _ => 0, ⟨-1, true⟩, [], []⟩
      | _ => none
    edge_mem := fun _ => none }

/-- The example heap after a rewire lowered the cost of vertex `3` to 2. -/
def exG2 : Graph ℤ 1 :=
  { exG with
    vertex_mem := Function.update exG.vertex_mem 3 (some { exV3 with data := ⟨2, true⟩ }) }

end more_examples

section runs

variable {R : Type} [Zero R] [One R] [Neg R] [Add R] [Sub R] [LE R] [LT R]
  [∀ a b : R, Decidable (a ≤ b)] [∀ a b : R, Decidable (a < b)] [Fabs R] {N : Nat}

/-- A caller that, for each step (the heap at the time of the call, the vertex
notified), calls `ce_update_vertex_cost` and then reads `get_best_cost`; the
result lists the best cost read after each call. -/
def best_cost_run (fuel : Nat) :
    minimum_time_reachability R N → List (Graph R N × VertexId) → Except Fault (List R)
  | _, [] => Except.ok []
  | m, (g, v) :: rest =>
    match ce_update_vertex_cost fuel g m v with
    | Except.error f => Except.error f
    | Except.ok r =>
      match get_best_cost g r.mtr with
      | Except.error f => Except.error f
      | Except.ok c =>
        match best_cost_run fuel r.mtr rest with
        | Except.error f => Except.error f
        | Except.ok cs => Except.ok (c :: cs)

/-- Between two heaps no vertex cost increases: every vertex live in `g` is
live in `g2` with a total cost that is not larger. -/
def costs_nonincreasing (g g2 : Graph R N) : Prop :=
  ∀ x vx, g.vertex_mem x = some vx →
    ∃ vy, g2.vertex_mem x = some vy ∧ vy.data.total_cost ≤ vx.data.total_cost

end runs

section base_examples

/-- The example heap with two more objects allocated but not yet inserted:
vertex `4` (state 8) and edge `3`, whose end points are not set. -/
def exGB : Graph ℤ 1 :=
  { vertex_mem := Function.update exG.vertex_mem 4 (some ⟨fun _ => 8, ⟨0, false⟩, [], []⟩)
    edge_mem := Function.update exG.edge_mem 3 (some ⟨none, none, ⟨[], [⟨1, []⟩]⟩⟩) }

/-- A planner over `exGB` listing the vertices `0` to `3`, with two
vertex-insert callbacks, one vertex-delete callback, two edge-insert callbacks
and one edge-delete callback registered. -/
def exB : Base ℤ 1 :=
  { graph := exGB
    list_vertices := [0, 1, 2, 3]
    num_vertices := 4
    model_checker := exM1
    list_update_insert_vertex_functions := [7, 8]
    list_update_delete_vertex_functions := [9]
    list_update_insert_edge_functions := [10, 11]
    list_update_delete_edge_functions := [12]
    trace := [] }

end base_examples

section callback_runs

variable {R : Type} [Zero R] [One R] [Neg R] [Add R] [Sub R] [LE R] [LT R]
  [∀ a b : R, Decidable (a ≤ b)] [∀ a b : R, Decidable (a < b)] [Fabs R] {N : Nat}

/-- The test `ce_update_vertex_cost` makes before it records `vertex_in`:
the vertex reaches the goal and either no best vertex is recorded or its total
cost is at most that of the recorded one. -/
def selects (g : Graph R N) (m : minimum_time_reachability R N) (vertex_in : VertexId) : Bool :=
  match g.vertex_mem vertex_in with
  | none => false
  | some vx =>
    vx.data.reaches_goal &&
      match m.min_cost_vertex with
      | none => true
      | some best =>
        match g.vertex_mem best with
        | none => false
        | some bx => decide (vx.data.total_cost ≤ bx.data.total_cost)

/-- Whether a call that took the component from `m` to `r.mtr` recorded the
first solution or strictly decreased `get_best_cost()`. -/
def improved (g : Graph R N) (m : minimum_time_reachability R N) (r : ce_result R N) : Bool :=
  match m.min_cost_vertex with
  | none => r.mtr.min_cost_vertex.isSome
  | some _ =>
    match get_best_cost g m, get_best_cost g r.mtr with
    | Except.ok c, Except.ok c2 => decide (c2 < c)
    | _, _ => false

/-- A caller that issues a sequence of `ce_update_vertex_cost` calls (the heap
at the time of the call, the vertex notified) and counts: the callback
invocations, the calls that recorded the first solution or strictly decreased
the best cost, and the calls whose vertex passed the test `selects`. -/
def callback_run (fuel : Nat) :
    minimum_time_reachability R N → List (Graph R N × VertexId) → Except Fault (Nat × Nat × Nat)
  | _, [] => Except.ok (0, 0, 0)
  | m, (g, v) :: rest =>
    match ce_update_vertex_cost fuel g m v with
    | Except.error f => Except.error f
    | Except.ok r =>
      match callback_run fuel r.mtr rest with
      | Except.error f => Except.error f
      | Except.ok (calls, imps, sels) =>
        Except.ok
          (r.calls.length + calls,
            (if improved g m r then 1 else 0) + imps,
            (if selects g m v then 1 else 0) + sels)

end callback_runs

section mtr_examples

/-- A fresh component on which the callback `7` has been registered. -/
def exM0 : minimum_time_reachability ℤ 1 :=
  (register_new_update_function minimum_time_reachability.default (some 7)).1

/-- A heap holding only a root vertex `0` of state 4 and total cost 0, without
edge, not yet examined by the model checker. -/
def exGroot : Graph ℤ 1 :=
  { vertex_mem := fun i =>
      match i with
      | 0 => some ⟨fun _ => 4, ⟨0, false⟩, [], []⟩
      | _ => none
    edge_mem := fun _ => none }

/-- A fresh component whose goal region has centre 5 and half-size 1. -/
def exMgoal : minimum_time_reachability ℤ 1 :=
  (set_goal_region minimum_time_reachability.default ⟨fun _ => 5, fun _ => 1⟩).1

end mtr_examples

section base_more

variable {R : Type} [Zero R] [One R] [Neg R] [Add R] [Sub R] [LE R] [LT R]
  [∀ a b : R, Decidable (a ≤ b)] [∀ a b : R, Decidable (a < b)] [Fabs R] {N : Nat}

/-- The expression `new vertex_t` followed by the assignment of its state:
the object at the address `p` returned by the allocator (an address of no live
object) has the given state, the annotations `data` its constructor leaves,
and empty edge lists. -/
def Graph.new_vertex (g : Graph R N) (p : VertexId) (state : state_t R N)
    (data : vertex_data R) : Graph R N :=
  { g with vertex_mem := Function.update g.vertex_mem p (some ⟨state, data, [], []⟩) }

/-- The expression `new edge_t` followed by the assignment of its trajectory:
the object at the address `p` returned by the allocator has no end point
yet. -/
def Graph.new_edge (g : Graph R N) (p : EdgeId) (trajectory : trajectory_t R N) : Graph R N :=
  { g with edge_mem := Function.update g.edge_mem p (some ⟨none, none, trajectory⟩) }

/-- The second half of `Base::insert_trajectory`: `pop_back` on the states
(undefined on an empty list), creation of the edge at the address `new_edge`,
`insert_edge`. -/
def Base.insert_trajectory_edge (b : Base R N) (new_edge : EdgeId) (vertex_src_in : VertexId)
    (trajectory_in : trajectory_t R N) (vertex_dst : VertexId) : Except Fault (Base R N × Int) :=
  match trajectory_in.list_states with
  | [] => Except.error Fault.dangling
  | _ :: _ =>
    let b1 := { b with
      graph := b.graph.new_edge new_edge
        { trajectory_in with list_states := trajectory_in.list_states.dropLast } }
    match Base.insert_edge b1 vertex_src_in new_edge vertex_dst with
    | Except.error f => Except.error f
    | Except.ok (b2, _) => Except.ok (b2, 1)

/-- The method `Base::insert_trajectory`.  `new_vertex` and `new_edge` are the
addresses the two `new` expressions return and `data0` the annotations of a
newly constructed vertex; `intermediate_vertices_in` is only deleted.  Without
destination, `list_states.back()` is undefined on an empty list. -/
def Base.insert_trajectory (b : Base R N) (new_vertex : VertexId) (data0 : vertex_data R)
    (new_edge : EdgeId) (vertex_src_in : VertexId) (trajectory_in : trajectory_t R N)
    (_intermediate_vertices_in : Option (List (state_t R N)))
    (vertex_dst_in : Option VertexId) : Except Fault (Base R N × Int) :=
  match vertex_dst_in with
  | none =>
    match trajectory_in.list_states.getLast? with
    | none => Except.error Fault.dangling
    | some final_state =>
      let b1 := { b with graph := b.graph.new_vertex new_vertex final_state data0 }
      match Base.insert_vertex b1 new_vertex with
      | Except.error f => Except.error f
      | Except.ok (b2, _) =>
        Base.insert_trajectory_edge b2 new_edge vertex_src_in trajectory_in new_vertex
  | some vertex_dst =>
    Base.insert_trajectory_edge b new_edge vertex_src_in trajectory_in vertex_dst

/-- The inner loop of `Base::initialize`: `delete edge_curr` for each listed
outgoing edge; deleting what is not a live object is undefined. -/
def initialize_delete_edges (g : Graph R N) : List EdgeId → Except Fault (Graph R N)
  | [] => Except.ok g
  | edge_curr :: rest =>
    match g.edge_mem edge_curr with
    | none => Except.error Fault.dangling
    | some _ =>
      initialize_delete_edges { g with edge_mem := Function.update g.edge_mem edge_curr none } rest

/-- The first loop of `Base::initialize`: for each listed vertex, delete its
outgoing edges. -/
def initialize_edges (g : Graph R N) : List VertexId → Except Fault (Graph R N)
  | [] => Except.ok g
  | vertex_curr :: rest =>
    match g.vertex_mem vertex_curr with
    | none => Except.error Fault.dangling
    | some vx =>
      match initialize_delete_edges g vx.outgoing_edges with
      | Except.error f => Except.error f
      | Except.ok g1 => initialize_edges g1 rest

/-- The second loop of `Base::initialize`: `delete vertex_curr` for each
listed vertex. -/
def initialize_vertices (g : Graph R N) : List VertexId → Except Fault (Graph R N)
  | [] => Except.ok g
  | vertex_curr :: rest =>
    match g.vertex_mem vertex_curr with
    | none => Except.error Fault.dangling
    | some _ =>
      initialize_vertices
        { g with vertex_mem := Function.update g.vertex_mem vertex_curr none } rest

/-- The method `Base::initialize()`: the two loops; the vertex list and the
vertex count are not assigned. -/
def Base.initialize (b : Base R N) : Except Fault (Base R N × Int) :=
  match initialize_edges b.graph b.list_vertices with
  | Except.error f => Except.error f
  | Except.ok g1 =>
    match initialize_vertices g1 b.list_vertices with
    | Except.error f => Except.error f
    | Except.ok g2 => Except.ok ({ b with graph := g2 }, 1)

/-- The tree invariant with respect to a root: the root is live without
incoming edge and every other listed vertex is live with exactly one incoming
edge. -/
def tree_invariant (b : Base R N) (root : VertexId) : Prop :=
  (∃ rx, b.graph.vertex_mem root = some rx ∧ rx.incoming_edges = []) ∧
    ∀ u, u ∈ b.list_vertices → u ≠ root →
      ∃ ux, b.graph.vertex_mem u = some ux ∧ ux.incoming_edges.length = 1

end base_more

section consistency

variable {R : Type} {N : Nat}

/-- Edge endpoint consistency of a heap: every edge listed in the outgoing
list of a live vertex `u` is live, has source `u`, and is listed in the
incoming list of its live destination; every edge listed in the incoming list
of `u` is live, has destination `u`, and is listed in the outgoing list of
its live source; and every live edge with an end point set is listed in the
corresponding list of that end point. -/
def edge_endpoint_consistency (g : Graph R N) : Prop :=
  (∀ u ux, g.vertex_mem u = some ux → ∀ e ∈ ux.outgoing_edges,
    ∃ ed d dx, g.edge_mem e = some ed ∧ ed.vertex_src = some u ∧ ed.vertex_dst = some d ∧
      g.vertex_mem d = some dx ∧ e ∈ dx.incoming_edges) ∧
  (∀ u ux, g.vertex_mem u = some ux → ∀ e ∈ ux.incoming_edges,
    ∃ ed s sx, g.edge_mem e = some ed ∧ ed.vertex_dst = some u ∧ ed.vertex_src = some s ∧
      g.vertex_mem s = some sx ∧ e ∈ sx.outgoing_edges) ∧
  (∀ e ed, g.edge_mem e = some ed →
    (∀ s, ed.vertex_src = some s → ∃ sx, g.vertex_mem s = some sx ∧ e ∈ sx.outgoing_edges) ∧
    (∀ d, ed.vertex_dst = some d → ∃ dx, g.vertex_mem d = some dx ∧ e ∈ dx.incoming_edges))

/-- A vertex with the edges of `es` erased from both of its lists, the other
entries keeping their order. -/
def vertex_t.remove_edges (es : List EdgeId) (ux : vertex_t R N) : vertex_t R N :=
  { ux with
    outgoing_edges := ux.outgoing_edges.filter fun x => decide (x ∉ es)
    incoming_edges := ux.incoming_edges.filter fun x => decide (x ∉ es) }

/-- The heap in which the edges of `es` are freed and erased from every
adjacency list.  It describes the effect of deleting these edges on a
consistent heap. -/
def Graph.remove_edges (g : Graph R N) (es : List EdgeId) : Graph R N :=
  { vertex_mem := fun u => (g.vertex_mem u).map (vertex_t.remove_edges es)
    edge_mem := fun e => if e ∈ es then none else g.edge_mem e }

/-- The heap in which the edge `e`, with contents `ed`, has the end points
`src` and `dst` and is appended to the outgoing list of `src` and to the
incoming list of `dst`.  It describes the effect of `insert_edge`. -/
def Graph.link (g : Graph R N) (src : VertexId) (e : EdgeId) (dst : VertexId)
    (ed : edge_t R N) : Graph R N :=
  { vertex_mem := fun u =>
      (g.vertex_mem u).map fun ux =>
        { ux with
          outgoing_edges := if u = src then ux.outgoing_edges ++ [e] else ux.outgoing_edges
          incoming_edges := if u = dst then ux.incoming_edges ++ [e] else ux.incoming_edges }
    edge_mem := Function.update g.edge_mem e
      (some { ed with vertex_src := some src, vertex_dst := some dst }) }

/-- An edge is listed in the heap when it occurs in an adjacency list of a
live vertex. -/
def Graph.lists (g : Graph R N) (e : EdgeId) : Prop :=
  ∃ u ux, g.vertex_mem u = some ux ∧ (e ∈ ux.outgoing_edges ∨ e ∈ ux.incoming_edges)

end consistency

section reachability

variable {R : Type} [Zero R] [One R] [Neg R] [Add R] [Sub R] [LE R] [LT R]
  [∀ a b : R, Decidable (a ≤ b)] [∀ a b : R, Decidable (a < b)] [Fabs R] {N : Nat}

/-- The planner states reachable from the empty graph: the caller allocates
vertices and edges (`new`) and calls `insert_vertex`, `insert_edge` on an edge
that no adjacency list holds yet, `delete_edge`, `delete_vertex` and
`insert_trajectory`; only returning calls are steps. -/
inductive reachable : Base R N → Prop where
  | init (m : minimum_time_reachability R N) :
      reachable (Base.new m ⟨fun _ => none, fun _ => none⟩)
  | new_vertex (b : Base R N) (p : VertexId) (state : state_t R N) (data : vertex_data R)
      (hb : reachable b) (hp : b.graph.vertex_mem p = none) :
      reachable { b with graph := b.graph.new_vertex p state data }
  | new_edge (b : Base R N) (p : EdgeId) (trajectory : trajectory_t R N)
      (hb : reachable b) (hp : b.graph.edge_mem p = none) :
      reachable { b with graph := b.graph.new_edge p trajectory }
  | insert_vertex (b b2 : Base R N) (v : VertexId) (r : Int)
      (hb : reachable b) (h : Base.insert_vertex b v = Except.ok (b2, r)) : reachable b2
  | insert_edge (b b2 : Base R N) (src dst : VertexId) (e : EdgeId) (r : Int)
      (hb : reachable b) (hfresh : ¬ b.graph.lists e)
      (h : Base.insert_edge b src e dst = Except.ok (b2, r)) : reachable b2
  | delete_edge (b b2 : Base R N) (e : EdgeId) (r : Int)
      (hb : reachable b) (h : Base.delete_edge b e = Except.ok (b2, r)) : reachable b2
  | delete_vertex (b b2 : Base R N) (v : VertexId) (r : Int)
      (hb : reachable b) (h : Base.delete_vertex b v = Except.ok (b2, r)) : reachable b2
  | insert_trajectory (b b2 : Base R N) (nv : VertexId) (data0 : vertex_data R) (ne : EdgeId)
      (src : VertexId) (traj : trajectory_t R N) (iv : Option (List (state_t R N)))
      (dst : Option VertexId) (r : Int)
      (hb : reachable b) (hnv : b.graph.vertex_mem nv = none)
      (hne : b.graph.edge_mem ne = none)
      (h : Base.insert_trajectory b nv data0 ne src traj iv dst = Except.ok (b2, r)) :
      reachable b2

end reachability

section unlinking

variable {R : Type} {N : Nat}

/-- The heap in which the edge `e` is freed and erased from the outgoing list
of `src` and from the incoming list of `dst`, the other entries keeping their
order.  It describes the effect of `delete_edge` on an edge with these end
points. -/
def Graph.unlink (g : Graph R N) (src : VertexId) (e : EdgeId) (dst : VertexId) : Graph R N :=
  { vertex_mem := fun u =>
      (g.vertex_mem u).map fun ux =>
        { ux with
          outgoing_edges :=
            if u = src then ux.outgoing_edges.filter fun x => x != e else ux.outgoing_edges
          incoming_edges :=
            if u = dst then ux.incoming_edges.filter fun x => x != e else ux.incoming_edges }
    edge_mem := Function.update g.edge_mem e none }

end unlinking

section delete_examples

/-- A two-vertex heap: root `0`, vertex `1`, and the edge `0` from `0` to
`1`. -/
def exGsmall : Graph ℤ 1 :=
  { vertex_mem := fun i =>
      match i with
      | 0 => some ⟨fun _ => 0, ⟨0, false⟩, [], [0]⟩
      | 1 => some ⟨fun _ => 5, ⟨3, true⟩, [0], []⟩
      | _ => none
    edge_mem := fun i =>
      match i with
      | 0 => some ⟨some 0, some 1, ⟨[], [⟨3, []⟩]⟩⟩
      | _ => none }

/-- A planner over `exGsmall` listing both vertices. -/
def exBsmall : Base ℤ 1 :=
  { Base.new exM1 exGsmall with list_vertices := [0, 1], num_vertices := 2 }

/-- The two-vertex heap after `insert_edge(0, 0, 1)` was called a second time
on the same edge: the edge `0` from `0` to `1` is listed twice in the outgoing
list of `0` and twice in the incoming list of `1`. -/
def exGdup : Graph ℤ 1 :=
  { vertex_mem := fun i =>
      match i with
      | 0 => some ⟨fun _ => 0, ⟨0, false⟩, [], [0, 0]⟩
      | 1 => some ⟨fun _ => 5, ⟨3, true⟩, [0, 0], []⟩
      | _ => none
    edge_mem := fun i =>
      match i with
      | 0 => some ⟨some 0, some 1, ⟨[], [⟨3, []⟩]⟩⟩
      | _ => none }

/-- A planner over `exGdup` listing both vertices. -/
def exBdup : Base ℤ 1 :=
  { Base.new exM1 exGdup with list_vertices := [0, 1], num_vertices := 2 }

end delete_examples

section reachable_examples

/-- A sequence of calls from the empty planner: four vertices are allocated
and inserted, one edge is allocated, and `insert_edge` is called on it twice,
first from vertex `0` to vertex `1`, then from vertex `2` to vertex `3`. -/
def exRunDouble : Except Fault (Base ℤ 1) := do
  let b : Base ℤ 1 := Base.new minimum_time_reachability.default ⟨fun _ => none, fun _ => none⟩
  let (b, _) ← Base.insert_vertex { b with graph := b.graph.new_vertex 0 (fun _ => 0) ⟨0, false⟩ } 0
  let (b, _) ← Base.insert_vertex { b with graph := b.graph.new_vertex 1 (fun _ => 1) ⟨0, false⟩ } 1
  let (b, _) ← Base.insert_vertex { b with graph := b.graph.new_vertex 2 (fun _ => 2) ⟨0, false⟩ } 2
  let (b, _) ← Base.insert_vertex { b with graph := b.graph.new_vertex 3 (fun _ => 3) ⟨0, false⟩ } 3
  let (b, _) ← Base.insert_edge { b with graph := b.graph.new_edge 0 ⟨[], []⟩ } 0 0 1
  let (b, _) ← Base.insert_edge b 2 0 3
  pure b

end reachable_examples


section collision

variable {R : Type} {N : Nat}

/-- The private helper `rrg::check_extended_trajectory_for_collision`:
`push_front(state)`, the call of the collision checker, `pop_front()`
(undefined on an empty list).  The collision checker is a component outside
the planner; `check_collision_trajectory` gives, for the trajectory it is
handed, its answer and the trajectory it leaves behind.  The result is the
returned integer and the caller's trajectory afterwards. -/
def rrg.check_extended_trajectory_for_collision
    (check_collision_trajectory : trajectory_t R N → Int × trajectory_t R N)
    (state : state_t R N) (trajectory : trajectory_t R N) :
    Except Fault (Int × trajectory_t R N) :=
  let t1 : trajectory_t R N := { trajectory with list_states := state :: trajectory.list_states }
  let (collision_check, t2) := check_collision_trajectory t1
  match t2.list_states with
  | [] => Except.error Fault.dangling
  | _ :: rest => Except.ok (collision_check, { t2 with list_states := rest })

/-- The private helper `rrt::check_extended_trajectory_for_collision`, written
out from `not_ported/planners/rrt.h`. -/
def rrt.check_extended_trajectory_for_collision
    (check_collision_trajectory : trajectory_t R N → Int × trajectory_t R N)
    (state : state_t R N) (trajectory : trajectory_t R N) :
    Except Fault (Int × trajectory_t R N) :=
  let t1 : trajectory_t R N := { trajectory with list_states := state :: trajectory.list_states }
  let (collision_check, t2) := check_collision_trajectory t1
  match t2.list_states with
  | [] => Except.error Fault.dangling
  | _ :: rest => Except.ok (collision_check, { t2 with list_states := rest })

end collision

section constructors

variable {R : Type} {N : Nat}

/-- The constructor `minimum_time_reachability(const region_t &region_in)`: its
body is the single assignment `region_goal = region_in`.  The list members are
empty after their own construction; the pointer member `min_cost_vertex` is
not assigned, so it keeps the value `min_cost_vertex0` its storage holds when
the body is entered. -/
def minimum_time_reachability.of_region (min_cost_vertex0 : Option VertexId)
    (region_in : region R N) : minimum_time_reachability R N :=
  { min_cost_vertex := min_cost_vertex0
    min_cost_trajectory := ⟨[], []⟩
    region_goal := region_in
    distance_function := none
    cost_function := none
    list_update_functions := [] }

end constructors

section notify_runs

variable {R : Type} [Zero R] [One R] [Neg R] [Add R] [Sub R] [LE R] [LT R]
  [∀ a b : R, Decidable (a ≤ b)] [∀ a b : R, Decidable (a < b)] [Fabs R] {N : Nat}

/-- One step of a caller that keeps the component informed: a vertex is
inserted (`mc_update_insert_vertex`, then `ce_update_vertex_cost` on it), or
the total cost of a vertex is lowered to `cost` (the step leaves the cost as it
is when `cost` is not less than or equal to it) and `ce_update_vertex_cost` is
called on that vertex. -/
inductive notify_step (R : Type) where
  | insert (v : VertexId)
  | lower (v : VertexId) (cost : R)

/-- The heap and the component during such a run, with the vertices notified
so far, each with the value its `reaches_goal` field had when
`ce_update_vertex_cost` was called on it. -/
structure notify_state (R : Type) (N : Nat) where
  graph : Graph R N
  mtr : minimum_time_reachability R N
  notified : List (VertexId × Bool)

/-- The field `reaches_goal` of a vertex of the heap. -/
def goal_reaching (g : Graph R N) (v : VertexId) : Bool :=
  match g.vertex_mem v with
  | none => false
  | some vx => vx.data.reaches_goal

/-- The heap in which the total cost of the live vertex `v`, of contents `vx`,
has been lowered to `cost`; a `cost` that is not less than or equal to the
current one is not a lowering and leaves it. -/
def lower_cost (g : Graph R N) (v : VertexId) (vx : vertex_t R N) (cost : R) : Graph R N :=
  { g with
    vertex_mem := Function.update g.vertex_mem v
      (some { vx with
        data := { vx.data with
          total_cost := if cost ≤ vx.data.total_cost then cost else vx.data.total_cost } }) }

/-- A run of steps from a state. -/
def notify_run (fuel : Nat) :
    notify_state R N → List (notify_step R) → Except Fault (notify_state R N)
  | s, [] => Except.ok s
  | s, notify_step.insert v :: rest =>
    match mc_update_insert_vertex s.graph s.mtr v with
    | Except.error f => Except.error f
    | Except.ok (g1, m1, _) =>
      match ce_update_vertex_cost fuel g1 m1 v with
      | Except.error f => Except.error f
      | Except.ok r =>
        notify_run fuel ⟨g1, r.mtr, s.notified ++ [(v, goal_reaching g1 v)]⟩ rest
  | s, notify_step.lower v cost :: rest =>
    match s.graph.vertex_mem v with
    | none => Except.error Fault.dangling
    | some vx =>
      match ce_update_vertex_cost fuel (lower_cost s.graph v vx cost) s.mtr v with
      | Except.error f => Except.error f
      | Except.ok r =>
        notify_run fuel
          ⟨lower_cost s.graph v vx cost, r.mtr,
            s.notified ++ [(v, goal_reaching (lower_cost s.graph v vx cost) v)]⟩ rest

end notify_runs

section loop_examples

/-- A three-vertex heap with a self-loop: the edge `0` from the root `0` to
vertex `1`, the edge `1` from vertex `1` to itself, the edge `2` from vertex
`1` to vertex `2`. -/
def exGloop : Graph ℤ 1 :=
  { vertex_mem := fun i =>
      match i with
      | 0 => some ⟨fun _ => 0, ⟨0, false⟩, [], [0]⟩
      | 1 => some ⟨fun _ => 5, ⟨3, true⟩, [0, 1], [1, 2]⟩
      | 2 => some ⟨fun _ => 6, ⟨4, true⟩, [2], []⟩
      | _ => none
    edge_mem := fun i =>
      match i with
      | 0 => some ⟨some 0, some 1, ⟨[], [⟨3, []⟩]⟩⟩
      | 1 => some ⟨some 1, some 1, ⟨[], [⟨1, []⟩]⟩⟩
      | 2 => some ⟨some 1, some 2, ⟨[], [⟨1, []⟩]⟩⟩
      | _ => none }

/-- A planner over `exGloop` listing the three vertices, with one vertex-delete
callback and one edge-delete callback registered. -/
def exBloop : Base ℤ 1 :=
  { Base.new exM1 exGloop with
    list_vertices := [0, 1, 2]
    num_vertices := 3
    list_update_delete_vertex_functions := [9]
    list_update_delete_edge_functions := [12] }

end loop_examples


section counting

variable {R : Type} [Zero R] [One R] [Neg R] [Add R] [Sub R] [LE R] [LT R]
  [∀ a b : R, Decidable (a ≤ b)] [∀ a b : R, Decidable (a < b)] [Fabs R] {N : Nat}

/-- The planner states reached from a newly constructed planner (empty vertex
list, count zero, over any heap) when the caller allocates vertices and edges
(`new`) and makes returning calls of `insert_vertex` on a vertex that the list
does not hold, of `insert_edge`, of `delete_edge`, of `insert_trajectory`
(whose two `new` expressions return addresses of no live object) and of
`delete_vertex` on a vertex that the list holds. -/
inductive listed_once : Base R N → Prop where
  | init (m : minimum_time_reachability R N) (g : Graph R N) : listed_once (Base.new m g)
  | new_vertex (b : Base R N) (p : VertexId) (state : state_t R N) (data : vertex_data R)
      (hb : listed_once b) (hp : b.graph.vertex_mem p = none) :
      listed_once { b with graph := b.graph.new_vertex p state data }
  | new_edge (b : Base R N) (p : EdgeId) (trajectory : trajectory_t R N)
      (hb : listed_once b) (hp : b.graph.edge_mem p = none) :
      listed_once { b with graph := b.graph.new_edge p trajectory }
  | insert_vertex (b b2 : Base R N) (v : VertexId) (r : Int)
      (hb : listed_once b) (hnew : v ∉ b.list_vertices)
      (h : Base.insert_vertex b v = Except.ok (b2, r)) : listed_once b2
  | insert_edge (b b2 : Base R N) (src dst : VertexId) (e : EdgeId) (r : Int)
      (hb : listed_once b)
      (h : Base.insert_edge b src e dst = Except.ok (b2, r)) : listed_once b2
  | delete_edge (b b2 : Base R N) (e : EdgeId) (r : Int)
      (hb : listed_once b) (h : Base.delete_edge b e = Except.ok (b2, r)) : listed_once b2
  | delete_vertex (b b2 : Base R N) (v : VertexId) (r : Int)
      (hb : listed_once b) (hlisted : v ∈ b.list_vertices)
      (h : Base.delete_vertex b v = Except.ok (b2, r)) : listed_once b2
  | insert_trajectory (b b2 : Base R N) (nv : VertexId) (data0 : vertex_data R) (ne : EdgeId)
      (src : VertexId) (traj : trajectory_t R N) (iv : Option (List (state_t R N)))
      (dst : Option VertexId) (r : Int)
      (hb : listed_once b) (hnv : b.graph.vertex_mem nv = none)
      (hne : b.graph.edge_mem ne = none)
      (h : Base.insert_trajectory b nv data0 ne src traj iv dst = Except.ok (b2, r)) :
      listed_once b2

end counting


section notify_invariants

variable {R : Type} [Zero R] [One R] [Neg R] [Add R] [Sub R] [LE R] [LT R]
  [∀ a b : R, Decidable (a ≤ b)] [∀ a b : R, Decidable (a < b)] [Fabs R] {N : Nat}

/-- The vertex a step notifies. -/
def notify_step.vertex : notify_step R → VertexId
  | notify_step.insert v => v
  | notify_step.lower v _ => v

/-- What a run maintains: a best vertex is recorded exactly when some
notification was made on a vertex whose `reaches_goal` field was set; a
recorded best vertex is live; and every notified live vertex whose
`reaches_goal` field is set is bounded below by a recorded best vertex. -/
def notify_invariant (s : notify_state R N) : Prop :=
  (s.mtr.min_cost_vertex ≠ none ↔ ∃ p ∈ s.notified, p.2 = true) ∧
  (∀ b, s.mtr.min_cost_vertex = some b → ∃ bx, s.graph.vertex_mem b = some bx) ∧
  ∀ p ∈ s.notified, ∀ ux, s.graph.vertex_mem p.1 = some ux → ux.data.reaches_goal = true →
    ∃ b bx, s.mtr.min_cost_vertex = some b ∧ s.graph.vertex_mem b = some bx ∧
      bx.data.total_cost ≤ ux.data.total_cost

/-- Between the heaps `g` and `g1` only the vertex `v` changed, and its total
cost did not increase. -/
def only_lowered (g g1 : Graph R N) (v : VertexId) : Prop :=
  ∀ u ux1, g1.vertex_mem u = some ux1 →
    ∃ ux, g.vertex_mem u = some ux ∧ (u ≠ v → ux1 = ux) ∧
      ux1.data.total_cost ≤ ux.data.total_cost

end notify_invariants


section doubles

/-- A fragment of the values of `double`: NaN and the integers.  On integers
of magnitude below 2^53 the arithmetic of `double` is exact, and every
comparison with NaN is false; the operations below are those of the source's
scalar type on such values. -/
inductive xdouble where
  | nan
  | val (x : ℤ)
deriving DecidableEq, Repr

/-- The comparison `a <= b` of two doubles: false when either is NaN. -/
def xdouble.le : xdouble → xdouble → Bool
  | xdouble.val x, xdouble.val y => decide (x ≤ y)
  | _, _ => false

/-- The comparison `a < b` of two doubles: false when either is NaN. -/
def xdouble.lt : xdouble → xdouble → Bool
  | xdouble.val x, xdouble.val y => decide (x < y)
  | _, _ => false

/-- The sum of two doubles: NaN when either is NaN. -/
def xdouble.add : xdouble → xdouble → xdouble
  | xdouble.val x, xdouble.val y => xdouble.val (x + y)
  | _, _ => xdouble.nan

/-- The difference of two doubles: NaN when either is NaN. -/
def xdouble.sub : xdouble → xdouble → xdouble
  | xdouble.val x, xdouble.val y => xdouble.val (x - y)
  | _, _ => xdouble.nan

/-- The opposite of a double. -/
def xdouble.neg : xdouble → xdouble
  | xdouble.val x => xdouble.val (-x)
  | xdouble.nan => xdouble.nan

/-- The function `fabs` on a double: NaN on NaN. -/
def xdouble.fabs : xdouble → xdouble
  | xdouble.val x => xdouble.val |x|
  | xdouble.nan => xdouble.nan

instance : Zero xdouble := ⟨xdouble.val 0⟩

instance : One xdouble := ⟨xdouble.val 1⟩

instance : Neg xdouble := ⟨xdouble.neg⟩

instance : Add xdouble := ⟨xdouble.add⟩

instance : Sub xdouble := ⟨xdouble.sub⟩

instance : LE xdouble := ⟨fun a b => xdouble.le a b = true⟩

instance : LT xdouble := ⟨fun a b => xdouble.lt a b = true⟩

instance (a b : xdouble) : Decidable (a ≤ b) :=
  if h : xdouble.le a b = true then isTrue h else isFalse h

instance (a b : xdouble) : Decidable (a < b) :=
  if h : xdouble.lt a b = true then isTrue h else isFalse h

instance : Fabs xdouble := ⟨xdouble.fabs⟩

/-- A heap of doubles with the single vertex `0`, without edge, whose state is
NaN, not yet examined by the model checker. -/
def exGnan : Graph xdouble 1 :=
  { vertex_mem := fun i =>
      match i with
      | 0 => some ⟨fun _ => xdouble.nan, ⟨xdouble.val 0, false⟩, [], []⟩
      | _ => none
    edge_mem := fun _ => none }

/-- A heap of doubles with two goal-reaching vertices of state 0, without
edge: vertex `0` of total cost NaN and vertex `1` of total cost 1. -/
def exGnanCost : Graph xdouble 1 :=
  { vertex_mem := fun i =>
      match i with
      | 0 => some ⟨fun _ => xdouble.val 0, ⟨xdouble.nan, true⟩, [], []⟩
      | 1 => some ⟨fun _ => xdouble.val 0, ⟨xdouble.val 1, true⟩, [], []⟩
      | _ => none
    edge_mem := fun _ => none }

/-- A fresh component of doubles whose goal region has centre 6 and half-size
2. -/
def exMnan : minimum_time_reachability xdouble 1 :=
  (set_goal_region minimum_time_reachability.default
    ⟨fun _ => xdouble.val 6, fun _ => xdouble.val 2⟩).1

end doubles


section reachable_examples2

/-- A sequence of calls from the empty planner that uses every operation:
three vertices are allocated and inserted, an edge `0` is allocated and
inserted from vertex `0` to vertex `1`, an edge `1` is allocated and inserted
from vertex `1` to vertex `2`, a trajectory with the states 9 and 10 is
inserted from vertex `0` without destination (new vertex `3`, new edge `2`),
edge `0` is deleted, and vertex `2` is deleted. -/
def exRunAll : Except Fault (Base ℤ 1) := do
  let b : Base ℤ 1 := Base.new minimum_time_reachability.default ⟨fun _ => none, fun _ => none⟩
  let (b, _) ← Base.insert_vertex { b with graph := b.graph.new_vertex 0 (fun _ => 0) ⟨0, false⟩ } 0
  let (b, _) ← Base.insert_vertex { b with graph := b.graph.new_vertex 1 (fun _ => 1) ⟨0, false⟩ } 1
  let (b, _) ← Base.insert_vertex { b with graph := b.graph.new_vertex 2 (fun _ => 2) ⟨0, false⟩ } 2
  let (b, _) ← Base.insert_edge { b with graph := b.graph.new_edge 0 ⟨[], []⟩ } 0 0 1
  let (b, _) ← Base.insert_edge { b with graph := b.graph.new_edge 1 ⟨[], []⟩ } 1 1 2
  let (b, _) ← Base.insert_trajectory b 3 ⟨0, false⟩ 2 0
    ⟨[fun _ => 9, fun _ => 10], [⟨1, []⟩]⟩ none none
  let (b, _) ← Base.delete_edge b 0
  let (b, _) ← Base.delete_vertex b 2
  pure b

end reachable_examples2

end smp

namespace smp

section chain_lemmas

variable {R : Type} {N : Nat}

theorem chain_states_append (p q : List (edge_t R N × vertex_t R N)) :
    chain_states (p ++ q) = chain_states p ++ chain_states q := by
  induction p with
  | nil => rfl
  | cons a rest ih => simp [chain_states, ih]

theorem chain_inputs_append (p q : List (edge_t R N × vertex_t R N)) :
    chain_inputs (p ++ q) = chain_inputs p ++ chain_inputs q := by
  induction p with
  | nil => rfl
  | cons a rest ih => simp [chain_inputs, ih]

theorem foldl_push_front {α : Type} (l acc : List α) :
    l.foldl (fun out s => s :: out) acc = l.reverse ++ acc := by
  induction l generalizing acc with
  | nil => rfl
  | cons a rest ih => simp [ih]

/-- Along a finite parent chain the rebuild loop finishes as soon as the fuel
exceeds the length of the chain, and appends the chain in reverse. -/
theorem rebuild_loop_chain (g : Graph R N) (root v : VertexId)
    (path : List (edge_t R N × vertex_t R N)) (h : parent_chain g root path v) :
    ∀ (fuel : Nat) (acc : trajectory_t R N), path.length < fuel →
      rebuild_loop g fuel v acc =
        Except.ok ⟨acc.list_states ++ (chain_states path).reverse,
          acc.list_inputs ++ (chain_inputs path).reverse⟩ := by
  induction h with
  | nil rx hroot hin =>
    intro fuel acc hf
    obtain ⟨k, rfl⟩ : ∃ k, fuel = k + 1 := ⟨fuel - 1, by omega⟩
    simp [rebuild_loop, hroot, hin, chain_states, chain_inputs]
  | snoc path u v e vx ed hchain hv hlast he hsrc ih =>
    intro fuel acc hf
    obtain ⟨k, rfl⟩ : ∃ k, fuel = k + 1 := ⟨fuel - 1, by omega⟩
    have hk : path.length < k := by
      simp at hf
      omega
    simp [rebuild_loop, hv, hlast, he, hsrc, ih k _ hk, chain_states_append,
      chain_inputs_append, chain_states, chain_inputs]

/-- Whenever a rebuild succeeds, `update_trajectory` records `vertex_in`. -/
theorem update_trajectory_ok (fuel : Nat) (g : Graph R N) (m : minimum_time_reachability R N)
    (v : VertexId) (r : ce_result R N) (h : update_trajectory fuel g m v = Except.ok r) :
    ∃ traj, rebuild_loop g fuel v ⟨[], []⟩ = Except.ok traj ∧
      r = { mtr := { m with min_cost_vertex := some v, min_cost_trajectory := traj }
            calls := m.list_update_functions.map fun f => (f, traj)
            ret := 1 } := by
  unfold update_trajectory at h
  cases hr : rebuild_loop g fuel v ⟨[], []⟩ with
  | error f => simp [hr] at h
  | ok traj =>
    simp [hr] at h
    exact ⟨traj, rfl, h.symm⟩

/-- Along a finite parent chain `update_trajectory` succeeds with the chain
stored in reverse. -/
theorem update_trajectory_chain (fuel : Nat) (g : Graph R N) (m : minimum_time_reachability R N)
    (root v : VertexId) (path : List (edge_t R N × vertex_t R N))
    (h : parent_chain g root path v) (hf : path.length < fuel) :
    update_trajectory fuel g m v =
      Except.ok
        { mtr := { m with
            min_cost_vertex := some v
            min_cost_trajectory := ⟨(chain_states path).reverse, (chain_inputs path).reverse⟩ }
          calls := m.list_update_functions.map fun f =>
            (f, ⟨(chain_states path).reverse, (chain_inputs path).reverse⟩)
          ret := 1 } := by
  unfold update_trajectory
  rw [rebuild_loop_chain g root v path h fuel ⟨[], []⟩ hf]
  simp

/-- The last state emitted for a non-empty parent chain of `v` is the state of
`v`. -/
theorem chain_states_getLast (g : Graph R N) (root v : VertexId)
    (path : List (edge_t R N × vertex_t R N)) (vx : vertex_t R N)
    (hp : parent_chain g root path v) (hv : g.vertex_mem v = some vx) (hne : path ≠ []) :
    (chain_states path).getLast? = some vx.state := by
  cases hp with
  | nil rx hroot hin => exact absurd rfl hne
  | snoc path0 u _ e vy ed hchain hvy hlast he hsrc =>
    have hxy : vy = vx := by
      rw [hvy] at hv
      exact Option.some.inj hv
    subst hxy
    simp [chain_states_append, chain_states]

end chain_lemmas

section mtr_lemmas

variable {R : Type} [LinearOrderedRing R] {N : Nat}

/-- Claim C1: `ce_update_vertex_cost(v)` makes `v` the best vertex when `v`
reaches the goal and either no best vertex is recorded or the cost of `v` is
at most the cost of the recorded one (so a tie replaces the older vertex); the
call returns as soon as the parent chain of `v` is finite.  In every other
case the component, with its best vertex and stored trajectory, is returned
unchanged and no callback is called. -/
theorem ce_update_vertex_cost_selects (fuel : Nat) (g : Graph R N)
    (m : minimum_time_reachability R N) (v : VertexId) (vx : vertex_t R N)
    (hv : g.vertex_mem v = some vx)
    (hb : ∀ b, m.min_cost_vertex = some b → ∃ bx, g.vertex_mem b = some bx) :
    ((vx.data.reaches_goal = true ∧
        (m.min_cost_vertex = none ∨
          ∃ b bx, m.min_cost_vertex = some b ∧ g.vertex_mem b = some bx ∧
            vx.data.total_cost ≤ bx.data.total_cost)) →
      (∀ r, ce_update_vertex_cost fuel g m v = Except.ok r → r.mtr.min_cost_vertex = some v) ∧
      (∀ root path, parent_chain g root path v → path.length < fuel →
        ∃ r, ce_update_vertex_cost fuel g m v = Except.ok r ∧
          r.mtr.min_cost_vertex = some v)) ∧
    (¬ (vx.data.reaches_goal = true ∧
        (m.min_cost_vertex = none ∨
          ∃ b bx, m.min_cost_vertex = some b ∧ g.vertex_mem b = some bx ∧
            vx.data.total_cost ≤ bx.data.total_cost)) →
      ce_update_vertex_cost fuel g m v = Except.ok ⟨m, [], 1⟩) ∧
    (∀ b bx, m.min_cost_vertex = some b → g.vertex_mem b = some bx →
      vx.data.reaches_goal = true → vx.data.total_cost = bx.data.total_cost →
      ∀ root path, parent_chain g root path v → path.length < fuel →
        ∃ r, ce_update_vertex_cost fuel g m v = Except.ok r ∧
          r.mtr.min_cost_vertex = some v) := by
  have key : (vx.data.reaches_goal = true ∧
        (m.min_cost_vertex = none ∨
          ∃ b bx, m.min_cost_vertex = some b ∧ g.vertex_mem b = some bx ∧
            vx.data.total_cost ≤ bx.data.total_cost)) →
      ce_update_vertex_cost fuel g m v = update_trajectory fuel g m v := by
    rintro ⟨hg, hsel⟩
    rcases hsel with hnone | ⟨b, bx, hbm, hbx, hle⟩
    · simp [ce_update_vertex_cost, hv, hg, hnone]
    · simp [ce_update_vertex_cost, hv, hg, hbm, hbx, hle]
  have sel : (vx.data.reaches_goal = true ∧
        (m.min_cost_vertex = none ∨
          ∃ b bx, m.min_cost_vertex = some b ∧ g.vertex_mem b = some bx ∧
            vx.data.total_cost ≤ bx.data.total_cost)) →
      (∀ r, ce_update_vertex_cost fuel g m v = Except.ok r → r.mtr.min_cost_vertex = some v) ∧
      (∀ root path, parent_chain g root path v → path.length < fuel →
        ∃ r, ce_update_vertex_cost fuel g m v = Except.ok r ∧
          r.mtr.min_cost_vertex = some v) := by
    intro hc
    refine ⟨fun r hr => ?_, fun root path hp hf => ?_⟩
    · rw [key hc] at hr
      obtain ⟨traj, -, rfl⟩ := update_trajectory_ok fuel g m v r hr
      rfl
    · rw [key hc, update_trajectory_chain fuel g m root v path hp hf]
      exact ⟨_, rfl, rfl⟩
  refine ⟨sel, fun hn => ?_, fun b bx hbm hbx hg heq root path hp hf => ?_⟩
  · by_cases hg : vx.data.reaches_goal = true
    · cases hm : m.min_cost_vertex with
      | none => exact absurd ⟨hg, Or.inl hm⟩ hn
      | some b =>
        obtain ⟨bx, hbx⟩ := hb b hm
        have hlt : ¬ vx.data.total_cost ≤ bx.data.total_cost := fun hle =>
          hn ⟨hg, Or.inr ⟨b, bx, hm, hbx, hle⟩⟩
        simp [ce_update_vertex_cost, hv, hg, hm, hbx, hlt]
    · simp [ce_update_vertex_cost, hv, hg]
  · exact (sel ⟨hg, Or.inr ⟨b, bx, hbm, hbx, le_of_eq heq⟩⟩).2 root path hp hf

/-- Witness for C1: in the example heap vertex `2` ties with the recorded best
vertex `1` and replaces it. -/
theorem ce_update_vertex_cost_selects_witness :
    ∃ r, ce_update_vertex_cost 5 exG exM1 2 = Except.ok r ∧ r.mtr.min_cost_vertex = some 2 :=
  (ce_update_vertex_cost_selects 5 exG exM1 2 exV2 rfl
      (fun b hb => ⟨exV1, by cases hb; rfl⟩)).2.2 1 exV1 rfl rfl rfl rfl 0 [(exE1, exV2)]
    (parent_chain.snoc [] 0 2 1 exV2 exE1 (parent_chain.nil exV0 rfl rfl) rfl rfl rfl rfl)
    (by decide)

/-- Claim C2 (amended): when the parent chain of a goal-reaching vertex `v` is
finite and `ce_update_vertex_cost(v)` selects `v`, the call returns and
`get_solution` then yields the forward trajectory of the chain: for each edge
from the root to `v` in order, the states of the edge followed by the state of
the vertex it enters.  Its last state is the state of `v` when `v` is not the
root; its first state is the first state emitted for the first edge, the state
of the root itself is not part of it, and it is empty when `v` is the root. -/
theorem get_solution_forward (fuel : Nat) (g : Graph R N) (m : minimum_time_reachability R N)
    (root v : VertexId) (vx : vertex_t R N) (path : List (edge_t R N × vertex_t R N))
    (out : trajectory_t R N)
    (hp : parent_chain g root path v) (hf : path.length < fuel)
    (hv : g.vertex_mem v = some vx) (hgoal : vx.data.reaches_goal = true)
    (hsel : m.min_cost_vertex = none ∨
      ∃ b bx, m.min_cost_vertex = some b ∧ g.vertex_mem b = some bx ∧
        vx.data.total_cost ≤ bx.data.total_cost) :
    ∃ r, ce_update_vertex_cost fuel g m v = Except.ok r ∧
      r.mtr.min_cost_vertex = some v ∧
      get_solution r.mtr out = (1, ⟨chain_states path, chain_inputs path⟩, r.mtr) ∧
      (path ≠ [] → (get_solution r.mtr out).2.1.list_states.getLast? = some vx.state) ∧
      (∀ p rest, path = p :: rest →
        (get_solution r.mtr out).2.1.list_states.head? =
          (p.1.trajectory_edge.list_states ++ [p.2.state]).head?) ∧
      (path = [] → (get_solution r.mtr out).2.1.list_states = []) := by
  have hce : ce_update_vertex_cost fuel g m v = update_trajectory fuel g m v := by
    rcases hsel with hnone | ⟨b, bx, hbm, hbx, hle⟩
    · simp [ce_update_vertex_cost, hv, hgoal, hnone]
    · simp [ce_update_vertex_cost, hv, hgoal, hbm, hbx, hle]
  rw [hce, update_trajectory_chain fuel g m root v path hp hf]
  refine ⟨_, rfl, rfl, ?_⟩
  have hsol : ∀ m0 : minimum_time_reachability R N,
      get_solution
        { m0 with
          min_cost_vertex := some v
          min_cost_trajectory := ⟨(chain_states path).reverse, (chain_inputs path).reverse⟩ }
        out =
      (1, ⟨chain_states path, chain_inputs path⟩,
        { m0 with
          min_cost_vertex := some v
          min_cost_trajectory :=
            ⟨(chain_states path).reverse, (chain_inputs path).reverse⟩ }) := by
    intro m0
    simp [get_solution, foldl_push_front]
  rw [hsol m]
  refine ⟨rfl, fun hne => ?_, fun p rest hpath => ?_, fun hnil => ?_⟩
  · exact chain_states_getLast g root v path vx hp hv hne
  · subst hpath
    cases hS : p.1.trajectory_edge.list_states <;> simp [chain_states, hS]
  · subst hnil
    rfl

/-- Witness for C2 (amended): vertex `1` of the example heap, selected by a
fresh component. -/
theorem get_solution_forward_witness :
    ∃ r, ce_update_vertex_cost 5 exG minimum_time_reachability.default 1 = Except.ok r ∧
      r.mtr.min_cost_vertex = some 1 ∧
      get_solution r.mtr ⟨[], []⟩ =
        (1, ⟨chain_states [(exE0, exV1)], chain_inputs [(exE0, exV1)]⟩, r.mtr) ∧
      ([(exE0, exV1)] ≠ [] →
        (get_solution r.mtr ⟨[], []⟩).2.1.list_states.getLast? = some exV1.state) ∧
      (∀ p rest, [(exE0, exV1)] = p :: rest →
        (get_solution r.mtr ⟨[], []⟩).2.1.list_states.head? =
          (p.1.trajectory_edge.list_states ++ [p.2.state]).head?) ∧
      ([(exE0, exV1)] = [] → (get_solution r.mtr ⟨[], []⟩).2.1.list_states = []) :=
  get_solution_forward 5 exG minimum_time_reachability.default 0 1 exV1 [(exE0, exV1)] ⟨[], []⟩
    (parent_chain.snoc [] 0 1 0 exV1 exE0 (parent_chain.nil exV0 rfl rfl) rfl rfl rfl rfl)
    (by decide) rfl rfl (Or.inl rfl)

/-- Counterexample for C2 as stated, on the example tree: selecting vertex `1`
(a child of the root) gives a trajectory whose first state is the intermediate
state 2 of the edge, not the state 0 of the root; selecting the root itself
gives a trajectory without any state, so no last state equal to the state of
the best vertex. -/
theorem get_solution_root_state_counterexample :
    (∃ r, ce_update_vertex_cost 5 exG minimum_time_reachability.default 1 = Except.ok r ∧
      r.mtr.min_cost_vertex = some 1 ∧
      (get_solution r.mtr ⟨[], []⟩).2.1.list_states.map (fun s => s 0) = [2, 5] ∧
      (get_solution r.mtr ⟨[], []⟩).2.1.list_states.head? ≠ some exV0.state) ∧
    (∃ r, ce_update_vertex_cost 5 exG minimum_time_reachability.default 0 = Except.ok r ∧
      r.mtr.min_cost_vertex = some 0 ∧
      (get_solution r.mtr ⟨[], []⟩).2.1.list_states = [] ∧
      (get_solution r.mtr ⟨[], []⟩).2.1.list_states.getLast? ≠ some exV0.state) := by
  refine ⟨⟨_, rfl, rfl, rfl, ?_⟩, ⟨_, rfl, rfl, rfl, ?_⟩⟩
  · intro h
    have h0 : (2 : ℤ) = 0 := congrFun (Option.some.inj h) 0
    exact absurd h0 (by decide)
  · intro h
    exact Option.noConfusion h

theorem reaches_goal_loop_iff_not_gt {S : Type} {N : Nat} [LT S] [∀ a b : S, Decidable (a < b)]
    [Fabs S] (distance size : Fin N → S) (l : List (Fin N)) :
    reaches_goal_loop distance size l = true ↔
      ∀ i ∈ l, ¬ (Fabs.fabs (distance i) > size i) := by
  induction l with
  | nil => simp [reaches_goal_loop]
  | cons a rest ih =>
    by_cases h : Fabs.fabs (distance a) > size a
    · simp only [reaches_goal_loop, h, if_true, List.mem_cons, forall_eq_or_imp]
      constructor
      · intro hf
        exact absurd hf (by decide)
      · intro hall
        exact absurd trivial hall.1
    · simp only [reaches_goal_loop, h, if_false, List.mem_cons, forall_eq_or_imp, ih]
      exact ⟨fun hall => ⟨fun hn => hn, hall⟩, fun hall => hall.2⟩

theorem reaches_goal_loop_iff (distance size : Fin N → R) (l : List (Fin N)) :
    reaches_goal_loop distance size l = true ↔ ∀ i ∈ l, |distance i| ≤ size i := by
  rw [reaches_goal_loop_iff_not_gt]
  constructor
  · intro h i hi
    exact not_lt.mp (h i hi)
  · intro h i hi
    exact not_lt.mpr (h i hi)

/-- Claim C3 (amended): on a live vertex `mc_update_insert_vertex` returns 1
and stores `reaches_goal = true` exactly when in no dimension the test
`fabs(d_i) > size_i` of the program succeeds, `d` being the configured
distance function applied to the state and the goal centre, or their
component-wise difference when none is configured, whatever the arithmetic of
the scalar type; in exact arithmetic this is: every `|d_i|` is at most
`size_i`, the boundary included.  In both cases the state, the total cost and
the edge lists of the vertex, every other vertex, every edge and the component
(best vertex, best trajectory, goal region) are unchanged. -/
theorem mc_update_insert_vertex_spec :
    (∀ (S : Type) [Sub S] [LT S] [∀ a b : S, Decidable (a < b)] [Fabs S] (N : Nat)
        (g : Graph S N) (m : minimum_time_reachability S N) (v : VertexId)
        (vx : vertex_t S N),
      g.vertex_mem v = some vx →
      ∃ g2 vy, mc_update_insert_vertex g m v = Except.ok (g2, m, 1) ∧
        g2.vertex_mem v = some vy ∧
        (vy.data.reaches_goal = true ↔
          ∀ i : Fin N,
            ¬ (Fabs.fabs
                ((match m.distance_function with
                  | some f => f vx.state m.region_goal.center
                  | none => fun j => vx.state j - m.region_goal.center j) i) >
              m.region_goal.size i)) ∧
        vy.data.total_cost = vx.data.total_cost ∧
        vy.state = vx.state ∧
        vy.incoming_edges = vx.incoming_edges ∧
        vy.outgoing_edges = vx.outgoing_edges ∧
        (∀ u, u ≠ v → g2.vertex_mem u = g.vertex_mem u) ∧
        g2.edge_mem = g.edge_mem) ∧
    (∀ (R : Type) [LinearOrderedRing R] (N : Nat) (g : Graph R N)
        (m : minimum_time_reachability R N) (v : VertexId) (vx : vertex_t R N),
      g.vertex_mem v = some vx →
      ∃ g2 vy, mc_update_insert_vertex g m v = Except.ok (g2, m, 1) ∧
        g2.vertex_mem v = some vy ∧
        (vy.data.reaches_goal = true ↔
          ∀ i : Fin N,
            |(match m.distance_function with
              | some f => f vx.state m.region_goal.center
              | none => fun j => vx.state j - m.region_goal.center j) i| ≤
              m.region_goal.size i)) := by
  constructor
  · intro S _ _ _ _ N g m v vx hv
    refine ⟨{ g with
        vertex_mem := Function.update g.vertex_mem v
          (some { vx with data := { vx.data with reaches_goal := reaches_goal m vx } }) },
      { vx with data := { vx.data with reaches_goal := reaches_goal m vx } },
      ?_, ?_, ?_, rfl, rfl, rfl, rfl, ?_, rfl⟩
    · simp only [mc_update_insert_vertex, hv]
    · simp
    · simp only [reaches_goal, reaches_goal_loop_iff_not_gt, List.mem_finRange,
        forall_true_left]
      cases m.distance_function <;> rfl
    · intro u hu
      simp [Function.update, hu]
  · intro R _ N g m v vx hv
    refine ⟨{ g with
        vertex_mem := Function.update g.vertex_mem v
          (some { vx with data := { vx.data with reaches_goal := reaches_goal m vx } }) },
      { vx with data := { vx.data with reaches_goal := reaches_goal m vx } },
      ?_, ?_, ?_⟩
    · simp only [mc_update_insert_vertex, hv]
    · simp
    · simp only [reaches_goal, reaches_goal_loop_iff, List.mem_finRange, forall_true_left]
      cases m.distance_function <;> rfl

/-- Witness for C3: vertex `1` of the example heap (state 5) against the goal
region of centre 6 and half-size 2, in exact arithmetic. -/
theorem mc_update_insert_vertex_spec_witness :
    ∃ g2 vy, mc_update_insert_vertex exG exM1 1 = Except.ok (g2, exM1, 1) ∧
      g2.vertex_mem 1 = some vy ∧ vy.data.reaches_goal = true := by
  obtain ⟨g2, vy, h1, h2, h3⟩ := mc_update_insert_vertex_spec.2 ℤ 1 exG exM1 1 exV1 rfl
  refine ⟨g2, vy, h1, h2, h3.mpr ?_⟩
  intro i
  fin_cases i
  decide

/-- Counterexample for C3 as stated, on doubles: the state of vertex `0` is
NaN, the goal region has centre 6 and half-size 2; `fabs(NaN - 6) > 2` is
false, so `mc_update_insert_vertex` stores `reaches_goal = true`, although
`fabs(NaN - 6) <= 2` is false as well. -/
theorem mc_update_insert_vertex_nan_counterexample :
    (∃ g2 vy, mc_update_insert_vertex exGnan exMnan 0 = Except.ok (g2, exMnan, 1) ∧
      g2.vertex_mem 0 = some vy ∧ vy.data.reaches_goal = true) ∧
    exMnan.distance_function.isNone = true ∧
    ¬ (Fabs.fabs (xdouble.nan - exMnan.region_goal.center 0) ≤ exMnan.region_goal.size 0) :=
  ⟨⟨_, _, rfl, rfl, rfl⟩, rfl, by decide⟩

/-- Claim C4 (evaluation at the failing input): on a default-constructed
component, where no best vertex is recorded, `get_solution` returns the
positive value 1 and leaves `trajectory_out` unchanged; on a component with a
recorded best vertex it also returns 1. -/
theorem get_solution_returns_one_without_solution :
    get_solution (minimum_time_reachability.default : minimum_time_reachability ℤ 1) ⟨[], []⟩ =
        (1, ⟨[], []⟩, minimum_time_reachability.default) ∧
      (get_solution exM1 ⟨[], []⟩).1 = 1 :=
  ⟨rfl, rfl⟩

/-- Claim C5 (amended): `get_best_cost` returns -1 when no best vertex is
recorded, in particular on a default-constructed component, and otherwise the
current total cost of the best vertex; hence it returns -1 exactly when no
best vertex is recorded or the total cost of the recorded one is itself -1,
and for a recorded vertex of non-negative cost it never returns the
sentinel. -/
theorem get_best_cost_spec (g : Graph R N) (m : minimum_time_reachability R N) :
    (m.min_cost_vertex = none → get_best_cost g m = Except.ok (-1)) ∧
    (∀ b bx, m.min_cost_vertex = some b → g.vertex_mem b = some bx →
      get_best_cost g m = Except.ok bx.data.total_cost) ∧
    (get_best_cost g m = Except.ok (-1) ↔
      m.min_cost_vertex = none ∨
        ∃ b bx, m.min_cost_vertex = some b ∧ g.vertex_mem b = some bx ∧
          bx.data.total_cost = -1) ∧
    (∀ b bx, m.min_cost_vertex = some b → g.vertex_mem b = some bx →
      0 ≤ bx.data.total_cost → get_best_cost g m ≠ Except.ok (-1)) ∧
    get_best_cost g (minimum_time_reachability.default : minimum_time_reachability R N) =
      Except.ok (-1) := by
  have hsome : ∀ b bx, m.min_cost_vertex = some b → g.vertex_mem b = some bx →
      get_best_cost g m = Except.ok bx.data.total_cost := by
    intro b bx hb hbx
    simp [get_best_cost, hb, hbx]
  refine ⟨fun h => by simp [get_best_cost, h], hsome, ?_, ?_, rfl⟩
  · cases hm : m.min_cost_vertex with
    | none => simp [get_best_cost, hm]
    | some b =>
      cases hbx : g.vertex_mem b with
      | none => simp [get_best_cost, hm, hbx]
      | some bx => simp [get_best_cost, hm, hbx]
  · intro b bx hb hbx hpos h
    rw [hsome b bx hb hbx] at h
    have h1 : bx.data.total_cost = -1 := Except.ok.inj h
    rw [h1] at hpos
    have h2 : (0 : R) < 1 := zero_lt_one
    have h3 : (0 : R) ≤ -1 := hpos
    have h4 : (1 : R) ≤ 0 := by
      have := neg_nonneg.mp h3
      exact this
    exact absurd h2 (not_lt.mpr h4)

/-- Witness for C5 (amended): the recorded best vertex `1` of the example heap
has cost 3, which is what `get_best_cost` returns, and not the sentinel. -/
theorem get_best_cost_spec_witness :
    get_best_cost exG exM1 = Except.ok 3 ∧ get_best_cost exG exM1 ≠ Except.ok (-1) :=
  ⟨(get_best_cost_spec exG exM1).2.1 1 exV1 rfl rfl,
    (get_best_cost_spec exG exM1).2.2.2.1 1 exV1 rfl rfl (by decide)⟩

/-- Counterexample for C5 as stated: a fresh component notified of a
goal-reaching vertex of total cost -1 records it as best vertex, and
`get_best_cost` then returns -1 although a best vertex is recorded. -/
theorem get_best_cost_sentinel_counterexample :
    ∃ r, ce_update_vertex_cost 1 exGneg minimum_time_reachability.default 0 = Except.ok r ∧
      r.mtr.min_cost_vertex = some 0 ∧ r.mtr.min_cost_vertex ≠ none ∧
      get_best_cost exGneg r.mtr = Except.ok (-1) :=
  ⟨_, rfl, rfl, fun h => Option.noConfusion h, rfl⟩

/-- A returning `ce_update_vertex_cost` either leaves the component as it was
or records the notified vertex, and in the latter case the notified vertex
costs no more than the best vertex recorded before, if there was one. -/
theorem ce_update_vertex_cost_cases {R : Type} [LinearOrder R] {N : Nat} (fuel : Nat)
    (g : Graph R N)
    (m : minimum_time_reachability R N) (v : VertexId) (r : ce_result R N)
    (h : ce_update_vertex_cost fuel g m v = Except.ok r) :
    r.mtr = m ∨
      (r.mtr.min_cost_vertex = some v ∧
        ∃ vx, g.vertex_mem v = some vx ∧
          ∀ b bx, m.min_cost_vertex = some b → g.vertex_mem b = some bx →
            vx.data.total_cost ≤ bx.data.total_cost) := by
  unfold ce_update_vertex_cost at h
  cases hv : g.vertex_mem v with
  | none => simp [hv] at h
  | some vx =>
    simp only [hv] at h
    by_cases hg : vx.data.reaches_goal = true
    · simp only [hg, if_true] at h
      cases hm : m.min_cost_vertex with
      | none =>
        simp only [hm] at h
        obtain ⟨traj, -, rfl⟩ := update_trajectory_ok fuel g m v r h
        exact Or.inr ⟨rfl, vx, rfl, fun b bx hb => by simp at hb⟩
      | some b0 =>
        simp only [hm] at h
        cases hb0 : g.vertex_mem b0 with
        | none => simp [hb0] at h
        | some bx0 =>
          simp only [hb0] at h
          by_cases hle : vx.data.total_cost ≤ bx0.data.total_cost
          · simp only [hle, if_true] at h
            obtain ⟨traj, -, rfl⟩ := update_trajectory_ok fuel g m v r h
            refine Or.inr ⟨rfl, vx, rfl, fun b bx hb hbx => ?_⟩
            have hbb : b0 = b := Option.some.inj hb
            subst hbb
            rw [hb0] at hbx
            have hxx : bx0 = bx := Option.some.inj hbx
            subst hxx
            exact hle
          · simp only [hle, if_false] at h
            have hr : r = ⟨m, [], 1⟩ := (Except.ok.inj h).symm
            subst hr
            exact Or.inl rfl
    · simp only [hg] at h
      have hr : r = ⟨m, [], 1⟩ := (Except.ok.inj h).symm
      subst hr
      exact Or.inl rfl

/-- One call of `ce_update_vertex_cost` on a component with a solution does not
raise the best cost, and a solution still exists afterwards. -/
theorem get_best_cost_step {R : Type} [LinearOrder R] [One R] [Neg R] {N : Nat} (fuel : Nat)
    (g : Graph R N) (m : minimum_time_reachability R N)
    (v b : VertexId) (c : R) (r : ce_result R N)
    (hsol : m.min_cost_vertex = some b) (hc : get_best_cost g m = Except.ok c)
    (h : ce_update_vertex_cost fuel g m v = Except.ok r) :
    ∃ b2 c2, r.mtr.min_cost_vertex = some b2 ∧ get_best_cost g r.mtr = Except.ok c2 ∧ c2 ≤ c := by
  have hbx : ∃ bx, g.vertex_mem b = some bx ∧ bx.data.total_cost = c := by
    cases hb : g.vertex_mem b with
    | none => simp [get_best_cost, hsol, hb] at hc
    | some bx =>
      simp only [get_best_cost, hsol, hb] at hc
      exact ⟨bx, rfl, Except.ok.inj hc⟩
  obtain ⟨bx, hb, hcost⟩ := hbx
  rcases ce_update_vertex_cost_cases fuel g m v r h with hsame | ⟨hmin, vx, hv, hle⟩
  · rw [hsame]
    exact ⟨b, c, hsol, hc, le_refl c⟩
  · refine ⟨v, vx.data.total_cost, hmin, ?_, ?_⟩
    · simp [get_best_cost, hmin, hv]
    · rw [← hcost]
      exact hle b bx hsol hb

/-- On a live vertex with a finite parent chain, and with a live recorded best
vertex if there is one, `ce_update_vertex_cost` returns. -/
theorem ce_update_vertex_cost_returns {R : Type} [LinearOrder R] {N : Nat} (fuel : Nat)
    (g : Graph R N)
    (m : minimum_time_reachability R N) (root v : VertexId) (vx : vertex_t R N)
    (path : List (edge_t R N × vertex_t R N))
    (hv : g.vertex_mem v = some vx)
    (hb : ∀ b, m.min_cost_vertex = some b → ∃ bx, g.vertex_mem b = some bx)
    (hp : parent_chain g root path v) (hf : path.length < fuel) :
    ∃ r, ce_update_vertex_cost fuel g m v = Except.ok r := by
  unfold ce_update_vertex_cost
  simp only [hv]
  by_cases hg : vx.data.reaches_goal = true
  · simp only [hg, if_true]
    cases hm : m.min_cost_vertex with
    | none => exact ⟨_, update_trajectory_chain fuel g m root v path hp hf⟩
    | some b0 =>
      obtain ⟨bx0, hb0⟩ := hb b0 hm
      simp only [hb0]
      by_cases hle : vx.data.total_cost ≤ bx0.data.total_cost
      · simp only [hle, if_true]
        exact ⟨_, update_trajectory_chain fuel g m root v path hp hf⟩
      · simp only [hle, if_false]
        exact ⟨_, rfl⟩
  · simp only [hg]
    exact ⟨_, rfl⟩

/-- Claim C6 (amended): when the comparison `<=` of the scalar type is a linear
order (no total cost is NaN), on a component with a solution a returning
`ce_update_vertex_cost(v)` leaves `get_best_cost()` less than or equal to its
value before the call, and the call does return on a live vertex with a
finite parent chain; hence along any sequence of calls between which no
vertex cost increases, the best costs read after the calls form a
non-increasing sequence below the initial best cost. -/
theorem best_cost_monotone {R : Type} [LinearOrder R] [One R] [Neg R] {N : Nat} :
    (∀ (fuel : Nat) (g : Graph R N) (m : minimum_time_reachability R N) (v b : VertexId)
        (c : R) (r : ce_result R N),
      m.min_cost_vertex = some b → get_best_cost g m = Except.ok c →
      ce_update_vertex_cost fuel g m v = Except.ok r →
      ∃ c2, get_best_cost g r.mtr = Except.ok c2 ∧ c2 ≤ c) ∧
    (∀ (fuel : Nat) (g : Graph R N) (m : minimum_time_reachability R N) (root v b : VertexId)
        (c : R) (vx : vertex_t R N) (path : List (edge_t R N × vertex_t R N)),
      m.min_cost_vertex = some b → get_best_cost g m = Except.ok c →
      g.vertex_mem v = some vx → parent_chain g root path v → path.length < fuel →
      ∃ r c2, ce_update_vertex_cost fuel g m v = Except.ok r ∧
        get_best_cost g r.mtr = Except.ok c2 ∧ c2 ≤ c) ∧
    (∀ (fuel : Nat) (steps : List (Graph R N × VertexId)) (g0 : Graph R N)
        (m : minimum_time_reachability R N) (b : VertexId) (c0 : R) (cs : List R),
      m.min_cost_vertex = some b → get_best_cost g0 m = Except.ok c0 →
      List.Chain costs_nonincreasing g0 (steps.map Prod.fst) →
      best_cost_run fuel m steps = Except.ok cs →
      List.Chain (fun x y => y ≤ x) c0 cs) := by
  refine ⟨?_, ?_, ?_⟩
  · intro fuel g m v b c r hsol hc h
    obtain ⟨b2, c2, -, h2, h3⟩ := get_best_cost_step fuel g m v b c r hsol hc h
    exact ⟨c2, h2, h3⟩
  · intro fuel g m root v b c vx path hsol hc hv hp hf
    have hlive : ∀ b1, m.min_cost_vertex = some b1 → ∃ bx, g.vertex_mem b1 = some bx := by
      intro b1 hb1
      rw [hsol] at hb1
      have hbb : b = b1 := Option.some.inj hb1
      subst hbb
      cases hb : g.vertex_mem b with
      | none => simp [get_best_cost, hsol, hb] at hc
      | some bx => exact ⟨bx, rfl⟩
    obtain ⟨r, hr⟩ := ce_update_vertex_cost_returns fuel g m root v vx path hv hlive hp hf
    obtain ⟨b2, c2, -, h2, h3⟩ := get_best_cost_step fuel g m v b c r hsol hc hr
    exact ⟨r, c2, hr, h2, h3⟩
  · intro fuel steps
    induction steps with
    | nil =>
      intro g0 m b c0 cs _ _ _ hrun
      simp only [best_cost_run] at hrun
      have : cs = [] := (Except.ok.inj hrun).symm
      subst this
      exact List.Chain.nil
    | cons step rest ih =>
      intro g0 m b c0 cs hsol hc hchain hrun
      obtain ⟨g, v⟩ := step
      simp only [List.map_cons, List.chain_cons] at hchain
      obtain ⟨hmono, hrest⟩ := hchain
      have hb0 : ∃ bx, g0.vertex_mem b = some bx ∧ bx.data.total_cost = c0 := by
        cases hb : g0.vertex_mem b with
        | none => simp [get_best_cost, hsol, hb] at hc
        | some bx =>
          simp only [get_best_cost, hsol, hb] at hc
          exact ⟨bx, rfl, Except.ok.inj hc⟩
      obtain ⟨bx, hb, hcost⟩ := hb0
      obtain ⟨by1, hby, hle⟩ := hmono b bx hb
      have hc1 : get_best_cost g m = Except.ok by1.data.total_cost := by
        simp [get_best_cost, hsol, hby]
      simp only [best_cost_run] at hrun
      cases hce : ce_update_vertex_cost fuel g m v with
      | error f => simp [hce] at hrun
      | ok r =>
        simp only [hce] at hrun
        obtain ⟨b2, c2, hsol2, hc2, hle2⟩ :=
          get_best_cost_step fuel g m v b by1.data.total_cost r hsol hc1 hce
        simp only [hc2] at hrun
        cases hrec : best_cost_run fuel r.mtr rest with
        | error f => simp [hrec] at hrun
        | ok cs2 =>
          simp only [hrec] at hrun
          have : cs = c2 :: cs2 := (Except.ok.inj hrun).symm
          subst this
          refine List.Chain.cons ?_ (ih g r.mtr b2 c2 cs2 hsol2 hc2 hrest hrec)
          rw [← hcost]
          exact le_trans hle2 hle

/-- Counterexample for C6 as stated, on doubles: a fresh component notified of
the goal-reaching vertex `0` of total cost NaN records it without comparison,
so a solution exists and `get_best_cost()` is NaN; the call on the
goal-reaching vertex `1` of total cost 1 then records nothing, because
`1 <= NaN` is false, and `get_best_cost()` is NaN afterwards: the value after
the call is not less than or equal to the value before, `NaN <= NaN` being
false. -/
theorem best_cost_nan_counterexample :
    ∃ r1 r2, ce_update_vertex_cost 1 exGnanCost minimum_time_reachability.default 0 =
        Except.ok r1 ∧
      r1.mtr.min_cost_vertex = some 0 ∧
      get_best_cost exGnanCost r1.mtr = Except.ok xdouble.nan ∧
      ce_update_vertex_cost 1 exGnanCost r1.mtr 1 = Except.ok r2 ∧
      r2.mtr.min_cost_vertex = some 0 ∧
      get_best_cost exGnanCost r2.mtr = Except.ok xdouble.nan ∧
      ¬ (xdouble.nan ≤ xdouble.nan) ∧
      best_cost_run 1 r1.mtr [(exGnanCost, 1), (exGnanCost, 1)] =
        Except.ok [xdouble.nan, xdouble.nan] :=
  ⟨_, _, rfl, rfl, rfl, rfl, rfl, rfl, by decide, rfl⟩

/-- Witness for C6: on the example heap with best vertex `1` (cost 3), notifying
vertex `3` (cost 4), then, after a rewire lowered the cost of vertex `3` to 2,
notifying it again, reads the best costs 3 and 2. -/
theorem best_cost_monotone_witness :
    best_cost_run 5 exM1 [(exG, 3), (exG2, 3)] = Except.ok [3, 2] ∧
      List.Chain (fun x y : ℤ => y ≤ x) 3 [3, 2] :=
  ⟨rfl,
    best_cost_monotone.2.2 5 [(exG, 3), (exG2, 3)] exG exM1 1 3 [3, 2] rfl rfl
      (by
        refine List.Chain.cons ?_ (List.Chain.cons ?_ List.Chain.nil)
        · intro x vx hx
          exact ⟨vx, hx, le_refl _⟩
        · intro x vx hx
          by_cases h3 : x = 3
          · subst h3
            have hvx : exV3 = vx := Option.some.inj hx
            subst hvx
            exact ⟨{ exV3 with data := ⟨2, true⟩ }, rfl, by decide⟩
          · exact ⟨vx, by simpa [exG2, Function.update, h3] using hx, le_refl _⟩)
      rfl⟩

theorem foldl_total_time (l : List (input_t R)) (a : R) :
    l.foldl (fun total_time input_curr => total_time + input_curr.first) a =
      a + (l.map input_t.first).sum := by
  induction l generalizing a with
  | nil => simp
  | cons u rest ih => simp [ih, add_assoc]

/-- Claim C7: `evaluate_cost_trajectory` returns the value of the configured
cost function when one is set, and otherwise the sum of the first components
of the inputs of the trajectory: 0 without inputs, independent of the initial
state, the final state and the states of the trajectory, additive over
concatenation of input lists; the component is returned unchanged. -/
theorem evaluate_cost_trajectory_spec (m : minimum_time_reachability R N)
    (state_initial state_final : state_t R N) (traj : trajectory_t R N) :
    (∀ f, m.cost_function = some f →
      (evaluate_cost_trajectory m state_initial traj state_final).1 =
        f state_initial traj state_final) ∧
    (m.cost_function = none →
      (evaluate_cost_trajectory m state_initial traj state_final).1 =
          (traj.list_inputs.map input_t.first).sum ∧
        (traj.list_inputs = [] →
          (evaluate_cost_trajectory m state_initial traj state_final).1 = 0) ∧
        (∀ (s1 s2 : state_t R N) (states : List (state_t R N)),
          (evaluate_cost_trajectory m s1 ⟨states, traj.list_inputs⟩ s2).1 =
            (evaluate_cost_trajectory m state_initial traj state_final).1) ∧
        (∀ (xs ys : List (input_t R)), traj.list_inputs = xs ++ ys →
          (evaluate_cost_trajectory m state_initial traj state_final).1 =
            (evaluate_cost_trajectory m state_initial ⟨traj.list_states, xs⟩ state_final).1 +
              (evaluate_cost_trajectory m state_initial ⟨traj.list_states, ys⟩
                state_final).1)) ∧
    (evaluate_cost_trajectory m state_initial traj state_final).2 = m := by
  refine ⟨fun f hf => by simp [evaluate_cost_trajectory, hf], fun hnone => ?_, ?_⟩
  · have hdef : ∀ (s1 s2 : state_t R N) (t : trajectory_t R N),
        (evaluate_cost_trajectory m s1 t s2).1 = (t.list_inputs.map input_t.first).sum := by
      intro s1 s2 t
      simp [evaluate_cost_trajectory, hnone, default_cost_function, foldl_total_time]
    refine ⟨hdef _ _ _, fun hnil => ?_, fun s1 s2 states => ?_, fun xs ys hcat => ?_⟩
    · rw [hdef, hnil]
      rfl
    · rw [hdef, hdef]
    · rw [hdef, hdef, hdef, hcat]
      simp
  · cases hc : m.cost_function <;> simp [evaluate_cost_trajectory, hc]

/-- Witness for C7: on the example component (no cost function configured) a
trajectory with inputs of durations 3 and 4 costs 7. -/
theorem evaluate_cost_trajectory_spec_witness :
    (evaluate_cost_trajectory exM1 (fun _ => 0) ⟨[], [⟨3, []⟩, ⟨4, [1]⟩]⟩ (fun _ => 9)).1 = 7 :=
  ((evaluate_cost_trajectory_spec exM1 (fun _ => 0) (fun _ => 9)
    ⟨[], [⟨3, []⟩, ⟨4, [1]⟩]⟩).2.1 rfl).1.trans (by decide)

end mtr_lemmas

section base_lemmas

variable {R : Type} {N : Nat}

/-- On a live vertex `insert_vertex` returns 1 with the state spelled out. -/
theorem insert_vertex_eq [Sub R] [LT R] [∀ a b : R, Decidable (a < b)] [Fabs R]
    (b : Base R N) (v : VertexId) (vx : vertex_t R N)
    (hv : b.graph.vertex_mem v = some vx) :
    Base.insert_vertex b v =
      Except.ok
        ({ b with
            graph := { b.graph with
              vertex_mem := Function.update b.graph.vertex_mem v
                (some { vx with
                  data := { vx.data with reaches_goal := reaches_goal b.model_checker vx } }) }
            list_vertices := b.list_vertices ++ [v]
            num_vertices := b.num_vertices + 1
            trace := b.trace ++ insert_vertex_events b v },
          1) := by
  simp [Base.insert_vertex, mc_update_insert_vertex, hv, insert_vertex_events]

/-- A returning `insert_vertex` was called on a live vertex. -/
theorem insert_vertex_live [Sub R] [LT R] [∀ a b : R, Decidable (a < b)] [Fabs R]
    (b b2 : Base R N) (v : VertexId) (r : Int)
    (h : Base.insert_vertex b v = Except.ok (b2, r)) : ∃ vx, b.graph.vertex_mem v = some vx := by
  cases hv : b.graph.vertex_mem v with
  | none => simp [Base.insert_vertex, mc_update_insert_vertex, hv] at h
  | some vx => exact ⟨vx, rfl⟩

/-- A returning `insert_edge` appended its notifications to the log and kept
the vertex list, the count and the callback lists. -/
theorem insert_edge_frame (b b2 : Base R N) (src dst : VertexId) (e : EdgeId) (r : Int)
    (h : Base.insert_edge b src e dst = Except.ok (b2, r)) :
    b2.trace = b.trace ++ insert_edge_events b e ∧ r = 1 ∧
      b2.list_vertices = b.list_vertices ∧ b2.num_vertices = b.num_vertices ∧
      b2.model_checker = b.model_checker := by
  unfold Base.insert_edge at h
  split at h
  · simp at h
  · dsimp only at h
    split at h
    · simp at h
    · split at h
      · simp at h
      · simp only [mc_update_insert_edge, Except.ok.injEq, Prod.mk.injEq] at h
        obtain ⟨rfl, rfl⟩ := h
        simp [insert_edge_events]

/-- A returning `delete_edge` appended its notifications to the log and kept
the vertex list, the count and the callback lists. -/
theorem delete_edge_frame (b b2 : Base R N) (e : EdgeId) (r : Int)
    (h : Base.delete_edge b e = Except.ok (b2, r)) :
    b2.trace = b.trace ++ delete_edge_events b e ∧ r = 1 ∧
      b2.list_vertices = b.list_vertices ∧ b2.num_vertices = b.num_vertices ∧
      b2.model_checker = b.model_checker ∧
      b2.list_update_delete_edge_functions = b.list_update_delete_edge_functions := by
  unfold Base.delete_edge at h
  simp only [mc_update_delete_edge] at h
  split at h
  · simp at h
  · split at h
    · simp at h
    · split at h
      · simp at h
      · split at h
        · simp at h
        · split at h
          · simp at h
          · simp only [Except.ok.injEq, Prod.mk.injEq] at h
            obtain ⟨rfl, rfl⟩ := h
            simp [delete_edge_events]

/-- A returning run of `delete_edge` over a list of edges appended, for each
edge in turn, the notifications of its deletion. -/
theorem delete_edge_list_frame (es : List EdgeId) :
    ∀ (b b2 : Base R N), Base.delete_edge_list b es = Except.ok b2 →
      b2.trace = b.trace ++ es.flatMap (delete_edge_events b) ∧
        b2.list_vertices = b.list_vertices ∧ b2.num_vertices = b.num_vertices ∧
        b2.model_checker = b.model_checker ∧
        b2.list_update_delete_edge_functions = b.list_update_delete_edge_functions := by
  induction es with
  | nil =>
    intro b b2 h
    simp only [Base.delete_edge_list, Except.ok.injEq] at h
    subst h
    simp
  | cons e rest ih =>
    intro b b2 h
    simp only [Base.delete_edge_list] at h
    cases hd : Base.delete_edge b e with
    | error f => simp [hd] at h
    | ok p =>
      obtain ⟨b1, r⟩ := p
      simp only [hd] at h
      obtain ⟨ht, -, hl, hn, hm, hc⟩ := delete_edge_frame b b1 e r hd
      obtain ⟨ht2, hl2, hn2, hm2, hc2⟩ := ih b1 b2 h
      refine ⟨?_, hl2.trans hl, hn2.trans hn, hm2.trans hm, hc2.trans hc⟩
      have hev : delete_edge_events b1 = delete_edge_events b := by
        funext x
        simp [delete_edge_events, hc]
      rw [ht2, ht, hev]
      simp

/-- A returning second half of `delete_vertex` appended, for each edge it
deleted, the notifications of that deletion. -/
theorem delete_vertex_edges_frame (b1 b2 : Base R N) (v : VertexId) (r : Int)
    (h : Base.delete_vertex_edges b1 v = Except.ok (b2, r)) :
    ∃ es : List EdgeId, b2.trace = b1.trace ++ es.flatMap (delete_edge_events b1) := by
  unfold Base.delete_vertex_edges at h
  cases hvx : b1.graph.vertex_mem v with
  | none => simp [hvx] at h
  | some vx =>
    simp only [hvx] at h
    cases hb3 : Base.delete_edge_list b1 vx.incoming_edges with
    | error f => simp [hb3] at h
    | ok b3 =>
      simp only [hb3] at h
      cases hvx2 : b3.graph.vertex_mem v with
      | none => simp [hvx2] at h
      | some vx2 =>
        simp only [hvx2] at h
        cases hb4 : Base.delete_edge_list b3 vx2.outgoing_edges with
        | error f => simp [hb4] at h
        | ok b4 =>
          simp only [hb4, Except.ok.injEq, Prod.mk.injEq] at h
          obtain ⟨rfl, -⟩ := h
          obtain ⟨ht3, -, -, -, hc3⟩ := delete_edge_list_frame _ _ _ hb3
          obtain ⟨ht4, -, -, -, -⟩ := delete_edge_list_frame _ _ _ hb4
          have hev3 : delete_edge_events b3 = delete_edge_events b1 := by
            funext x
            simp [delete_edge_events, hc3]
          refine ⟨vx.incoming_edges ++ vx2.outgoing_edges, ?_⟩
          simp only [ht4, ht3, hev3, List.flatMap_append]
          simp

/-- A returning `delete_vertex` appended its own notifications and then, for
each edge it deleted, the notifications of that deletion. -/
theorem delete_vertex_frame (b b2 : Base R N) (v : VertexId) (r : Int)
    (h : Base.delete_vertex b v = Except.ok (b2, r)) :
    ∃ es : List EdgeId, b2.trace =
      b.trace ++ delete_vertex_events b v ++ es.flatMap (delete_edge_events b) := by
  unfold Base.delete_vertex at h
  simp only [mc_update_delete_vertex] at h
  obtain ⟨es, hes⟩ := delete_vertex_edges_frame _ _ _ _ h
  refine ⟨es, hes.trans ?_⟩
  show (b.trace ++ [Event.de_update_delete_vertex v] ++ [Event.mc_update_delete_vertex v] ++
      b.list_update_delete_vertex_functions.map fun f =>
        Event.update_delete_vertex_function f v) ++ es.flatMap (delete_edge_events b) = _
  simp [delete_vertex_events]

theorem register_vertex_insert_foldl (fs : List FuncId) :
    ∀ b : Base R N,
      (fs.foldl (fun acc f => (Base.register_new_update_function_vertex_insert acc f).1)
        b).list_update_insert_vertex_functions = b.list_update_insert_vertex_functions ++ fs := by
  induction fs with
  | nil => intro b; simp
  | cons f rest ih =>
    intro b
    rw [List.foldl_cons, ih]
    simp [Base.register_new_update_function_vertex_insert]

theorem register_vertex_delete_foldl (fs : List FuncId) :
    ∀ b : Base R N,
      (fs.foldl (fun acc f => (Base.register_new_update_function_vertex_delete acc f).1)
        b).list_update_delete_vertex_functions = b.list_update_delete_vertex_functions ++ fs := by
  induction fs with
  | nil => intro b; simp
  | cons f rest ih =>
    intro b
    rw [List.foldl_cons, ih]
    simp [Base.register_new_update_function_vertex_delete]

theorem register_edge_insert_foldl (fs : List FuncId) :
    ∀ b : Base R N,
      (fs.foldl (fun acc f => (Base.register_new_update_function_edge_insert acc f).1)
        b).list_update_insert_edge_functions = b.list_update_insert_edge_functions ++ fs := by
  induction fs with
  | nil => intro b; simp
  | cons f rest ih =>
    intro b
    rw [List.foldl_cons, ih]
    simp [Base.register_new_update_function_edge_insert]

theorem register_edge_delete_foldl (fs : List FuncId) :
    ∀ b : Base R N,
      (fs.foldl (fun acc f => (Base.register_new_update_function_edge_delete acc f).1)
        b).list_update_delete_edge_functions = b.list_update_delete_edge_functions ++ fs := by
  induction fs with
  | nil => intro b; simp
  | cons f rest ih =>
    intro b
    rw [List.foldl_cons, ih]
    simp [Base.register_new_update_function_edge_delete]

/-- The notifications appended by each returning mutation, by event list. -/
theorem mutation_frames [Sub R] [LT R] [∀ a b : R, Decidable (a < b)] [Fabs R]
    (b : Base R N) :
    (∀ v b2 r, Base.insert_vertex b v = Except.ok (b2, r) →
      b2.trace = b.trace ++ insert_vertex_events b v) ∧
    (∀ v b2 r, Base.delete_vertex b v = Except.ok (b2, r) →
      ∃ es : List EdgeId, b2.trace =
        b.trace ++ delete_vertex_events b v ++ es.flatMap (delete_edge_events b)) ∧
    (∀ src e dst b2 r, Base.insert_edge b src e dst = Except.ok (b2, r) →
      b2.trace = b.trace ++ insert_edge_events b e) ∧
    (∀ e b2 r, Base.delete_edge b e = Except.ok (b2, r) →
      b2.trace = b.trace ++ delete_edge_events b e) := by
  refine ⟨fun v b2 r h => ?_, fun v b2 r h => delete_vertex_frame b b2 v r h,
    fun src e dst b2 r h => (insert_edge_frame b b2 src dst e r h).1,
    fun e b2 r h => (delete_edge_frame b b2 e r h).1⟩
  obtain ⟨vx, hv⟩ := insert_vertex_live b b2 v r h
  rw [insert_vertex_eq b v vx hv] at h
  simp only [Except.ok.injEq, Prod.mk.injEq] at h
  obtain ⟨rfl, -⟩ := h
  rfl

/-- On live `src`, `e` and `dst`, `insert_edge` returns 1 with the state
spelled out; the second push reads the vertex as the first push left it. -/
theorem insert_edge_eq (b : Base R N) (src dst : VertexId) (e : EdgeId)
    (sx dx : vertex_t R N) (ed : edge_t R N)
    (hs : b.graph.vertex_mem src = some sx) (he : b.graph.edge_mem e = some ed)
    (hd : b.graph.vertex_mem dst = some dx) :
    Base.insert_edge b src e dst =
      Except.ok
        ({ b with
            graph :=
              { vertex_mem :=
                  Function.update
                    (Function.update b.graph.vertex_mem src
                      (some { sx with outgoing_edges := sx.outgoing_edges ++ [e] }))
                    dst
                    (some
                      { dx with
                        outgoing_edges :=
                          if dst = src then dx.outgoing_edges ++ [e] else dx.outgoing_edges
                        incoming_edges := dx.incoming_edges ++ [e] })
                edge_mem := Function.update b.graph.edge_mem e
                  (some { ed with vertex_src := some src, vertex_dst := some dst }) }
            trace := b.trace ++ insert_edge_events b e },
          1) := by
  by_cases hsd : dst = src
  · subst hsd
    rw [hs] at hd
    have hxx : sx = dx := Option.some.inj hd
    subst hxx
    simp [Base.insert_edge, he, hs, mc_update_insert_edge, insert_edge_events]
  · simp [Base.insert_edge, he, hs, hd, mc_update_insert_edge, insert_edge_events,
      Function.update, hsd]

/-- Claim C9: on a live vertex `insert_vertex(v)` returns 1, appends `v` as the
last element of the vertex list, increases the vertex count by exactly one,
keeps every earlier position of the list, leaves every other vertex and every
edge object untouched, and leaves the state, the total cost and both edge
lists of `v` itself as they were. -/
theorem insert_vertex_spec [LinearOrderedRing R] (b : Base R N) (v : VertexId)
    (vx : vertex_t R N) (hv : b.graph.vertex_mem v = some vx) :
    ∃ b2, Base.insert_vertex b v = Except.ok (b2, 1) ∧
      b2.list_vertices = b.list_vertices ++ [v] ∧
      b2.list_vertices.getLast? = some v ∧
      b2.list_vertices.length = b.list_vertices.length + 1 ∧
      b2.num_vertices = b.num_vertices + 1 ∧
      (∀ i, i < b.list_vertices.length → b2.list_vertices[i]? = b.list_vertices[i]?) ∧
      (∀ u, u ≠ v → b2.graph.vertex_mem u = b.graph.vertex_mem u) ∧
      (∀ u ux, b.graph.vertex_mem u = some ux →
        ∃ uy, b2.graph.vertex_mem u = some uy ∧
          uy.incoming_edges = ux.incoming_edges ∧ uy.outgoing_edges = ux.outgoing_edges ∧
          uy.state = ux.state ∧ uy.data.total_cost = ux.data.total_cost) ∧
      b2.graph.edge_mem = b.graph.edge_mem := by
  refine ⟨_, insert_vertex_eq b v vx hv, rfl, by simp, by simp, rfl, ?_, ?_, ?_, rfl⟩
  · intro i hi
    exact List.getElem?_append_left hi
  · intro u hu
    simp [Function.update, hu]
  · intro u ux hux
    by_cases huv : u = v
    · subst huv
      rw [hv] at hux
      have hxx : vx = ux := Option.some.inj hux
      subst hxx
      exact ⟨{ vx with
          data := { vx.data with reaches_goal := reaches_goal b.model_checker vx } },
        by simp, rfl, rfl, rfl, rfl⟩
    · exact ⟨ux, by simp [Function.update, huv, hux], rfl, rfl, rfl, rfl⟩

/-- Witness for C9: inserting the allocated vertex `4` into the example
planner. -/
theorem insert_vertex_spec_witness :
    ∃ b2, Base.insert_vertex exB 4 = Except.ok (b2, 1) ∧
      b2.list_vertices = [0, 1, 2, 3, 4] ∧ b2.num_vertices = 5 := by
  obtain ⟨b2, h1, h2, -, -, h3, -⟩ :=
    insert_vertex_spec exB 4 ⟨fun _ => 8, ⟨0, false⟩, [], []⟩ rfl
  exact ⟨b2, h1, h2, h3⟩

/-- Claim C10: on live `src`, `e` and `dst`, `insert_edge(src, e, dst)` returns
1, sets the end points of `e` to `src` and `dst` and keeps its trajectory,
appends `e` at the end of the outgoing list of `src` and of the incoming list
of `dst` (both on the same vertex when `src = dst`), and changes no other
adjacency list, no other field of a vertex, no other edge, and neither the
vertex list nor the vertex count. -/
theorem insert_edge_spec (b : Base R N) (src dst : VertexId) (e : EdgeId)
    (sx dx : vertex_t R N) (ed : edge_t R N)
    (hs : b.graph.vertex_mem src = some sx) (he : b.graph.edge_mem e = some ed)
    (hd : b.graph.vertex_mem dst = some dx) :
    ∃ b2, Base.insert_edge b src e dst = Except.ok (b2, 1) ∧
      b2.graph.edge_mem e =
        some { ed with vertex_src := some src, vertex_dst := some dst } ∧
      (∀ e2, e2 ≠ e → b2.graph.edge_mem e2 = b.graph.edge_mem e2) ∧
      (∀ u ux, b.graph.vertex_mem u = some ux →
        b2.graph.vertex_mem u =
          some { ux with
            outgoing_edges :=
              if u = src then ux.outgoing_edges ++ [e] else ux.outgoing_edges
            incoming_edges :=
              if u = dst then ux.incoming_edges ++ [e] else ux.incoming_edges }) ∧
      (∀ u, b.graph.vertex_mem u = none → b2.graph.vertex_mem u = none) ∧
      b2.list_vertices = b.list_vertices ∧ b2.num_vertices = b.num_vertices := by
  refine ⟨_, insert_edge_eq b src dst e sx dx ed hs he hd, by simp, ?_, ?_, ?_, rfl, rfl⟩
  · intro e2 he2
    simp [Function.update, he2]
  · intro u ux hux
    by_cases hud : u = dst
    · subst hud
      rw [hd] at hux
      have hxx : dx = ux := Option.some.inj hux
      subst hxx
      by_cases hus : u = src
      · subst hus
        rw [hs] at hd
        have hyy : sx = dx := Option.some.inj hd
        subst hyy
        simp
      · simp [hus]
    · by_cases hus : u = src
      · subst hus
        rw [hs] at hux
        have hxx : sx = ux := Option.some.inj hux
        subst hxx
        simp [Function.update, hud]
      · simp [Function.update, hud, hus, hux]
  · intro u hu
    have hne1 : u ≠ dst := fun h => by rw [h, hd] at hu; exact Option.noConfusion hu
    have hne2 : u ≠ src := fun h => by rw [h, hs] at hu; exact Option.noConfusion hu
    simp [Function.update, hne1, hne2, hu]

/-- Witness for C10: inserting the allocated edge `3` as a self-loop on vertex
`1` of the example planner puts it once at the end of each of the two lists
of the vertex. -/
theorem insert_edge_spec_witness :
    ∃ b2, Base.insert_edge exB 1 3 1 = Except.ok (b2, 1) ∧
      b2.graph.vertex_mem 1 =
        some { exV1 with outgoing_edges := [3], incoming_edges := [0, 3] } := by
  obtain ⟨b2, h1, -, -, h2, -⟩ :=
    insert_edge_spec exB 1 1 3 exV1 exV1 ⟨none, none, ⟨[], [⟨1, []⟩]⟩⟩ rfl rfl rfl
  exact ⟨b2, h1, h2 1 exV1 rfl⟩

end base_lemmas

section mtr_lemmas2

variable {R : Type} [LinearOrderedRing R] {N : Nat}

/-- Claim C18 (evaluation at the failing input): on the example tree a fresh
component with the callback `7` registered is notified of vertex `1`, entered
from the root by an edge with the intermediate state 2.  The callback is
called once, after the rebuild, with the stored trajectory, whose states are
5 then 2 (goal vertex first); `get_solution` right afterwards returns the
states 2 then 5. -/
theorem solution_callback_receives_reversed_trajectory :
    ∃ r, ce_update_vertex_cost 5 exG exM0 1 = Except.ok r ∧
      r.mtr.min_cost_vertex = some 1 ∧
      r.calls = [(7, r.mtr.min_cost_trajectory)] ∧
      (r.calls.map fun c => c.2.list_states.map fun s => s 0) = [[5, 2]] ∧
      (get_solution r.mtr ⟨[], []⟩).2.1.list_states.map (fun s => s 0) = [2, 5] :=
  ⟨_, rfl, rfl, rfl, rfl, rfl⟩

end mtr_lemmas2

section mtr_lemmas3

variable {R : Type} [LinearOrderedRing R] {N : Nat}

/-- A returning `ce_update_vertex_cost` called every registered callback once
when the vertex passed the test `selects`, and none otherwise; it keeps the
callback list, and a call that recorded the first solution or strictly
decreased the best cost passed the test. -/
theorem ce_update_vertex_cost_calls (fuel : Nat) (g : Graph R N)
    (m : minimum_time_reachability R N) (v : VertexId) (r : ce_result R N)
    (h : ce_update_vertex_cost fuel g m v = Except.ok r) :
    r.calls.length = (if selects g m v then m.list_update_functions.length else 0) ∧
      r.mtr.list_update_functions = m.list_update_functions ∧
      (improved g m r = true → selects g m v = true) := by
  unfold ce_update_vertex_cost at h
  cases hv : g.vertex_mem v with
  | none => simp [hv] at h
  | some vx =>
    simp only [hv] at h
    have hkeep : ∀ r0 : ce_result R N, r0 = ⟨m, [], 1⟩ → improved g m r0 = false := by
      intro r0 hr0
      subst hr0
      unfold improved
      cases hm : m.min_cost_vertex with
      | none => simp [hm]
      | some b =>
        simp only
        cases hc : get_best_cost g m with
        | error f => rfl
        | ok c => simp
    by_cases hg : vx.data.reaches_goal = true
    · simp only [hg, if_true] at h
      cases hm : m.min_cost_vertex with
      | none =>
        simp only [hm] at h
        obtain ⟨traj, -, rfl⟩ := update_trajectory_ok fuel g m v r h
        simp [selects, hv, hg, hm]
      | some b0 =>
        simp only [hm] at h
        cases hb0 : g.vertex_mem b0 with
        | none => simp [hb0] at h
        | some bx0 =>
          simp only [hb0] at h
          by_cases hle : vx.data.total_cost ≤ bx0.data.total_cost
          · simp only [hle, if_true] at h
            obtain ⟨traj, -, rfl⟩ := update_trajectory_ok fuel g m v r h
            simp [selects, hv, hg, hm, hb0, hle]
          · simp only [hle, if_false] at h
            have hr : r = ⟨m, [], 1⟩ := (Except.ok.inj h).symm
            have hi := hkeep r hr
            subst hr
            simp [selects, hv, hg, hm, hb0, hle, hi]
    · simp only [hg] at h
      have hr : r = ⟨m, [], 1⟩ := (Except.ok.inj h).symm
      have hi := hkeep r hr
      subst hr
      simp [selects, hv, hg, hi]

/-- Claim C19 (amended): over any sequence of returning `ce_update_vertex_cost`
calls on a component with one registered callback, the number of callback
invocations equals the number of calls whose vertex reached the goal with no
best vertex recorded or with a total cost at most the best cost, ties
included; every call that recorded the first solution or strictly decreased
`get_best_cost()` is among them, so the invocations are at least the
improvements, and a first call on a goal-reaching vertex fires the callback. -/
theorem callback_count (fuel : Nat) (steps : List (Graph R N × VertexId)) :
    ∀ (m : minimum_time_reachability R N) (f : FuncId) (calls imps sels : Nat),
      m.list_update_functions = [f] →
      callback_run fuel m steps = Except.ok (calls, imps, sels) →
      calls = sels ∧ imps ≤ calls ∧
        (∀ g v rest vx, steps = (g, v) :: rest → m.min_cost_vertex = none →
          g.vertex_mem v = some vx → vx.data.reaches_goal = true → 1 ≤ calls) := by
  induction steps with
  | nil =>
    intro m f calls imps sels _ hrun
    simp only [callback_run, Except.ok.injEq, Prod.mk.injEq] at hrun
    obtain ⟨rfl, rfl, rfl⟩ := hrun
    exact ⟨rfl, le_refl 0, fun g v rest vx h => by simp at h⟩
  | cons step rest ih =>
    intro m f calls imps sels hone hrun
    obtain ⟨g, v⟩ := step
    simp only [callback_run] at hrun
    cases hce : ce_update_vertex_cost fuel g m v with
    | error e => simp [hce] at hrun
    | ok r =>
      simp only [hce] at hrun
      obtain ⟨hlen, hlist, himp⟩ := ce_update_vertex_cost_calls fuel g m v r hce
      cases hrec : callback_run fuel r.mtr rest with
      | error e => simp [hrec] at hrun
      | ok p =>
        obtain ⟨calls2, imps2, sels2⟩ := p
        simp only [hrec, Except.ok.injEq, Prod.mk.injEq] at hrun
        obtain ⟨rfl, rfl, rfl⟩ := hrun
        obtain ⟨h1, h2, -⟩ := ih r.mtr f calls2 imps2 sels2 (hlist.trans hone) hrec
        rw [hone] at hlen
        simp only [List.length_singleton] at hlen
        refine ⟨by rw [hlen, h1], ?_, ?_⟩
        · rw [hlen]
          by_cases hi : improved g m r = true
          · have hs := himp hi
            simp only [hi, hs, if_true]
            omega
          · have hi2 : improved g m r = false := by simpa using hi
            rw [hi2]
            simp only [Bool.false_eq_true, if_false]
            omega
        · intro g0 v0 rest0 vx hstep hnone hvx hgoal
          simp only [List.cons.injEq, Prod.mk.injEq] at hstep
          obtain ⟨⟨rfl, rfl⟩, -⟩ := hstep
          have hs : selects g m v = true := by simp [selects, hvx, hgoal, hnone]
          rw [hlen, hs]
          simp

/-- Witness for C19 (amended): on the example heap with best vertex `1`
(cost 3), notifying vertex `3` (cost 4), then vertex `2` (cost 3, a tie), then,
after a rewire lowered its cost to 2, vertex `3` again: two invocations, both
selections, one strict improvement. -/
theorem callback_count_witness :
    callback_run 5 exM1 [(exG, 3), (exG, 2), (exG2, 3)] = Except.ok (2, 1, 2) ∧
      (2 : Nat) = 2 ∧ (1 : Nat) ≤ 2 := by
  have hrun : callback_run 5 exM1 [(exG, 3), (exG, 2), (exG2, 3)] = Except.ok (2, 1, 2) := rfl
  exact ⟨hrun,
    (callback_count 5 [(exG, 3), (exG, 2), (exG2, 3)] exM1 7 2 1 2 rfl hrun).1,
    (callback_count 5 [(exG, 3), (exG, 2), (exG2, 3)] exM1 7 2 1 2 rfl hrun).2.1⟩

/-- Counterexample for C19 as stated: the example component has one callback
and best vertex `1` of cost 3; notifying vertex `2`, also of cost 3, fires the
callback once although the call neither recorded the first solution nor
changed `get_best_cost()`, which is 3 before and after. -/
theorem callback_fires_on_tie_counterexample :
    ∃ r, ce_update_vertex_cost 5 exG exM1 2 = Except.ok r ∧
      exM1.list_update_functions.length = 1 ∧
      r.calls.length = 1 ∧
      exM1.min_cost_vertex ≠ none ∧
      get_best_cost exG exM1 = Except.ok 3 ∧
      get_best_cost exG r.mtr = Except.ok 3 ∧
      callback_run 5 exM1 [(exG, 2)] = Except.ok (1, 0, 1) :=
  ⟨_, rfl, rfl, rfl, fun h => Option.noConfusion h, rfl, rfl, rfl⟩

end mtr_lemmas3

section mtr_lemmas4

variable {R : Type} [LinearOrderedRing R] {N : Nat}

/-- Claim C20 (amended): for a fresh component whose goal region contains the
state of a root vertex without incoming edge and of total cost 0,
`mc_update_insert_vertex(root)` marks the root `reaches_goal`,
`ce_update_vertex_cost(root)` then returns and records the root,
`get_best_cost()` is 0, and `get_solution` returns 1 with an empty trajectory:
no state (the state of the root is not emitted) and no input. -/
theorem root_in_goal (fuel : Nat) (g : Graph R N) (region_in : region R N) (root : VertexId)
    (rx : vertex_t R N) (out : trajectory_t R N) (hfuel : 0 < fuel)
    (hroot : g.vertex_mem root = some rx) (hin : rx.incoming_edges = [])
    (hcost : rx.data.total_cost = 0)
    (hgoal : ∀ i, |rx.state i - region_in.center i| ≤ region_in.size i) :
    ∃ g2 ry r,
      mc_update_insert_vertex g (set_goal_region minimum_time_reachability.default region_in).1
          root =
        Except.ok (g2, (set_goal_region minimum_time_reachability.default region_in).1, 1) ∧
      g2.vertex_mem root = some ry ∧ ry.data.reaches_goal = true ∧
      ce_update_vertex_cost fuel g2
          (set_goal_region minimum_time_reachability.default region_in).1 root =
        Except.ok r ∧
      r.mtr.min_cost_vertex = some root ∧
      get_best_cost g2 r.mtr = Except.ok 0 ∧
      get_solution r.mtr out = (1, ⟨[], []⟩, r.mtr) := by
  have hreach :
      reaches_goal (set_goal_region minimum_time_reachability.default region_in).1 rx = true := by
    simp only [reaches_goal, reaches_goal_loop_iff, List.mem_finRange, forall_true_left]
    exact hgoal
  have hchain :
      parent_chain
        ({ g with
          vertex_mem := Function.update g.vertex_mem root
            (some { rx with data := { rx.data with reaches_goal := true } }) } : Graph R N)
        root [] root :=
    parent_chain.nil { rx with data := { rx.data with reaches_goal := true } } (by simp) hin
  refine ⟨{ g with
      vertex_mem := Function.update g.vertex_mem root
        (some { rx with data := { rx.data with reaches_goal := true } }) },
    { rx with data := { rx.data with reaches_goal := true } },
    { mtr := { (set_goal_region minimum_time_reachability.default region_in).1 with
        min_cost_vertex := some root
        min_cost_trajectory := ⟨[], []⟩ }
      calls := []
      ret := 1 },
    ?_, ?_, rfl, ?_, rfl, ?_, ?_⟩
  · simp only [mc_update_insert_vertex, hroot, hreach]
  · simp
  · have h := update_trajectory_chain fuel _
      (set_goal_region minimum_time_reachability.default region_in).1 root root [] hchain hfuel
    simp only [ce_update_vertex_cost, Function.update_same, if_true]
    exact h
  · simp [get_best_cost, hcost]
  · simp [get_solution]

/-- Witness for C20 (amended): a root of state 4 and a goal region of centre 5
and half-size 1 (the root lies on its boundary). -/
theorem root_in_goal_witness :
    ∃ g2 ry r,
      mc_update_insert_vertex exGroot exMgoal 0 = Except.ok (g2, exMgoal, 1) ∧
      g2.vertex_mem 0 = some ry ∧ ry.data.reaches_goal = true ∧
      ce_update_vertex_cost 1 g2 exMgoal 0 = Except.ok r ∧
      r.mtr.min_cost_vertex = some 0 ∧
      get_best_cost g2 r.mtr = Except.ok 0 ∧
      get_solution r.mtr ⟨[], []⟩ = (1, ⟨[], []⟩, r.mtr) :=
  root_in_goal 1 exGroot ⟨fun _ => 5, fun _ => 1⟩ 0 ⟨fun _ => 4, ⟨0, false⟩, [], []⟩ ⟨[], []⟩
    (by decide) rfl rfl rfl (fun i => by fin_cases i; decide)

/-- Counterexample for C20 as stated: with the root of state 4 inside the goal
region (centre 5, half-size 1), after `mc_update_insert_vertex(root)` and
`ce_update_vertex_cost(root)` the root is the best vertex with best cost 0,
but the state list returned by `get_solution` is empty, not the single state
of the root. -/
theorem root_in_goal_empty_solution_counterexample :
    ∃ g2 r,
      mc_update_insert_vertex exGroot exMgoal 0 = Except.ok (g2, exMgoal, 1) ∧
      ce_update_vertex_cost 1 g2 exMgoal 0 = Except.ok r ∧
      r.mtr.min_cost_vertex = some 0 ∧
      get_best_cost g2 r.mtr = Except.ok 0 ∧
      (get_solution r.mtr ⟨[], []⟩).1 = 1 ∧
      (get_solution r.mtr ⟨[], []⟩).2.1.list_states = [] ∧
      (get_solution r.mtr ⟨[], []⟩).2.1.list_states ≠ [fun _ => 4] :=
  ⟨_, _, rfl, rfl, rfl, rfl, rfl, rfl, fun h => List.noConfusion h⟩

end mtr_lemmas4

section trajectory_lemmas

variable {R : Type} [LinearOrderedRing R] {N : Nat}

/-- Without destination, on a live source, a trajectory with a last state and
addresses of no live object, `insert_trajectory` returns 1 with the state
spelled out. -/
theorem insert_trajectory_new_eq (b : Base R N) (nv : VertexId) (data0 : vertex_data R)
    (ne : EdgeId) (src : VertexId) (traj : trajectory_t R N)
    (iv : Option (List (state_t R N))) (sx : vertex_t R N) (final_state : state_t R N)
    (hs : b.graph.vertex_mem src = some sx)
    (hlast : traj.list_states.getLast? = some final_state)
    (hnv : b.graph.vertex_mem nv = none) :
    Base.insert_trajectory b nv data0 ne src traj iv none =
      Except.ok
        ({ b with
            graph :=
              { vertex_mem :=
                  Function.update
                    (Function.update b.graph.vertex_mem src
                      (some { sx with outgoing_edges := sx.outgoing_edges ++ [ne] }))
                    nv
                    (some
                      { state := final_state
                        data :=
                          { data0 with
                            reaches_goal :=
                              reaches_goal b.model_checker ⟨final_state, data0, [], []⟩ }
                        incoming_edges := [ne]
                        outgoing_edges := [] })
                edge_mem := Function.update b.graph.edge_mem ne
                  (some ⟨some src, some nv,
                    ⟨traj.list_states.dropLast, traj.list_inputs⟩⟩) }
            list_vertices := b.list_vertices ++ [nv]
            num_vertices := b.num_vertices + 1
            trace := b.trace ++ insert_vertex_events b nv ++ insert_edge_events b ne },
          1) := by
  have hne : src ≠ nv := fun h => by rw [h, hnv] at hs; exact Option.noConfusion hs
  have hne2 : nv ≠ src := fun h => hne h.symm
  have hstates : ∃ a l, traj.list_states = a :: l := by
    cases hl : traj.list_states with
    | nil => simp [hl] at hlast
    | cons a l => exact ⟨a, l, rfl⟩
  obtain ⟨a, l, hl⟩ := hstates
  unfold Base.insert_trajectory
  simp only [hlast]
  rw [insert_vertex_eq _ nv ⟨final_state, data0, [], []⟩ (by simp [Graph.new_vertex])]
  simp only [Base.insert_trajectory_edge, hl]
  rw [insert_edge_eq _ src nv ne sx
    { state := final_state
      data := { data0 with
        reaches_goal := reaches_goal b.model_checker ⟨final_state, data0, [], []⟩ }
      incoming_edges := []
      outgoing_edges := [] }
    ⟨none, none, ⟨(a :: l).dropLast, traj.list_inputs⟩⟩
    (by simp [Graph.new_vertex, Graph.new_edge, Function.update, hne, hs])
    (by simp [Graph.new_edge])
    (by simp [Graph.new_vertex, Graph.new_edge])]
  simp only [Graph.new_vertex, Graph.new_edge, hne2, if_false, insert_vertex_events,
    insert_edge_events, Function.update_idem, List.append_assoc, List.nil_append]
  congr 3
  congr 1
  funext u
  by_cases hu : u = nv
  · subst hu
    simp
  · by_cases hus : u = src
    · subst hus
      simp [Function.update, hu]
    · simp [Function.update, hu, hus]

end trajectory_lemmas

section trajectory_claims

variable {R : Type} [LinearOrderedRing R] {N : Nat}

/-- Claim C14: on a live source `src` and a trajectory with at least one
state, `insert_trajectory` without destination returns 1; it creates exactly
one vertex, `nv`, whose state is the last state of the trajectory, appends it
to the vertex list and increases the count by one; it creates exactly one
edge, `ne`, from `src` to `nv`, listed once at the end of the outgoing list of
`src` and alone in the incoming list of `nv`, whose trajectory is the given one
without its last state; every other vertex and edge is untouched; and the
insert-vertex notifications of `nv` precede the insert-edge notifications of
`ne` in the log. -/
theorem insert_trajectory_spec (b : Base R N) (nv : VertexId) (data0 : vertex_data R)
    (ne : EdgeId) (src : VertexId) (traj : trajectory_t R N) (sx : vertex_t R N)
    (hs : b.graph.vertex_mem src = some sx) (hstates : traj.list_states ≠ [])
    (hnv : b.graph.vertex_mem nv = none) (_hne : b.graph.edge_mem ne = none) :
    ∃ b2 ny, Base.insert_trajectory b nv data0 ne src traj none none = Except.ok (b2, 1) ∧
      b2.list_vertices = b.list_vertices ++ [nv] ∧
      b2.num_vertices = b.num_vertices + 1 ∧
      b2.graph.vertex_mem nv = some ny ∧
      ny.state = traj.list_states.getLast hstates ∧
      ny.incoming_edges = [ne] ∧ ny.outgoing_edges = [] ∧
      b2.graph.edge_mem ne =
        some ⟨some src, some nv, ⟨traj.list_states.dropLast, traj.list_inputs⟩⟩ ∧
      traj.list_states.dropLast ++ [ny.state] = traj.list_states ∧
      b2.graph.vertex_mem src =
        some { sx with outgoing_edges := sx.outgoing_edges ++ [ne] } ∧
      (∀ u, u ≠ nv → u ≠ src → b2.graph.vertex_mem u = b.graph.vertex_mem u) ∧
      (∀ e, e ≠ ne → b2.graph.edge_mem e = b.graph.edge_mem e) ∧
      b2.trace =
        b.trace ++
          ([Event.de_update_insert_vertex nv, Event.mc_update_insert_vertex nv] ++
            b.list_update_insert_vertex_functions.map
              (fun f => Event.update_insert_vertex_function f nv)) ++
          ([Event.de_update_insert_edge ne, Event.mc_update_insert_edge ne] ++
            b.list_update_insert_edge_functions.map
              (fun f => Event.update_insert_edge_function f ne)) := by
  have hlast : traj.list_states.getLast? = some (traj.list_states.getLast hstates) :=
    List.getLast?_eq_getLast _ hstates
  have hsrc : src ≠ nv := fun h => by rw [h, hnv] at hs; exact Option.noConfusion hs
  refine ⟨_,
    { state := traj.list_states.getLast hstates
      data :=
        { data0 with
          reaches_goal :=
            reaches_goal b.model_checker ⟨traj.list_states.getLast hstates, data0, [], []⟩ }
      incoming_edges := [ne]
      outgoing_edges := [] },
    insert_trajectory_new_eq b nv data0 ne src traj none sx _ hs hlast hnv,
    rfl, rfl, by simp, rfl, rfl, rfl, by simp, ?_, ?_, ?_, ?_, rfl⟩
  · exact List.dropLast_append_getLast hstates
  · simp [Function.update, hsrc]
  · intro u hu hus
    simp [Function.update, hu, hus]
  · intro e he
    simp [Function.update, he]

/-- Witness for C14: from vertex `1` of the example planner, a trajectory with
the states 9 and 10 and two inputs, the new vertex at address `5` and the new
edge at address `4`. -/
theorem insert_trajectory_spec_witness :
    ∃ b2, Base.insert_trajectory exB 5 ⟨0, false⟩ 4 1
        ⟨[fun _ => 9, fun _ => 10], [⟨1, []⟩, ⟨2, []⟩]⟩ none none = Except.ok (b2, 1) ∧
      b2.list_vertices = [0, 1, 2, 3, 5] ∧ b2.num_vertices = 5 ∧
      b2.trace =
        [Event.de_update_insert_vertex 5, Event.mc_update_insert_vertex 5,
          Event.update_insert_vertex_function 7 5, Event.update_insert_vertex_function 8 5,
          Event.de_update_insert_edge 4, Event.mc_update_insert_edge 4,
          Event.update_insert_edge_function 10 4, Event.update_insert_edge_function 11 4] := by
  obtain ⟨b2, ny, h1, h2, h3, -, -, -, -, -, -, -, -, -, h4⟩ :=
    insert_trajectory_spec exB 5 ⟨0, false⟩ 4 1
      ⟨[fun _ => 9, fun _ => 10], [⟨1, []⟩, ⟨2, []⟩]⟩ exV1 rfl
      (fun h => List.noConfusion h) rfl rfl
  exact ⟨b2, h1, h2, h3, h4⟩

/-- Claim C16: if the tree invariant holds for a root (the root has no
incoming edge, every other listed vertex exactly one), then after
`insert_trajectory` without destination from a live source it still holds;
the new vertex has exactly one incoming edge, the new edge, which leaves the
source, and no outgoing edge; and the incoming list of every vertex that
existed before is unchanged. -/
theorem insert_trajectory_tree (b : Base R N) (root nv : VertexId) (data0 : vertex_data R)
    (ne : EdgeId) (src : VertexId) (traj : trajectory_t R N) (sx : vertex_t R N)
    (htree : tree_invariant b root)
    (hs : b.graph.vertex_mem src = some sx) (hstates : traj.list_states ≠ [])
    (hnv : b.graph.vertex_mem nv = none) (_hne : b.graph.edge_mem ne = none) :
    ∃ b2 ny ed, Base.insert_trajectory b nv data0 ne src traj none none = Except.ok (b2, 1) ∧
      tree_invariant b2 root ∧
      b2.graph.vertex_mem nv = some ny ∧
      ny.incoming_edges = [ne] ∧ ny.incoming_edges.length = 1 ∧ ny.outgoing_edges = [] ∧
      b2.graph.edge_mem ne = some ed ∧
      ed.vertex_src = some src ∧ ed.vertex_dst = some nv ∧
      (∀ u ux, b.graph.vertex_mem u = some ux →
        ∃ uy, b2.graph.vertex_mem u = some uy ∧ uy.incoming_edges = ux.incoming_edges) := by
  have hlast : traj.list_states.getLast? = some (traj.list_states.getLast hstates) :=
    List.getLast?_eq_getLast _ hstates
  have hsrc : src ≠ nv := fun h => by rw [h, hnv] at hs; exact Option.noConfusion hs
  have hold : ∀ u ux, b.graph.vertex_mem u = some ux →
      ∃ uy,
        Function.update
            (Function.update b.graph.vertex_mem src
              (some { sx with outgoing_edges := sx.outgoing_edges ++ [ne] }))
            nv
            (some
              { state := traj.list_states.getLast hstates
                data :=
                  { data0 with
                    reaches_goal :=
                      reaches_goal b.model_checker
                        ⟨traj.list_states.getLast hstates, data0, [], []⟩ }
                incoming_edges := [ne]
                outgoing_edges := [] })
            u = some uy ∧
          uy.incoming_edges = ux.incoming_edges := by
    intro u ux hu
    have hunv : u ≠ nv := fun h => by rw [h, hnv] at hu; exact Option.noConfusion hu
    by_cases hus : u = src
    · subst hus
      rw [hs] at hu
      have hxx : sx = ux := Option.some.inj hu
      subst hxx
      exact ⟨{ sx with outgoing_edges := sx.outgoing_edges ++ [ne] },
        by simp [Function.update, hunv], rfl⟩
    · exact ⟨ux, by simp [Function.update, hunv, hus, hu], rfl⟩
  refine ⟨_,
    { state := traj.list_states.getLast hstates
      data :=
        { data0 with
          reaches_goal :=
            reaches_goal b.model_checker ⟨traj.list_states.getLast hstates, data0, [], []⟩ }
      incoming_edges := [ne]
      outgoing_edges := [] },
    ⟨some src, some nv, ⟨traj.list_states.dropLast, traj.list_inputs⟩⟩,
    insert_trajectory_new_eq b nv data0 ne src traj none sx _ hs hlast hnv,
    ?_, by simp, rfl, rfl, rfl, by simp, rfl, rfl, hold⟩
  obtain ⟨⟨rx, hrx, hrin⟩, hrest⟩ := htree
  constructor
  · obtain ⟨ry, hry, hryin⟩ := hold root rx hrx
    exact ⟨ry, hry, hryin.trans hrin⟩
  · intro u hu hur
    simp only [List.mem_append, List.mem_singleton] at hu
    rcases hu with hu | hu
    · obtain ⟨ux, hux, hlen⟩ := hrest u hu hur
      obtain ⟨uy, huy, huyin⟩ := hold u ux hux
      exact ⟨uy, huy, by rw [huyin]; exact hlen⟩
    · subst hu
      exact ⟨_, Function.update_same _ _ _, rfl⟩

/-- Witness for C16: the example planner is a tree rooted at vertex `0`; a
trajectory inserted from vertex `1` keeps it one. -/
theorem insert_trajectory_tree_witness :
    ∃ b2, Base.insert_trajectory exB 5 ⟨0, false⟩ 4 1
        ⟨[fun _ => 9, fun _ => 10], [⟨1, []⟩, ⟨2, []⟩]⟩ none none = Except.ok (b2, 1) ∧
      tree_invariant b2 0 := by
  have htree : tree_invariant exB 0 := by
    refine ⟨⟨exV0, rfl, rfl⟩, ?_⟩
    intro u hu hur
    simp only [exB, List.mem_cons, List.mem_singleton, List.not_mem_nil, or_false] at hu
    rcases hu with rfl | rfl | rfl | rfl
    · exact absurd rfl hur
    · exact ⟨exV1, rfl, rfl⟩
    · exact ⟨exV2, rfl, rfl⟩
    · exact ⟨exV3, rfl, rfl⟩
  obtain ⟨b2, ny, ed, h1, h2, -⟩ :=
    insert_trajectory_tree exB 0 5 ⟨0, false⟩ 4 1
      ⟨[fun _ => 9, fun _ => 10], [⟨1, []⟩, ⟨2, []⟩]⟩ exV1 htree rfl
      (fun h => List.noConfusion h) rfl rfl
  exact ⟨b2, h1, h2⟩

end trajectory_claims

section initialize_claims

/-- Claim C17 (evaluation at the failing input): on the example planner, which
lists the four vertices `0` to `3`, `Base::initialize()` returns 1 after
deleting every listed vertex and every outgoing edge of one, but the vertex
list still holds the four freed addresses and the count is still 4; a second
call, as made by the destructor, reads a freed vertex. -/
theorem initialize_keeps_vertex_list :
    ∃ b2, Base.initialize exB = Except.ok (b2, 1) ∧
      b2.list_vertices = [0, 1, 2, 3] ∧ b2.list_vertices ≠ [] ∧
      b2.num_vertices = 4 ∧ b2.num_vertices ≠ 0 ∧
      (b2.list_vertices.map fun v => (b2.graph.vertex_mem v).isSome) =
        [false, false, false, false] ∧
      ([0, 1, 2].map fun e => (b2.graph.edge_mem e).isSome) = [false, false, false] ∧
      Base.initialize b2 = Except.error Fault.dangling :=
  ⟨_, rfl, rfl, fun h => List.noConfusion h, rfl, by decide, rfl, rfl, rfl⟩

end initialize_claims

section consistency_lemmas

variable {R : Type} {N : Nat}

/-- Erasing a set of edges everywhere keeps the heap consistent. -/
theorem remove_edges_consistent (g : Graph R N) (es : List EdgeId)
    (h : edge_endpoint_consistency g) : edge_endpoint_consistency (g.remove_edges es) := by
  obtain ⟨h1, h2, h3⟩ := h
  refine ⟨?_, ?_, ?_⟩
  · intro u ux hu e he
    simp only [Graph.remove_edges, Option.map_eq_some'] at hu
    obtain ⟨u0, hu0, rfl⟩ := hu
    simp only [vertex_t.remove_edges, List.mem_filter, decide_eq_true_eq] at he
    obtain ⟨he1, he2⟩ := he
    obtain ⟨ed, d, dx, hed, hsrc, hdst, hd, hin⟩ := h1 u u0 hu0 e he1
    refine ⟨ed, d, dx.remove_edges es, ?_, hsrc, hdst, ?_, ?_⟩
    · simp [Graph.remove_edges, he2, hed]
    · simp [Graph.remove_edges, hd]
    · simp [vertex_t.remove_edges, hin, he2]
  · intro u ux hu e he
    simp only [Graph.remove_edges, Option.map_eq_some'] at hu
    obtain ⟨u0, hu0, rfl⟩ := hu
    simp only [vertex_t.remove_edges, List.mem_filter, decide_eq_true_eq] at he
    obtain ⟨he1, he2⟩ := he
    obtain ⟨ed, s, sx, hed, hdst, hsrc, hs, hout⟩ := h2 u u0 hu0 e he1
    refine ⟨ed, s, sx.remove_edges es, ?_, hdst, hsrc, ?_, ?_⟩
    · simp [Graph.remove_edges, he2, hed]
    · simp [Graph.remove_edges, hs]
    · simp [vertex_t.remove_edges, hout, he2]
  · intro e ed he
    simp only [Graph.remove_edges] at he
    by_cases hmem : e ∈ es
    · simp [hmem] at he
    · simp only [hmem, if_false] at he
      obtain ⟨hs, hd⟩ := h3 e ed he
      constructor
      · intro s hsrc
        obtain ⟨sx, hsx, hout⟩ := hs s hsrc
        exact ⟨sx.remove_edges es, by simp [Graph.remove_edges, hsx],
          by simp [vertex_t.remove_edges, hout, hmem]⟩
      · intro d hdst
        obtain ⟨dx, hdx, hin⟩ := hd d hdst
        exact ⟨dx.remove_edges es, by simp [Graph.remove_edges, hdx],
          by simp [vertex_t.remove_edges, hin, hmem]⟩

/-- Erasing two sets of edges one after the other erases their union. -/
theorem remove_edges_remove_edges (g : Graph R N) (es1 es2 : List EdgeId) :
    (g.remove_edges es1).remove_edges es2 = g.remove_edges (es1 ++ es2) := by
  simp only [Graph.remove_edges]
  congr 1
  · funext u
    cases g.vertex_mem u with
    | none => rfl
    | some ux =>
      simp only [Option.map_some', vertex_t.remove_edges, List.filter_filter, List.mem_append,
        not_or]
      congr 2
      · congr 1
        funext x
        simp [Bool.and_comm]
      · congr 1
        funext x
        simp [Bool.and_comm]
  · funext e
    by_cases h1 : e ∈ es1 <;> by_cases h2 : e ∈ es2 <;> simp [h1, h2]

/-- Erasing the edges of `es`, or only those not in `es0` after `es0` was
erased, makes no difference. -/
theorem remove_edges_filter (g : Graph R N) (es0 es : List EdgeId) :
    (g.remove_edges es0).remove_edges (es.filter fun x => decide (x ∉ es0)) =
      g.remove_edges (es0 ++ es) := by
  rw [remove_edges_remove_edges]
  simp only [Graph.remove_edges]
  congr 1
  · funext u
    cases g.vertex_mem u with
    | none => rfl
    | some ux =>
      simp only [Option.map_some', vertex_t.remove_edges]
      congr 2
      · apply List.filter_congr
        intro x _
        by_cases h0 : x ∈ es0 <;> simp [h0]
      · apply List.filter_congr
        intro x _
        by_cases h0 : x ∈ es0 <;> simp [h0]
  · funext e
    by_cases h0 : e ∈ es0 <;> simp [h0]

/-- Freeing a vertex whose two edge lists are empty keeps the heap
consistent. -/
theorem free_vertex_consistent (g : Graph R N) (v : VertexId) (vx : vertex_t R N)
    (h : edge_endpoint_consistency g) (hv : g.vertex_mem v = some vx)
    (hin : vx.incoming_edges = []) (hout : vx.outgoing_edges = []) :
    edge_endpoint_consistency
      ({ g with vertex_mem := Function.update g.vertex_mem v none } : Graph R N) := by
  obtain ⟨h1, h2, h3⟩ := h
  have hlive : ∀ u ux, g.vertex_mem u = some ux →
      (∃ e, e ∈ ux.incoming_edges ∨ e ∈ ux.outgoing_edges) →
      Function.update g.vertex_mem v none u = some ux := by
    intro u ux hu hex
    have huv : u ≠ v := by
      intro huv
      subst huv
      rw [hv] at hu
      have hxx : vx = ux := Option.some.inj hu
      subst hxx
      obtain ⟨e, he | he⟩ := hex
      · rw [hin] at he
        exact List.not_mem_nil _ he
      · rw [hout] at he
        exact List.not_mem_nil _ he
    simp [Function.update, huv, hu]
  have hold : ∀ u ux, Function.update g.vertex_mem v none u = some ux →
      g.vertex_mem u = some ux := by
    intro u ux hu
    by_cases huv : u = v
    · subst huv
      simp at hu
    · simpa [Function.update, huv] using hu
  refine ⟨?_, ?_, ?_⟩
  · intro u ux hu e he
    obtain ⟨ed, d, dx, hed, hsrc, hdst, hd, hmem⟩ := h1 u ux (hold u ux hu) e he
    exact ⟨ed, d, dx, hed, hsrc, hdst, hlive d dx hd ⟨e, Or.inl hmem⟩, hmem⟩
  · intro u ux hu e he
    obtain ⟨ed, s, sx, hed, hdst, hsrc, hs, hmem⟩ := h2 u ux (hold u ux hu) e he
    exact ⟨ed, s, sx, hed, hdst, hsrc, hlive s sx hs ⟨e, Or.inr hmem⟩, hmem⟩
  · intro e ed he
    obtain ⟨hs, hd⟩ := h3 e ed he
    constructor
    · intro s hsrc
      obtain ⟨sx, hsx, hmem⟩ := hs s hsrc
      exact ⟨sx, hlive s sx hsx ⟨e, Or.inr hmem⟩, hmem⟩
    · intro d hdst
      obtain ⟨dx, hdx, hmem⟩ := hd d hdst
      exact ⟨dx, hlive d dx hdx ⟨e, Or.inl hmem⟩, hmem⟩

end consistency_lemmas

section consistency_lemmas2

variable {R : Type} {N : Nat}

/-- Linking an edge that no list holds yet between two live vertices keeps the
heap consistent. -/
theorem link_consistent (g : Graph R N) (src dst : VertexId) (e : EdgeId)
    (sx dx : vertex_t R N) (ed : edge_t R N)
    (h : edge_endpoint_consistency g) (hfresh : ¬ g.lists e)
    (hs : g.vertex_mem src = some sx) (hd : g.vertex_mem dst = some dx) :
    edge_endpoint_consistency (g.link src e dst ed) := by
  obtain ⟨h1, h2, h3⟩ := h
  have hlive : ∀ u ux, g.vertex_mem u = some ux →
      ∃ uy, (g.link src e dst ed).vertex_mem u = some uy ∧
        (∀ x, x ∈ ux.outgoing_edges → x ∈ uy.outgoing_edges) ∧
        (∀ x, x ∈ ux.incoming_edges → x ∈ uy.incoming_edges) ∧
        (u = src → e ∈ uy.outgoing_edges) ∧ (u = dst → e ∈ uy.incoming_edges) := by
    intro u ux hu
    refine ⟨{ ux with
        outgoing_edges := if u = src then ux.outgoing_edges ++ [e] else ux.outgoing_edges
        incoming_edges := if u = dst then ux.incoming_edges ++ [e] else ux.incoming_edges },
      by simp only [Graph.link, hu, Option.map_some'], ?_, ?_, ?_, ?_⟩
    · intro x hx
      by_cases hus : u = src <;> simp [hus, hx]
    · intro x hx
      by_cases hud : u = dst <;> simp [hud, hx]
    · intro hus
      simp [hus]
    · intro hud
      simp [hud]
  have hedge : ∀ x, x ≠ e → (g.link src e dst ed).edge_mem x = g.edge_mem x := by
    intro x hx
    simp [Graph.link, Function.update, hx]
  have hnew : (g.link src e dst ed).edge_mem e =
      some { ed with vertex_src := some src, vertex_dst := some dst } := by
    simp [Graph.link]
  have hne : ∀ u ux x, g.vertex_mem u = some ux →
      (x ∈ ux.outgoing_edges ∨ x ∈ ux.incoming_edges) → x ≠ e := by
    intro u ux x hu hx hxe
    subst hxe
    exact hfresh ⟨u, ux, hu, hx⟩
  refine ⟨?_, ?_, ?_⟩
  · intro u uy hu x hx
    simp only [Graph.link, Option.map_eq_some'] at hu
    obtain ⟨ux, hux, rfl⟩ := hu
    have hcase : x ∈ ux.outgoing_edges ∨ (u = src ∧ x = e) := by
      by_cases hus : u = src
      · simp only [hus, if_true, List.mem_append, List.mem_singleton] at hx
        rcases hx with hx | hx
        · exact Or.inl hx
        · exact Or.inr ⟨hus, hx⟩
      · simp only [hus, if_false] at hx
        exact Or.inl hx
    rcases hcase with hx0 | ⟨hus, hxe⟩
    · obtain ⟨ed0, d, dx0, hed, hsrc, hdst, hd0, hmem⟩ := h1 u ux hux x hx0
      obtain ⟨dy, hdy, -, hin, -, -⟩ := hlive d dx0 hd0
      exact ⟨ed0, d, dy, (hedge x (hne u ux x hux (Or.inl hx0))).trans hed, hsrc, hdst, hdy,
        hin x hmem⟩
    · subst hus hxe
      obtain ⟨dy, hdy, -, -, -, hin⟩ := hlive dst dx hd
      exact ⟨_, dst, dy, hnew, rfl, rfl, hdy, hin rfl⟩
  · intro u uy hu x hx
    simp only [Graph.link, Option.map_eq_some'] at hu
    obtain ⟨ux, hux, rfl⟩ := hu
    have hcase : x ∈ ux.incoming_edges ∨ (u = dst ∧ x = e) := by
      by_cases hud : u = dst
      · simp only [hud, if_true, List.mem_append, List.mem_singleton] at hx
        rcases hx with hx | hx
        · exact Or.inl hx
        · exact Or.inr ⟨hud, hx⟩
      · simp only [hud, if_false] at hx
        exact Or.inl hx
    rcases hcase with hx0 | ⟨hud, hxe⟩
    · obtain ⟨ed0, s, sx0, hed, hdst, hsrc, hs0, hmem⟩ := h2 u ux hux x hx0
      obtain ⟨sy, hsy, hout, -, -, -⟩ := hlive s sx0 hs0
      exact ⟨ed0, s, sy, (hedge x (hne u ux x hux (Or.inr hx0))).trans hed, hdst, hsrc, hsy,
        hout x hmem⟩
    · subst hud hxe
      obtain ⟨sy, hsy, -, -, hout, -⟩ := hlive src sx hs
      exact ⟨_, src, sy, hnew, rfl, rfl, hsy, hout rfl⟩
  · intro x edx hx
    by_cases hxe : x = e
    · subst hxe
      rw [hnew] at hx
      have hxx := Option.some.inj hx
      subst hxx
      constructor
      · intro s hsrc
        have hss : src = s := Option.some.inj hsrc
        subst hss
        obtain ⟨sy, hsy, -, -, hout, -⟩ := hlive src sx hs
        exact ⟨sy, hsy, hout rfl⟩
      · intro d hdst
        have hdd : dst = d := Option.some.inj hdst
        subst hdd
        obtain ⟨dy, hdy, -, -, -, hin⟩ := hlive dst dx hd
        exact ⟨dy, hdy, hin rfl⟩
    · rw [hedge x hxe] at hx
      obtain ⟨hsx, hdx⟩ := h3 x edx hx
      constructor
      · intro s hsrc
        obtain ⟨sx0, hs0, hmem⟩ := hsx s hsrc
        obtain ⟨sy, hsy, hout, -, -, -⟩ := hlive s sx0 hs0
        exact ⟨sy, hsy, hout x hmem⟩
      · intro d hdst
        obtain ⟨dx0, hd0, hmem⟩ := hdx d hdst
        obtain ⟨dy, hdy, -, hin, -, -⟩ := hlive d dx0 hd0
        exact ⟨dy, hdy, hin x hmem⟩

/-- Replacing a live vertex by one with the same two edge lists keeps the heap
consistent (this covers writing its annotations). -/
theorem update_vertex_consistent (g : Graph R N) (v : VertexId) (vx vy : vertex_t R N)
    (h : edge_endpoint_consistency g) (hv : g.vertex_mem v = some vx)
    (hin : vy.incoming_edges = vx.incoming_edges)
    (hout : vy.outgoing_edges = vx.outgoing_edges) :
    edge_endpoint_consistency
      ({ g with vertex_mem := Function.update g.vertex_mem v (some vy) } : Graph R N) := by
  obtain ⟨h1, h2, h3⟩ := h
  have hlive : ∀ u ux, g.vertex_mem u = some ux →
      ∃ uy, Function.update g.vertex_mem v (some vy) u = some uy ∧
        uy.incoming_edges = ux.incoming_edges ∧ uy.outgoing_edges = ux.outgoing_edges := by
    intro u ux hu
    by_cases huv : u = v
    · subst huv
      rw [hv] at hu
      have hxx : vx = ux := Option.some.inj hu
      subst hxx
      exact ⟨vy, by simp, hin, hout⟩
    · exact ⟨ux, by simp [Function.update, huv, hu], rfl, rfl⟩
  have hold : ∀ u uy, Function.update g.vertex_mem v (some vy) u = some uy →
      ∃ ux, g.vertex_mem u = some ux ∧
        uy.incoming_edges = ux.incoming_edges ∧ uy.outgoing_edges = ux.outgoing_edges := by
    intro u uy hu
    by_cases huv : u = v
    · subst huv
      simp only [Function.update_same, Option.some.injEq] at hu
      subst hu
      exact ⟨vx, hv, hin, hout⟩
    · exact ⟨uy, by simpa [Function.update, huv] using hu, rfl, rfl⟩
  refine ⟨?_, ?_, ?_⟩
  · intro u uy hu e he
    obtain ⟨ux, hux, -, ho⟩ := hold u uy hu
    rw [ho] at he
    obtain ⟨ed, d, dx, hed, hsrc, hdst, hd, hmem⟩ := h1 u ux hux e he
    obtain ⟨dy, hdy, hi, -⟩ := hlive d dx hd
    exact ⟨ed, d, dy, hed, hsrc, hdst, hdy, by rw [hi]; exact hmem⟩
  · intro u uy hu e he
    obtain ⟨ux, hux, hi, -⟩ := hold u uy hu
    rw [hi] at he
    obtain ⟨ed, s, sx, hed, hdst, hsrc, hs, hmem⟩ := h2 u ux hux e he
    obtain ⟨sy, hsy, -, ho⟩ := hlive s sx hs
    exact ⟨ed, s, sy, hed, hdst, hsrc, hsy, by rw [ho]; exact hmem⟩
  · intro e ed he
    obtain ⟨hs, hd⟩ := h3 e ed he
    constructor
    · intro s hsrc
      obtain ⟨sx, hsx, hmem⟩ := hs s hsrc
      obtain ⟨sy, hsy, -, ho⟩ := hlive s sx hsx
      exact ⟨sy, hsy, by rw [ho]; exact hmem⟩
    · intro d hdst
      obtain ⟨dx, hdx, hmem⟩ := hd d hdst
      obtain ⟨dy, hdy, hi, -⟩ := hlive d dx hdx
      exact ⟨dy, hdy, by rw [hi]; exact hmem⟩

/-- Allocating a vertex at an address of no live object keeps the heap
consistent. -/
theorem new_vertex_consistent (g : Graph R N) (p : VertexId) (state : state_t R N)
    (data : vertex_data R) (h : edge_endpoint_consistency g) (hp : g.vertex_mem p = none) :
    edge_endpoint_consistency (g.new_vertex p state data) := by
  obtain ⟨h1, h2, h3⟩ := h
  have hlive : ∀ u ux, g.vertex_mem u = some ux →
      (g.new_vertex p state data).vertex_mem u = some ux := by
    intro u ux hu
    have hup : u ≠ p := fun hup => by rw [hup, hp] at hu; exact Option.noConfusion hu
    simp [Graph.new_vertex, Function.update, hup, hu]
  have hold : ∀ u ux, (g.new_vertex p state data).vertex_mem u = some ux →
      g.vertex_mem u = some ux ∨ (ux.incoming_edges = [] ∧ ux.outgoing_edges = []) := by
    intro u ux hu
    by_cases hup : u = p
    · subst hup
      simp only [Graph.new_vertex, Function.update_same, Option.some.injEq] at hu
      subst hu
      exact Or.inr ⟨rfl, rfl⟩
    · exact Or.inl (by simpa [Graph.new_vertex, Function.update, hup] using hu)
  refine ⟨?_, ?_, ?_⟩
  · intro u ux hu e he
    rcases hold u ux hu with hux | ⟨-, hout⟩
    · obtain ⟨ed, d, dx, hed, hsrc, hdst, hd, hmem⟩ := h1 u ux hux e he
      exact ⟨ed, d, dx, hed, hsrc, hdst, hlive d dx hd, hmem⟩
    · rw [hout] at he
      exact absurd he (List.not_mem_nil _)
  · intro u ux hu e he
    rcases hold u ux hu with hux | ⟨hin, -⟩
    · obtain ⟨ed, s, sx, hed, hdst, hsrc, hs, hmem⟩ := h2 u ux hux e he
      exact ⟨ed, s, sx, hed, hdst, hsrc, hlive s sx hs, hmem⟩
    · rw [hin] at he
      exact absurd he (List.not_mem_nil _)
  · intro e ed he
    obtain ⟨hs, hd⟩ := h3 e ed he
    constructor
    · intro s hsrc
      obtain ⟨sx, hsx, hmem⟩ := hs s hsrc
      exact ⟨sx, hlive s sx hsx, hmem⟩
    · intro d hdst
      obtain ⟨dx, hdx, hmem⟩ := hd d hdst
      exact ⟨dx, hlive d dx hdx, hmem⟩

/-- In a consistent heap an address of no live edge is in no adjacency list. -/
theorem not_lists_of_free (g : Graph R N) (e : EdgeId) (h : edge_endpoint_consistency g)
    (he : g.edge_mem e = none) : ¬ g.lists e := by
  rintro ⟨u, ux, hu, hout | hin⟩
  · obtain ⟨ed, -, -, hed, -⟩ := h.1 u ux hu e hout
    rw [he] at hed
    exact Option.noConfusion hed
  · obtain ⟨ed, -, -, hed, -⟩ := h.2.1 u ux hu e hin
    rw [he] at hed
    exact Option.noConfusion hed

/-- Allocating an edge at an address of no live object keeps the heap
consistent. -/
theorem new_edge_consistent (g : Graph R N) (p : EdgeId) (trajectory : trajectory_t R N)
    (h : edge_endpoint_consistency g) (hp : g.edge_mem p = none) :
    edge_endpoint_consistency (g.new_edge p trajectory) := by
  have hfree := not_lists_of_free g p h hp
  obtain ⟨h1, h2, h3⟩ := h
  have hedge : ∀ x ed, g.edge_mem x = some ed → (g.new_edge p trajectory).edge_mem x = some ed := by
    intro x ed hx
    have hxp : x ≠ p := fun hxp => by rw [hxp, hp] at hx; exact Option.noConfusion hx
    simp [Graph.new_edge, Function.update, hxp, hx]
  refine ⟨?_, ?_, ?_⟩
  · intro u ux hu e he
    obtain ⟨ed, d, dx, hed, hsrc, hdst, hd, hmem⟩ := h1 u ux hu e he
    exact ⟨ed, d, dx, hedge e ed hed, hsrc, hdst, hd, hmem⟩
  · intro u ux hu e he
    obtain ⟨ed, s, sx, hed, hdst, hsrc, hs, hmem⟩ := h2 u ux hu e he
    exact ⟨ed, s, sx, hedge e ed hed, hdst, hsrc, hs, hmem⟩
  · intro e ed he
    by_cases hep : e = p
    · subst hep
      simp only [Graph.new_edge, Function.update_same, Option.some.injEq] at he
      subst he
      exact ⟨fun s hs => Option.noConfusion hs, fun d hd => Option.noConfusion hd⟩
    · have he0 : g.edge_mem e = some ed := by
        simpa [Graph.new_edge, Function.update, hep] using he
      exact h3 e ed he0

end consistency_lemmas2

section edge_lemmas

variable {R : Type} {N : Nat}

/-- On live `src`, `e` and `dst`, `insert_edge` returns 1 and its effect on the
heap is `Graph.link`. -/
theorem insert_edge_link (b : Base R N) (src dst : VertexId) (e : EdgeId)
    (sx dx : vertex_t R N) (ed : edge_t R N)
    (hs : b.graph.vertex_mem src = some sx) (he : b.graph.edge_mem e = some ed)
    (hd : b.graph.vertex_mem dst = some dx) :
    Base.insert_edge b src e dst =
      Except.ok
        ({ b with
            graph := b.graph.link src e dst ed
            trace := b.trace ++ insert_edge_events b e },
          1) := by
  rw [insert_edge_eq b src dst e sx dx ed hs he hd]
  congr 3
  simp only [Graph.link]
  congr 1
  funext u
  by_cases hud : u = dst
  · subst hud
    by_cases hus : u = src
    · subst hus
      rw [hs] at hd
      have hxx : sx = dx := Option.some.inj hd
      subst hxx
      simp [hs]
    · simp [hus, hd]
  · by_cases hus : u = src
    · subst hus
      simp [Function.update, hud, hs]
    · cases hu : b.graph.vertex_mem u with
      | none => simp [Function.update, hud, hus, hu]
      | some ux => simp [Function.update, hud, hus, hu]

/-- A returning `insert_edge` was called on live `src`, `e` and `dst`. -/
theorem insert_edge_live (b b2 : Base R N) (src dst : VertexId) (e : EdgeId) (r : Int)
    (h : Base.insert_edge b src e dst = Except.ok (b2, r)) :
    ∃ sx dx ed, b.graph.vertex_mem src = some sx ∧ b.graph.edge_mem e = some ed ∧
      b.graph.vertex_mem dst = some dx := by
  unfold Base.insert_edge at h
  cases he : b.graph.edge_mem e with
  | none => simp [he] at h
  | some ed =>
    simp only [he] at h
    cases hs : b.graph.vertex_mem src with
    | none => simp [hs] at h
    | some sx =>
      cases hd : b.graph.vertex_mem dst with
      | none =>
        by_cases hds : dst = src
        · rw [hds, hs] at hd
          exact Option.noConfusion hd
        · simp [hs, hd, Function.update, hds] at h
      | some dx => exact ⟨sx, dx, ed, rfl, rfl, rfl⟩

/-- On a live edge with live end points, `delete_edge` returns 1 and its
effect on the heap is `Graph.unlink`. -/
theorem delete_edge_unlink (b : Base R N) (e : EdgeId) (src dst : VertexId)
    (sx dx : vertex_t R N) (ed : edge_t R N)
    (he : b.graph.edge_mem e = some ed) (hsrc : ed.vertex_src = some src)
    (hdst : ed.vertex_dst = some dst) (hs : b.graph.vertex_mem src = some sx)
    (hd : b.graph.vertex_mem dst = some dx) :
    Base.delete_edge b e =
      Except.ok
        ({ b with
            graph := b.graph.unlink src e dst
            trace := b.trace ++ delete_edge_events b e },
          1) := by
  have hgraph : ∀ (dy : vertex_t R N),
      Function.update b.graph.vertex_mem src
          (some { sx with outgoing_edges := sx.outgoing_edges.filter fun x => x != e }) dst =
        some dy →
      ({ vertex_mem :=
          Function.update
            (Function.update b.graph.vertex_mem src
              (some { sx with outgoing_edges := sx.outgoing_edges.filter fun x => x != e }))
            dst
            (some { dy with incoming_edges := dy.incoming_edges.filter fun x => x != e })
         edge_mem := Function.update b.graph.edge_mem e none } : Graph R N) =
        b.graph.unlink src e dst := by
    intro dy hdy
    simp only [Graph.unlink]
    congr 1
    funext u
    by_cases hud : u = dst
    · subst hud
      by_cases hus : u = src
      · subst hus
        simp only [Function.update_same, Option.some.injEq] at hdy
        subst hdy
        simp [hs]
      · simp only [Function.update, hus] at hdy
        simp at hdy
        rw [hd] at hdy
        have hxx : dx = dy := Option.some.inj hdy
        subst hxx
        simp [hus, hd]
    · by_cases hus : u = src
      · subst hus
        simp [Function.update, hud, hs]
      · cases hu : b.graph.vertex_mem u with
        | none => simp [Function.update, hud, hus, hu]
        | some ux => simp [Function.update, hud, hus, hu]
  unfold Base.delete_edge
  simp only [mc_update_delete_edge, he, hsrc, hdst, hs]
  by_cases hds : dst = src
  · subst hds
    have hg := hgraph { sx with outgoing_edges := sx.outgoing_edges.filter fun x => x != e }
      (Function.update_same _ _ _)
    dsimp only at hg
    simp only [Function.update_same]
    rw [hg]
    simp [delete_edge_events]
  · have hdy : Function.update b.graph.vertex_mem src
          (some { sx with outgoing_edges := sx.outgoing_edges.filter fun x => x != e }) dst =
        some dx := by
      simp [Function.update, hds, hd]
    simp only [hdy]
    rw [hgraph dx hdy]
    simp [delete_edge_events]

/-- A returning `delete_edge` was called on a live edge with live end
points. -/
theorem delete_edge_live (b b2 : Base R N) (e : EdgeId) (r : Int)
    (h : Base.delete_edge b e = Except.ok (b2, r)) :
    ∃ ed src dst sx dx, b.graph.edge_mem e = some ed ∧ ed.vertex_src = some src ∧
      ed.vertex_dst = some dst ∧ b.graph.vertex_mem src = some sx ∧
      b.graph.vertex_mem dst = some dx := by
  unfold Base.delete_edge at h
  simp only [mc_update_delete_edge] at h
  cases he : b.graph.edge_mem e with
  | none => simp [he] at h
  | some ed =>
    simp only [he] at h
    cases hsrc : ed.vertex_src with
    | none => simp [hsrc] at h
    | some src =>
      simp only [hsrc] at h
      cases hs : b.graph.vertex_mem src with
      | none => simp [hs] at h
      | some sx =>
        simp only [hs] at h
        cases hdst : ed.vertex_dst with
        | none => simp [hdst] at h
        | some dst =>
          simp only [hdst] at h
          cases hd : b.graph.vertex_mem dst with
          | none =>
            by_cases hds : dst = src
            · rw [hds, hs] at hd
              exact Option.noConfusion hd
            · simp [Function.update, hds, hd] at h
          | some dx => exact ⟨ed, src, dst, sx, dx, rfl, hsrc, hdst, hs, hd⟩

/-- In a consistent heap, unlinking an edge from its end points erases it from
every adjacency list. -/
theorem unlink_eq_remove_edges (g : Graph R N) (e : EdgeId) (src dst : VertexId)
    (ed : edge_t R N) (h : edge_endpoint_consistency g)
    (he : g.edge_mem e = some ed) (hsrc : ed.vertex_src = some src)
    (hdst : ed.vertex_dst = some dst) :
    g.unlink src e dst = g.remove_edges [e] := by
  obtain ⟨h1, h2, -⟩ := h
  simp only [Graph.unlink, Graph.remove_edges]
  congr 1
  · funext u
    cases hu : g.vertex_mem u with
    | none => rfl
    | some ux =>
      have hout : u ≠ src → e ∉ ux.outgoing_edges := by
        intro hus hmem
        obtain ⟨ed0, -, -, hed0, hs0, -⟩ := h1 u ux hu e hmem
        rw [he] at hed0
        have hxx : ed = ed0 := Option.some.inj hed0
        subst hxx
        rw [hsrc] at hs0
        exact hus (Option.some.inj hs0).symm
      have hin : u ≠ dst → e ∉ ux.incoming_edges := by
        intro hud hmem
        obtain ⟨ed0, -, -, hed0, hd0, -⟩ := h2 u ux hu e hmem
        rw [he] at hed0
        have hxx : ed = ed0 := Option.some.inj hed0
        subst hxx
        rw [hdst] at hd0
        exact hud (Option.some.inj hd0).symm
      have hfilter : ∀ l : List EdgeId,
          (l.filter fun x => decide (x ∉ [e])) = l.filter fun x => x != e := by
        intro l
        apply List.filter_congr
        intro x _
        by_cases hxe : x = e <;> simp [hxe]
      have hid : ∀ l : List EdgeId, e ∉ l → (l.filter fun x => x != e) = l := by
        intro l hl
        rw [List.filter_eq_self]
        intro x hx
        have : x ≠ e := fun hxe => hl (hxe ▸ hx)
        simpa using this
      simp only [Option.map_some', vertex_t.remove_edges, hfilter]
      congr 2
      · by_cases hud : u = dst
        · simp [hud]
        · simp only [hud, if_false]
          exact (hid _ (hin hud)).symm
      · by_cases hus : u = src
        · simp [hus]
        · simp only [hus, if_false]
          exact (hid _ (hout hus)).symm
  · funext x
    by_cases hxe : x = e
    · subst hxe
      simp
    · simp [Function.update, hxe]

end edge_lemmas

section delete_lemmas

variable {R : Type} {N : Nat}

/-- Erasing no edge changes nothing. -/
theorem remove_edges_nil (g : Graph R N) : g.remove_edges [] = g := by
  cases g with
  | mk vm em =>
    simp only [Graph.remove_edges, List.not_mem_nil, if_false]
    congr 1
    funext u
    cases vm u with
    | none => rfl
    | some ux => simp [vertex_t.remove_edges]

/-- In a consistent heap a listed edge is live and so are its end points. -/
theorem lists_live (g : Graph R N) (e : EdgeId) (h : edge_endpoint_consistency g)
    (hl : g.lists e) :
    ∃ ed src dst sx dx, g.edge_mem e = some ed ∧ ed.vertex_src = some src ∧
      ed.vertex_dst = some dst ∧ g.vertex_mem src = some sx ∧ g.vertex_mem dst = some dx := by
  obtain ⟨u, ux, hu, hout | hin⟩ := hl
  · obtain ⟨ed, d, dx, hed, hsrc, hdst, hd, -⟩ := h.1 u ux hu e hout
    exact ⟨ed, u, d, ux, dx, hed, hsrc, hdst, hu, hd⟩
  · obtain ⟨ed, s, sx, hed, hdst, hsrc, hs, -⟩ := h.2.1 u ux hu e hin
    exact ⟨ed, s, u, sx, ux, hed, hsrc, hdst, hs, hu⟩

/-- On a consistent heap a returning `delete_edge` erases the edge from every
adjacency list, frees it, and leaves the heap consistent. -/
theorem delete_edge_consistent (b b2 : Base R N) (e : EdgeId) (r : Int)
    (h : edge_endpoint_consistency b.graph)
    (hdel : Base.delete_edge b e = Except.ok (b2, r)) :
    b2.graph = b.graph.remove_edges [e] ∧ edge_endpoint_consistency b2.graph := by
  obtain ⟨ed, src, dst, sx, dx, he, hsrc, hdst, hs, hd⟩ := delete_edge_live b b2 e r hdel
  rw [delete_edge_unlink b e src dst sx dx ed he hsrc hdst hs hd] at hdel
  simp only [Except.ok.injEq, Prod.mk.injEq] at hdel
  obtain ⟨rfl, -⟩ := hdel
  have hg : b.graph.unlink src e dst = b.graph.remove_edges [e] :=
    unlink_eq_remove_edges b.graph e src dst ed h he hsrc hdst
  refine ⟨hg, ?_⟩
  show edge_endpoint_consistency (b.graph.unlink src e dst)
  rw [hg]
  exact remove_edges_consistent b.graph [e] h

/-- On a consistent heap a returning run of `delete_edge` over a list erases
these edges from every adjacency list, frees them, and leaves the heap
consistent. -/
theorem delete_edge_list_consistent (es : List EdgeId) :
    ∀ (b b2 : Base R N), edge_endpoint_consistency b.graph →
      Base.delete_edge_list b es = Except.ok b2 →
      b2.graph = b.graph.remove_edges es ∧ edge_endpoint_consistency b2.graph := by
  induction es with
  | nil =>
    intro b b2 h hdel
    simp only [Base.delete_edge_list, Except.ok.injEq] at hdel
    subst hdel
    exact ⟨(remove_edges_nil b.graph).symm, h⟩
  | cons e rest ih =>
    intro b b2 h hdel
    simp only [Base.delete_edge_list] at hdel
    cases hd : Base.delete_edge b e with
    | error f => simp [hd] at hdel
    | ok p =>
      obtain ⟨b1, r⟩ := p
      simp only [hd] at hdel
      obtain ⟨hg1, hc1⟩ := delete_edge_consistent b b1 e r h hd
      obtain ⟨hg2, hc2⟩ := ih b1 b2 hc1 hdel
      refine ⟨?_, hc2⟩
      rw [hg2, hg1, remove_edges_remove_edges]
      rfl

/-- On a consistent heap `delete_edge` over a duplicate-free list of listed
edges returns. -/
theorem delete_edge_list_returns (es : List EdgeId) :
    ∀ (b : Base R N), edge_endpoint_consistency b.graph → es.Nodup →
      (∀ e ∈ es, b.graph.lists e) → ∃ b2, Base.delete_edge_list b es = Except.ok b2 := by
  induction es with
  | nil =>
    intro b _ _ _
    exact ⟨b, rfl⟩
  | cons e rest ih =>
    intro b h hnodup hlisted
    obtain ⟨ed, src, dst, sx, dx, he, hsrc, hdst, hs, hd⟩ :=
      lists_live b.graph e h (hlisted e (List.mem_cons_self e rest))
    have hdel := delete_edge_unlink b e src dst sx dx ed he hsrc hdst hs hd
    obtain ⟨hg1, hc1⟩ := delete_edge_consistent b _ e 1 h hdel
    simp only [Base.delete_edge_list, hdel]
    obtain ⟨hnot, hnodup2⟩ := List.nodup_cons.mp hnodup
    refine ih _ hc1 hnodup2 ?_
    intro x hx
    have hxe : x ≠ e := fun hxe => hnot (hxe ▸ hx)
    obtain ⟨u, ux, hu, hmem⟩ := hlisted x (List.mem_cons_of_mem e hx)
    rw [hg1]
    refine ⟨u, ux.remove_edges [e], by simp [Graph.remove_edges, hu], ?_⟩
    rcases hmem with hmem | hmem
    · exact Or.inl (by simp [vertex_t.remove_edges, hmem, hxe])
    · exact Or.inr (by simp [vertex_t.remove_edges, hmem, hxe])

end delete_lemmas

section delete_vertex_lemmas

variable {R : Type} {N : Nat}

/-- On a consistent heap a returning second half of `delete_vertex` returns 1,
erases the vertex from the list, decrements the count, frees the vertex and
all edges of its two lists, erases these edges from every adjacency list, and
leaves the heap consistent. -/
theorem delete_vertex_edges_consistent (b1 b2 : Base R N) (v : VertexId) (r : Int)
    (h : edge_endpoint_consistency b1.graph)
    (hdel : Base.delete_vertex_edges b1 v = Except.ok (b2, r)) :
    ∃ vx, b1.graph.vertex_mem v = some vx ∧ r = 1 ∧
      b2.list_vertices = b1.list_vertices.filter (fun x => x != v) ∧
      b2.num_vertices = b1.num_vertices - 1 ∧
      b2.graph =
        { vertex_mem :=
            Function.update
              (b1.graph.remove_edges (vx.incoming_edges ++ vx.outgoing_edges)).vertex_mem v none
          edge_mem :=
            (b1.graph.remove_edges (vx.incoming_edges ++ vx.outgoing_edges)).edge_mem } ∧
      edge_endpoint_consistency b2.graph := by
  unfold Base.delete_vertex_edges at hdel
  cases hvx : b1.graph.vertex_mem v with
  | none => simp [hvx] at hdel
  | some vx =>
    simp only [hvx] at hdel
    cases hb3 : Base.delete_edge_list b1 vx.incoming_edges with
    | error f => simp [hb3] at hdel
    | ok b3 =>
      simp only [hb3] at hdel
      obtain ⟨hg3, hc3⟩ := delete_edge_list_consistent _ b1 b3 h hb3
      have hv3 : b3.graph.vertex_mem v = some (vx.remove_edges vx.incoming_edges) := by
        rw [hg3]
        simp [Graph.remove_edges, hvx]
      simp only [hv3] at hdel
      cases hb4 : Base.delete_edge_list b3
          (vx.remove_edges vx.incoming_edges).outgoing_edges with
      | error f => simp [hb4] at hdel
      | ok b4 =>
        simp only [hb4, Except.ok.injEq, Prod.mk.injEq] at hdel
        obtain ⟨rfl, rfl⟩ := hdel
        obtain ⟨hg4, hc4⟩ := delete_edge_list_consistent _ b3 b4 hc3 hb4
        obtain ⟨-, hl3, hn3, -, -⟩ := delete_edge_list_frame _ _ _ hb3
        obtain ⟨-, hl4, hn4, -, -⟩ := delete_edge_list_frame _ _ _ hb4
        have hg : b4.graph =
            b1.graph.remove_edges (vx.incoming_edges ++ vx.outgoing_edges) := by
          rw [hg4, hg3]
          exact remove_edges_filter b1.graph vx.incoming_edges vx.outgoing_edges
        have hv4 : b4.graph.vertex_mem v =
            some (vx.remove_edges (vx.incoming_edges ++ vx.outgoing_edges)) := by
          rw [hg]
          simp [Graph.remove_edges, hvx]
        refine ⟨vx, rfl, rfl, by simp [hl4, hl3], by simp [hn4, hn3], ?_, ?_⟩
        · simp only [hg]
        · refine free_vertex_consistent b4.graph v _ hc4 hv4 ?_ ?_
          · simp only [vertex_t.remove_edges, List.filter_eq_nil_iff]
            intro x hx
            simp [hx]
          · simp only [vertex_t.remove_edges, List.filter_eq_nil_iff]
            intro x hx
            simp [hx]

/-- On a consistent heap, for a live vertex whose two edge lists are free of
duplicates, the second half of `delete_vertex` returns. -/
theorem delete_vertex_edges_returns (b1 : Base R N) (v : VertexId) (vx : vertex_t R N)
    (h : edge_endpoint_consistency b1.graph) (hv : b1.graph.vertex_mem v = some vx)
    (hin : vx.incoming_edges.Nodup) (hout : vx.outgoing_edges.Nodup) :
    ∃ b2, Base.delete_vertex_edges b1 v = Except.ok (b2, 1) := by
  obtain ⟨b3, hb3⟩ := delete_edge_list_returns vx.incoming_edges b1 h hin
    (fun e he => ⟨v, vx, hv, Or.inr he⟩)
  obtain ⟨hg3, hc3⟩ := delete_edge_list_consistent _ b1 b3 h hb3
  have hv3 : b3.graph.vertex_mem v = some (vx.remove_edges vx.incoming_edges) := by
    rw [hg3]
    simp [Graph.remove_edges, hv]
  obtain ⟨b4, hb4⟩ := delete_edge_list_returns
    (vx.remove_edges vx.incoming_edges).outgoing_edges b3 hc3
    (by
      simp only [vertex_t.remove_edges]
      exact hout.filter _)
    (fun e he => ⟨v, _, hv3, Or.inl he⟩)
  unfold Base.delete_vertex_edges
  simp only [hv, hb3, hv3, hb4]
  exact ⟨_, rfl⟩

/-- The statement of `delete_vertex_edges_consistent` for `delete_vertex`. -/
theorem delete_vertex_consistent (b b2 : Base R N) (v : VertexId) (r : Int)
    (h : edge_endpoint_consistency b.graph)
    (hdel : Base.delete_vertex b v = Except.ok (b2, r)) :
    ∃ vx, b.graph.vertex_mem v = some vx ∧ r = 1 ∧
      b2.list_vertices = b.list_vertices.filter (fun x => x != v) ∧
      b2.num_vertices = b.num_vertices - 1 ∧
      b2.graph =
        { vertex_mem :=
            Function.update
              (b.graph.remove_edges (vx.incoming_edges ++ vx.outgoing_edges)).vertex_mem v none
          edge_mem :=
            (b.graph.remove_edges (vx.incoming_edges ++ vx.outgoing_edges)).edge_mem } ∧
      edge_endpoint_consistency b2.graph := by
  unfold Base.delete_vertex at hdel
  simp only [mc_update_delete_vertex] at hdel
  have key := fun hc => delete_vertex_edges_consistent _ b2 v r hc hdel
  exact key h

/-- The statement of `delete_vertex_edges_returns` for `delete_vertex`. -/
theorem delete_vertex_returns (b : Base R N) (v : VertexId) (vx : vertex_t R N)
    (h : edge_endpoint_consistency b.graph) (hv : b.graph.vertex_mem v = some vx)
    (hin : vx.incoming_edges.Nodup) (hout : vx.outgoing_edges.Nodup) :
    ∃ b2, Base.delete_vertex b v = Except.ok (b2, 1) := by
  unfold Base.delete_vertex
  simp only [mc_update_delete_vertex]
  exact delete_vertex_edges_returns _ v vx (by exact h) (by exact hv) hin hout

end delete_vertex_lemmas

section delete_edge_claim

variable {R : Type} {N : Nat}

theorem filter_append_self (l : List EdgeId) (e : EdgeId) (h : e ∉ l) :
    (l ++ [e]).filter (fun x => x != e) = l := by
  rw [List.filter_append]
  have h1 : (l.filter fun x => x != e) = l := by
    rw [List.filter_eq_self]
    intro x hx
    have : x ≠ e := fun hxe => h (hxe ▸ hx)
    simpa using this
  rw [h1]
  simp

theorem ite_filter_append (p : Prop) [Decidable p] (l : List EdgeId) (e : EdgeId)
    (h : p → e ∉ l) :
    (if p then (if p then l ++ [e] else l).filter (fun x => x != e)
      else (if p then l ++ [e] else l)) = l := by
  by_cases hp : p
  · simp only [hp, if_true]
    exact filter_append_self l e (h hp)
  · simp only [hp, if_false]

/-- Claim C11 (amended): on a live edge `e` with live end points `src` and
`dst`, `delete_edge(e)` returns 1, frees `e`, erases it from the outgoing list
of `src` and from the incoming list of `dst`, and changes no other list, no
other edge, and neither the vertex list nor the count; every other edge keeps
its membership and relative order in every list.  If `e` was listed only in
these two lists, it occurs in no adjacency list afterwards.  And if `e` is in
neither the outgoing list of `src` nor the incoming list of `dst`, then
`insert_edge(src, e, dst)` followed by `delete_edge(e)` restores every vertex,
hence every adjacency list, to its state before the insertion. -/
theorem delete_edge_spec :
    (∀ (b : Base R N) (e : EdgeId) (src dst : VertexId) (sx dx : vertex_t R N)
        (ed : edge_t R N),
      b.graph.edge_mem e = some ed → ed.vertex_src = some src → ed.vertex_dst = some dst →
      b.graph.vertex_mem src = some sx → b.graph.vertex_mem dst = some dx →
      ∃ b2, Base.delete_edge b e = Except.ok (b2, 1) ∧
        (∀ u ux, b.graph.vertex_mem u = some ux →
          b2.graph.vertex_mem u =
            some { ux with
              outgoing_edges :=
                if u = src then ux.outgoing_edges.filter fun x => x != e
                else ux.outgoing_edges
              incoming_edges :=
                if u = dst then ux.incoming_edges.filter fun x => x != e
                else ux.incoming_edges }) ∧
        (∀ u, b.graph.vertex_mem u = none → b2.graph.vertex_mem u = none) ∧
        (∀ u ux uy, b.graph.vertex_mem u = some ux → b2.graph.vertex_mem u = some uy →
          (uy.outgoing_edges.filter fun x => x != e) =
              (ux.outgoing_edges.filter fun x => x != e) ∧
            (uy.incoming_edges.filter fun x => x != e) =
              (ux.incoming_edges.filter fun x => x != e)) ∧
        b2.graph.edge_mem e = none ∧
        (∀ x, x ≠ e → b2.graph.edge_mem x = b.graph.edge_mem x) ∧
        b2.list_vertices = b.list_vertices ∧ b2.num_vertices = b.num_vertices ∧
        ((∀ u ux, b.graph.vertex_mem u = some ux →
            (e ∈ ux.outgoing_edges → u = src) ∧ (e ∈ ux.incoming_edges → u = dst)) →
          ∀ u uy, b2.graph.vertex_mem u = some uy →
            e ∉ uy.outgoing_edges ∧ e ∉ uy.incoming_edges)) ∧
    (∀ (b : Base R N) (e : EdgeId) (src dst : VertexId) (sx dx : vertex_t R N)
        (ed : edge_t R N),
      b.graph.vertex_mem src = some sx → b.graph.edge_mem e = some ed →
      b.graph.vertex_mem dst = some dx →
      e ∉ sx.outgoing_edges → e ∉ dx.incoming_edges →
      ∃ b1 b2, Base.insert_edge b src e dst = Except.ok (b1, 1) ∧
        Base.delete_edge b1 e = Except.ok (b2, 1) ∧
        b2.graph.vertex_mem = b.graph.vertex_mem ∧
        b2.list_vertices = b.list_vertices ∧ b2.num_vertices = b.num_vertices) := by
  constructor
  · intro b e src dst sx dx ed he hsrc hdst hs hd
    have hvm : ∀ u ux, b.graph.vertex_mem u = some ux →
        (b.graph.unlink src e dst).vertex_mem u =
          some { ux with
            outgoing_edges :=
              if u = src then ux.outgoing_edges.filter fun x => x != e
              else ux.outgoing_edges
            incoming_edges :=
              if u = dst then ux.incoming_edges.filter fun x => x != e
              else ux.incoming_edges } := by
      intro u ux hu
      simp [Graph.unlink, hu]
    refine ⟨_, delete_edge_unlink b e src dst sx dx ed he hsrc hdst hs hd, hvm, ?_, ?_, ?_, ?_,
      rfl, rfl, ?_⟩
    · intro u hu
      simp [Graph.unlink, hu]
    · intro u ux uy hu huy
      have huy2 := hvm u ux hu
      simp only at huy
      rw [huy2] at huy
      have hxx := Option.some.inj huy
      subst hxx
      constructor
      · by_cases hus : u = src
        · simp [hus, List.filter_filter]
        · simp [hus]
      · by_cases hud : u = dst
        · simp [hud, List.filter_filter]
        · simp [hud]
    · simp [Graph.unlink]
    · intro x hx
      simp [Graph.unlink, Function.update, hx]
    · intro honly u uy huy
      simp only [Graph.unlink, Option.map_eq_some'] at huy
      obtain ⟨ux, hux, rfl⟩ := huy
      obtain ⟨ho, hi⟩ := honly u ux hux
      constructor
      · by_cases hus : u = src
        · simp [hus, List.mem_filter]
        · simp only [hus, if_false]
          exact fun hmem => hus (ho hmem)
      · by_cases hud : u = dst
        · simp [hud, List.mem_filter]
        · simp only [hud, if_false]
          exact fun hmem => hud (hi hmem)
  · intro b e src dst sx dx ed hs he hd hnout hnin
    have hins := insert_edge_link b src dst e sx dx ed hs he hd
    have hdel := delete_edge_unlink
      ({ b with
          graph := b.graph.link src e dst ed
          trace := b.trace ++ insert_edge_events b e } : Base R N)
      e src dst
      { sx with
        outgoing_edges := if src = src then sx.outgoing_edges ++ [e] else sx.outgoing_edges
        incoming_edges := if src = dst then sx.incoming_edges ++ [e] else sx.incoming_edges }
      { dx with
        outgoing_edges := if dst = src then dx.outgoing_edges ++ [e] else dx.outgoing_edges
        incoming_edges := if dst = dst then dx.incoming_edges ++ [e] else dx.incoming_edges }
      { ed with vertex_src := some src, vertex_dst := some dst }
      (by simp [Graph.link]) rfl rfl (by simp [Graph.link, hs]) (by simp [Graph.link, hd])
    refine ⟨_, _, hins, hdel, ?_, rfl, rfl⟩
    funext u
    simp only [Graph.unlink, Graph.link]
    cases hu : b.graph.vertex_mem u with
    | none => rfl
    | some ux =>
      simp only [Option.map_some']
      have hout : u = src → e ∉ ux.outgoing_edges := by
        intro hus
        subst hus
        rw [hs] at hu
        have hxx : sx = ux := Option.some.inj hu
        subst hxx
        exact hnout
      have hin : u = dst → e ∉ ux.incoming_edges := by
        intro hud
        subst hud
        rw [hd] at hu
        have hxx : dx = ux := Option.some.inj hu
        subst hxx
        exact hnin
      rw [ite_filter_append _ _ _ hout, ite_filter_append _ _ _ hin]

end delete_edge_claim

section delete_edge_examples

/-- Witness for C11 (amended): on the example planner the allocated edge `3`,
in no list, is inserted from vertex `1` to vertex `2` and deleted again; every
vertex is as before. -/
theorem delete_edge_spec_witness :
    ∃ b1 b2, Base.insert_edge exB 1 3 2 = Except.ok (b1, 1) ∧
      Base.delete_edge b1 3 = Except.ok (b2, 1) ∧
      b2.graph.vertex_mem = exB.graph.vertex_mem ∧
      b2.list_vertices = exB.list_vertices ∧ b2.num_vertices = exB.num_vertices :=
  delete_edge_spec.2 exB 3 1 2 exV1 exV2 ⟨none, none, ⟨[], [⟨1, []⟩]⟩⟩ rfl rfl rfl
    (by decide) (by decide)

/-- Counterexample for C11 as stated, on the example planner, whose edge `0`
runs from vertex `0` to vertex `1`.  Inserting edge `0` once more from `0` to
`1` and deleting it leaves the outgoing list of vertex `0` as `[1, 2]`, not as
`[0, 1, 2]` before the insertion.  Inserting it from `2` to `3` instead and
deleting it frees the edge but leaves it in the outgoing list of vertex
`0`. -/
theorem delete_edge_roundtrip_counterexample :
    (∃ b1 b2, Base.insert_edge exB 0 0 1 = Except.ok (b1, 1) ∧
      Base.delete_edge b1 0 = Except.ok (b2, 1) ∧
      (exB.graph.vertex_mem 0).map (fun ux => ux.outgoing_edges) = some [0, 1, 2] ∧
      (b2.graph.vertex_mem 0).map (fun ux => ux.outgoing_edges) = some [1, 2]) ∧
    (∃ b1 b2, Base.insert_edge exB 2 0 3 = Except.ok (b1, 1) ∧
      Base.delete_edge b1 0 = Except.ok (b2, 1) ∧
      b2.graph.edge_mem 0 = none ∧
      (b2.graph.vertex_mem 0).map (fun ux => ux.outgoing_edges) = some [0, 1, 2]) :=
  ⟨⟨_, _, rfl, rfl, rfl, rfl⟩, ⟨_, _, rfl, rfl, rfl, rfl⟩⟩

end delete_edge_examples

section delete_vertex_claims

variable {R : Type} {N : Nat}

/-- The two-vertex example heap is consistent. -/
theorem exGsmall_consistent : edge_endpoint_consistency exGsmall := by
  refine ⟨?_, ?_, ?_⟩
  · intro u ux hu e he
    match u, hu with
    | 0, hu =>
      have hxx := Option.some.inj hu
      subst hxx
      simp only [List.mem_singleton] at he
      subst he
      exact ⟨_, 1, _, rfl, rfl, rfl, rfl, by decide⟩
    | 1, hu =>
      have hxx := Option.some.inj hu
      subst hxx
      exact absurd he (List.not_mem_nil _)
    | n + 2, hu => exact Option.noConfusion hu
  · intro u ux hu e he
    match u, hu with
    | 0, hu =>
      have hxx := Option.some.inj hu
      subst hxx
      exact absurd he (List.not_mem_nil _)
    | 1, hu =>
      have hxx := Option.some.inj hu
      subst hxx
      simp only [List.mem_singleton] at he
      subst he
      exact ⟨_, 0, _, rfl, rfl, rfl, rfl, by decide⟩
    | n + 2, hu => exact Option.noConfusion hu
  · intro e ed he
    match e, he with
    | 0, he =>
      have hxx := Option.some.inj he
      subst hxx
      constructor
      · intro s hs
        have hss := Option.some.inj hs
        subst hss
        exact ⟨_, rfl, by decide⟩
      · intro d hd
        have hdd := Option.some.inj hd
        subst hdd
        exact ⟨_, rfl, by decide⟩
    | n + 1, he => exact Option.noConfusion he

/-- The heap with the doubly listed edge is consistent. -/
theorem exGdup_consistent : edge_endpoint_consistency exGdup := by
  refine ⟨?_, ?_, ?_⟩
  · intro u ux hu e he
    match u, hu with
    | 0, hu =>
      have hxx := Option.some.inj hu
      subst hxx
      have he0 : e = 0 := by simpa using he
      subst he0
      exact ⟨_, 1, _, rfl, rfl, rfl, rfl, by decide⟩
    | 1, hu =>
      have hxx := Option.some.inj hu
      subst hxx
      exact absurd he (List.not_mem_nil _)
    | n + 2, hu => exact Option.noConfusion hu
  · intro u ux hu e he
    match u, hu with
    | 0, hu =>
      have hxx := Option.some.inj hu
      subst hxx
      exact absurd he (List.not_mem_nil _)
    | 1, hu =>
      have hxx := Option.some.inj hu
      subst hxx
      have he0 : e = 0 := by simpa using he
      subst he0
      exact ⟨_, 0, _, rfl, rfl, rfl, rfl, by decide⟩
    | n + 2, hu => exact Option.noConfusion hu
  · intro e ed he
    match e, he with
    | 0, he =>
      have hxx := Option.some.inj he
      subst hxx
      constructor
      · intro s hs
        have hss := Option.some.inj hs
        subst hss
        exact ⟨_, rfl, by decide⟩
      · intro d hd
        have hdd := Option.some.inj hd
        subst hdd
        exact ⟨_, rfl, by decide⟩
    | n + 1, he => exact Option.noConfusion he

end delete_vertex_claims

section delete_vertex_claims2

variable {R : Type} {N : Nat}

/-- Claim C12 (amended): on a heap satisfying edge endpoint consistency, for a
listed live vertex `v` neither of whose edge lists holds an edge twice,
`delete_vertex(v)` returns 1; afterwards `v` is not in the vertex list (the
other entries stay), the count has decreased by exactly one, `v` is freed,
every edge with source or destination `v` is freed, no remaining vertex lists
an edge whose source or destination is `v`, every edge not incident to `v`
is untouched and stays listed where it was, the lists of the other vertices
only lose the edges incident to `v`, and the heap is still consistent. -/
theorem delete_vertex_spec (b : Base R N) (v : VertexId) (vx : vertex_t R N)
    (h : edge_endpoint_consistency b.graph) (hv : b.graph.vertex_mem v = some vx)
    (_hlist : v ∈ b.list_vertices)
    (hin : vx.incoming_edges.Nodup) (hout : vx.outgoing_edges.Nodup) :
    ∃ b2, Base.delete_vertex b v = Except.ok (b2, 1) ∧
      v ∉ b2.list_vertices ∧
      (∀ x ∈ b.list_vertices, x ≠ v → x ∈ b2.list_vertices) ∧
      b2.num_vertices = b.num_vertices - 1 ∧
      b2.graph.vertex_mem v = none ∧
      (∀ u uy, b2.graph.vertex_mem u = some uy →
        ∀ e, (e ∈ uy.outgoing_edges ∨ e ∈ uy.incoming_edges) →
          ∃ ed, b2.graph.edge_mem e = some ed ∧
            ed.vertex_src ≠ some v ∧ ed.vertex_dst ≠ some v) ∧
      (∀ e ed, b.graph.edge_mem e = some ed →
        (ed.vertex_src = some v ∨ ed.vertex_dst = some v) → b2.graph.edge_mem e = none) ∧
      (∀ e ed, b.graph.edge_mem e = some ed →
        ed.vertex_src ≠ some v → ed.vertex_dst ≠ some v →
        b2.graph.edge_mem e = some ed ∧
          ∀ u ux, u ≠ v → b.graph.vertex_mem u = some ux →
            ∃ uy, b2.graph.vertex_mem u = some uy ∧
              (e ∈ ux.outgoing_edges → e ∈ uy.outgoing_edges) ∧
              (e ∈ ux.incoming_edges → e ∈ uy.incoming_edges)) ∧
      (∀ u ux, u ≠ v → b.graph.vertex_mem u = some ux →
        ∃ uy, b2.graph.vertex_mem u = some uy ∧ uy.state = ux.state ∧ uy.data = ux.data ∧
          uy.outgoing_edges =
            ux.outgoing_edges.filter
              (fun x => decide (x ∉ vx.incoming_edges ++ vx.outgoing_edges)) ∧
          uy.incoming_edges =
            ux.incoming_edges.filter
              (fun x => decide (x ∉ vx.incoming_edges ++ vx.outgoing_edges))) ∧
      edge_endpoint_consistency b2.graph := by
  obtain ⟨b2, hdel⟩ := delete_vertex_returns b v vx h hv hin hout
  obtain ⟨vy, hvy, -, hl, hn, hg, hc2⟩ := delete_vertex_consistent b b2 v 1 h hdel
  rw [hv] at hvy
  have hxx : vx = vy := Option.some.inj hvy
  subst hxx
  have hvm : ∀ u, b2.graph.vertex_mem u =
      if u = v then none
      else (b.graph.vertex_mem u).map
        (vertex_t.remove_edges (vx.incoming_edges ++ vx.outgoing_edges)) := by
    intro u
    rw [hg]
    by_cases huv : u = v
    · subst huv
      simp
    · simp [Function.update, huv, Graph.remove_edges]
  have hem : ∀ e, b2.graph.edge_mem e =
      if e ∈ vx.incoming_edges ++ vx.outgoing_edges then none else b.graph.edge_mem e := by
    intro e
    rw [hg]
    rfl
  have hdead : b2.graph.vertex_mem v = none := by
    rw [hvm]
    simp
  have hne : ∀ u uy, b2.graph.vertex_mem u = some uy → u ≠ v := by
    intro u uy hu huv
    rw [huv, hdead] at hu
    exact Option.noConfusion hu
  have hnot : ∀ e ed, b.graph.edge_mem e = some ed →
      ed.vertex_src ≠ some v → ed.vertex_dst ≠ some v →
      e ∉ vx.incoming_edges ++ vx.outgoing_edges := by
    intro e ed he hs hd hmem
    rcases List.mem_append.mp hmem with hmem | hmem
    · obtain ⟨ed0, -, -, hed0, hdst0, -⟩ := h.2.1 v vx hv e hmem
      rw [he] at hed0
      have hyy : ed = ed0 := Option.some.inj hed0
      subst hyy
      exact hd hdst0
    · obtain ⟨ed0, -, -, hed0, hsrc0, -⟩ := h.1 v vx hv e hmem
      rw [he] at hed0
      have hyy : ed = ed0 := Option.some.inj hed0
      subst hyy
      exact hs hsrc0
  refine ⟨b2, hdel, ?_, ?_, hn, hdead, ?_, ?_, ?_, ?_, hc2⟩
  · rw [hl]
    simp [List.mem_filter]
  · intro x hx hxv
    rw [hl]
    simp [List.mem_filter, hx, hxv]
  · intro u uy hu e he
    rcases he with he | he
    · obtain ⟨ed, d, dx, hed, hsrc, hdst, hd, -⟩ := hc2.1 u uy hu e he
      refine ⟨ed, hed, ?_, ?_⟩
      · rw [hsrc]
        exact fun hc => hne u uy hu (Option.some.inj hc)
      · rw [hdst]
        exact fun hc => hne d dx hd (Option.some.inj hc)
    · obtain ⟨ed, s, sx, hed, hdst, hsrc, hs, -⟩ := hc2.2.1 u uy hu e he
      refine ⟨ed, hed, ?_, ?_⟩
      · rw [hsrc]
        exact fun hc => hne s sx hs (Option.some.inj hc)
      · rw [hdst]
        exact fun hc => hne u uy hu (Option.some.inj hc)
  · intro e ed he hinc
    have hmem : e ∈ vx.incoming_edges ++ vx.outgoing_edges := by
      rcases hinc with hs | hd
      · obtain ⟨sx, hsx, hm⟩ := (h.2.2 e ed he).1 v hs
        rw [hv] at hsx
        have hyy : vx = sx := Option.some.inj hsx
        subst hyy
        exact List.mem_append.mpr (Or.inr hm)
      · obtain ⟨dx, hdx, hm⟩ := (h.2.2 e ed he).2 v hd
        rw [hv] at hdx
        have hyy : vx = dx := Option.some.inj hdx
        subst hyy
        exact List.mem_append.mpr (Or.inl hm)
    rw [hem]
    simp only [hmem, if_true]
  · intro e ed he hs hd
    have hmem := hnot e ed he hs hd
    refine ⟨by rw [hem]; simp only [hmem, if_false]; exact he, ?_⟩
    intro u ux huv hu
    refine ⟨ux.remove_edges (vx.incoming_edges ++ vx.outgoing_edges),
      by rw [hvm]; simp [huv, hu], ?_, ?_⟩
    · intro hm
      simp only [vertex_t.remove_edges, List.mem_filter, decide_eq_true_eq]
      exact ⟨hm, hmem⟩
    · intro hm
      simp only [vertex_t.remove_edges, List.mem_filter, decide_eq_true_eq]
      exact ⟨hm, hmem⟩
  · intro u ux huv hu
    exact ⟨ux.remove_edges (vx.incoming_edges ++ vx.outgoing_edges),
      by rw [hvm]; simp [huv, hu], rfl, rfl, rfl, rfl⟩

/-- Witness for C12 (amended): deleting vertex `1` of the two-vertex example
planner. -/
theorem delete_vertex_spec_witness :
    ∃ b2, Base.delete_vertex exBsmall 1 = Except.ok (b2, 1) ∧
      1 ∉ b2.list_vertices ∧ b2.num_vertices = exBsmall.num_vertices - 1 ∧
      b2.graph.vertex_mem 1 = none := by
  obtain ⟨b2, h1, h2, -, h3, h4, -⟩ :=
    delete_vertex_spec exBsmall 1 ⟨fun _ => 5, ⟨3, true⟩, [0], []⟩ exGsmall_consistent rfl
      (by decide) (by decide) (by decide)
  exact ⟨b2, h1, h2, h3, h4⟩

/-- Counterexample for C12 as stated: the heap in which the edge `0` from `0`
to `1` is listed twice at both ends (as after two `insert_edge(0, 0, 1)`
calls) satisfies edge endpoint consistency and vertex `1` is listed and live,
but `delete_vertex(1)` calls `delete_edge` on the edge a second time after it
was freed. -/
theorem delete_vertex_duplicate_counterexample :
    edge_endpoint_consistency exBdup.graph ∧ 1 ∈ exBdup.list_vertices ∧
      (exBdup.graph.vertex_mem 1).isSome = true ∧
      Base.delete_vertex exBdup 1 = Except.error Fault.dangling :=
  ⟨exGdup_consistent, by decide, rfl, rfl⟩

/-- Claim C13 (amended): `delete_vertex` does not refuse the root.  On a
consistent heap, for a live vertex without incoming edge (as the root) whose
outgoing list holds no edge twice, it returns the positive value 1, erases
the vertex from the vertex list, decrements the count, and frees the vertex
and its outgoing edges. -/
theorem delete_vertex_root (b : Base R N) (root : VertexId) (rx : vertex_t R N)
    (h : edge_endpoint_consistency b.graph) (hroot : b.graph.vertex_mem root = some rx)
    (hin : rx.incoming_edges = []) (hout : rx.outgoing_edges.Nodup) :
    ∃ b2, Base.delete_vertex b root = Except.ok (b2, 1) ∧ (0 : Int) < 1 ∧
      b2.list_vertices = b.list_vertices.filter (fun x => x != root) ∧
      root ∉ b2.list_vertices ∧
      b2.num_vertices = b.num_vertices - 1 ∧
      b2.graph.vertex_mem root = none ∧
      (∀ e ∈ rx.outgoing_edges, b2.graph.edge_mem e = none) := by
  obtain ⟨b2, hdel⟩ := delete_vertex_returns b root rx h hroot (by rw [hin]; exact List.nodup_nil)
    hout
  obtain ⟨ry, hry, -, hl, hn, hg, -⟩ := delete_vertex_consistent b b2 root 1 h hdel
  rw [hroot] at hry
  have hxx : rx = ry := Option.some.inj hry
  subst hxx
  refine ⟨b2, hdel, by decide, hl, ?_, hn, ?_, ?_⟩
  · rw [hl]
    simp [List.mem_filter]
  · rw [hg]
    simp
  · intro e he
    rw [hg]
    simp [Graph.remove_edges, he]

/-- Witness for C13 (amended): deleting the root `0` of the two-vertex example
planner. -/
theorem delete_vertex_root_witness :
    ∃ b2, Base.delete_vertex exBsmall 0 = Except.ok (b2, 1) ∧ (0 : Int) < 1 ∧
      b2.list_vertices = exBsmall.list_vertices.filter (fun x => x != 0) ∧
      0 ∉ b2.list_vertices := by
  obtain ⟨b2, h1, h2, h3, h4, -⟩ :=
    delete_vertex_root exBsmall 0 ⟨fun _ => 0, ⟨0, false⟩, [], [0]⟩ exGsmall_consistent rfl rfl
      (by decide)
  exact ⟨b2, h1, h2, h3, h4⟩

/-- Counterexample for C13 as stated: on the example planner, a tree rooted at
vertex `0`, `delete_vertex(0)` returns 1, the vertex list becomes `[1, 2, 3]`,
the count 3, and the root and its three outgoing edges are freed. -/
theorem delete_vertex_root_counterexample :
    ∃ b2, Base.delete_vertex exB 0 = Except.ok (b2, 1) ∧
      exB.list_vertices = [0, 1, 2, 3] ∧ b2.list_vertices = [1, 2, 3] ∧
      exB.num_vertices = 4 ∧ b2.num_vertices = 3 ∧
      b2.graph.vertex_mem 0 = none ∧
      (b2.graph.vertex_mem 1).map (fun ux => ux.incoming_edges) = some [] :=
  ⟨_, rfl, rfl, rfl, rfl, rfl, rfl, rfl⟩

end delete_vertex_claims2

section reachable_claims

variable {R : Type} {N : Nat}

/-- A returning second half of `insert_trajectory` with a new edge address
keeps the heap consistent. -/
theorem insert_trajectory_edge_consistent (b b2 : Base R N) (ne : EdgeId) (src dst : VertexId)
    (traj : trajectory_t R N) (r : Int)
    (h : edge_endpoint_consistency b.graph) (hne : b.graph.edge_mem ne = none)
    (hins : Base.insert_trajectory_edge b ne src traj dst = Except.ok (b2, r)) :
    edge_endpoint_consistency b2.graph := by
  unfold Base.insert_trajectory_edge at hins
  cases hstates : traj.list_states with
  | nil => simp [hstates] at hins
  | cons a l =>
    simp only [hstates] at hins
    cases hedge : Base.insert_edge
        ({ b with graph := b.graph.new_edge ne { traj with list_states := (a :: l).dropLast } } :
          Base R N) src ne dst with
    | error f => simp [hedge] at hins
    | ok p =>
      obtain ⟨b3, r3⟩ := p
      simp only [hedge, Except.ok.injEq, Prod.mk.injEq] at hins
      obtain ⟨rfl, -⟩ := hins
      obtain ⟨sx, dx, ed, hs, he, hd⟩ := insert_edge_live _ b3 src dst ne r3 hedge
      rw [insert_edge_link _ src dst ne sx dx ed hs he hd] at hedge
      simp only [Except.ok.injEq, Prod.mk.injEq] at hedge
      obtain ⟨rfl, -⟩ := hedge
      have hc1 := new_edge_consistent b.graph ne { traj with list_states := (a :: l).dropLast }
        h hne
      have hfresh : ¬ (b.graph.new_edge ne
          { traj with list_states := (a :: l).dropLast }).lists ne := by
        intro hl
        exact not_lists_of_free b.graph ne h hne hl
      exact link_consistent _ src dst ne sx dx ed hc1 hfresh hs hd

/-- A returning `insert_trajectory` with new vertex and edge addresses keeps
the heap consistent. -/
theorem insert_trajectory_consistent [LinearOrderedRing R] (b b2 : Base R N) (nv : VertexId) (data0 : vertex_data R)
    (ne : EdgeId) (src : VertexId) (traj : trajectory_t R N)
    (iv : Option (List (state_t R N))) (dst : Option VertexId) (r : Int)
    (h : edge_endpoint_consistency b.graph) (hnv : b.graph.vertex_mem nv = none)
    (hne : b.graph.edge_mem ne = none)
    (hins : Base.insert_trajectory b nv data0 ne src traj iv dst = Except.ok (b2, r)) :
    edge_endpoint_consistency b2.graph := by
  unfold Base.insert_trajectory at hins
  cases dst with
  | some d =>
    simp only at hins
    exact insert_trajectory_edge_consistent b b2 ne src d traj r h hne hins
  | none =>
    simp only at hins
    cases hlast : traj.list_states.getLast? with
    | none => simp [hlast] at hins
    | some final_state =>
      simp only [hlast] at hins
      have hc1 := new_vertex_consistent b.graph nv final_state data0 h hnv
      have hlive : (b.graph.new_vertex nv final_state data0).vertex_mem nv =
          some ⟨final_state, data0, [], []⟩ := by
        simp [Graph.new_vertex]
      rw [insert_vertex_eq _ nv ⟨final_state, data0, [], []⟩ hlive] at hins
      simp only at hins
      refine insert_trajectory_edge_consistent _ b2 ne src nv traj r ?_ ?_ hins
      · exact update_vertex_consistent _ nv ⟨final_state, data0, [], []⟩ _ hc1 hlive rfl rfl
      · exact hne

/-- Claim C15 (amended): in every planner state reachable from the empty graph
by allocations and returning calls of `insert_vertex`, `insert_edge`,
`delete_edge`, `delete_vertex` and `insert_trajectory`, where `insert_edge` is
only applied to an edge that no adjacency list holds yet, the heap satisfies
edge endpoint consistency: every listed edge is live, is listed in the
outgoing list of its source and in the incoming list of its destination, and
every edge in the outgoing (incoming) list of `u` has source (destination)
`u`. -/
theorem reachable_consistent [LinearOrderedRing R] (b : Base R N) (hb : reachable b) :
    edge_endpoint_consistency b.graph := by
  induction hb with
  | init m =>
    refine ⟨?_, ?_, ?_⟩
    · intro u ux hu
      exact Option.noConfusion hu
    · intro u ux hu
      exact Option.noConfusion hu
    · intro e ed he
      exact Option.noConfusion he
  | new_vertex b p state data _ hp ih => exact new_vertex_consistent b.graph p state data ih hp
  | new_edge b p trajectory _ hp ih => exact new_edge_consistent b.graph p trajectory ih hp
  | insert_vertex b b2 v r _ h ih =>
    obtain ⟨vx, hv⟩ := insert_vertex_live b b2 v r h
    rw [insert_vertex_eq b v vx hv] at h
    simp only [Except.ok.injEq, Prod.mk.injEq] at h
    obtain ⟨rfl, -⟩ := h
    exact update_vertex_consistent b.graph v vx _ ih hv rfl rfl
  | insert_edge b b2 src dst e r _ hfresh h ih =>
    obtain ⟨sx, dx, ed, hs, he, hd⟩ := insert_edge_live b b2 src dst e r h
    rw [insert_edge_link b src dst e sx dx ed hs he hd] at h
    simp only [Except.ok.injEq, Prod.mk.injEq] at h
    obtain ⟨rfl, -⟩ := h
    exact link_consistent b.graph src dst e sx dx ed ih hfresh hs hd
  | delete_edge b b2 e r _ h ih => exact (delete_edge_consistent b b2 e r ih h).2
  | delete_vertex b b2 v r _ h ih =>
    obtain ⟨vx, -, -, -, -, -, hc⟩ := delete_vertex_consistent b b2 v r ih h
    exact hc
  | insert_trajectory b b2 nv data0 ne src traj iv dst r _ hnv hne h ih =>
    exact insert_trajectory_consistent b b2 nv data0 ne src traj iv dst r ih hnv hne h

/-- Witness for C15 (amended): the run `exRunAll` uses `insert_vertex`,
`insert_edge` (on newly allocated edges), `insert_trajectory`, `delete_edge`
and `delete_vertex`; it ends with the vertices `0`, `1`, `3` and the edge `2`
from vertex `0` to vertex `3`, in a heap with consistent end points. -/
theorem reachable_consistent_witness :
    ∃ b : Base ℤ 1, exRunAll = Except.ok b ∧
      b.list_vertices = [0, 1, 3] ∧
      (b.graph.vertex_mem 0).map (fun ux => ux.outgoing_edges) = some [2] ∧
      (b.graph.vertex_mem 1).map (fun ux => (ux.incoming_edges, ux.outgoing_edges)) =
        some ([], []) ∧
      (b.graph.vertex_mem 3).map (fun ux => ux.incoming_edges) = some [2] ∧
      (b.graph.edge_mem 2).map (fun ed => (ed.vertex_src, ed.vertex_dst)) =
        some (some 0, some 3) ∧
      edge_endpoint_consistency b.graph := by
  have r0 : reachable
      (Base.new minimum_time_reachability.default ⟨fun _ => none, fun _ => none⟩ : Base ℤ 1) :=
    reachable.init _
  have r1 := reachable.new_vertex _ 0 (fun _ => 0) ⟨0, false⟩ r0 rfl
  have r2 := reachable.insert_vertex _ _ 0 1 r1 rfl
  have r3 := reachable.new_vertex _ 1 (fun _ => 1) ⟨0, false⟩ r2 rfl
  have r4 := reachable.insert_vertex _ _ 1 1 r3 rfl
  have r5 := reachable.new_vertex _ 2 (fun _ => 2) ⟨0, false⟩ r4 rfl
  have r6 := reachable.insert_vertex _ _ 2 1 r5 rfl
  have r7 := reachable.new_edge _ 0 ⟨[], []⟩ r6 rfl
  have f6 := not_lists_of_free _ 0 (reachable_consistent _ r6) rfl
  have r8 := reachable.insert_edge _ _ 0 1 0 1 r7 f6 rfl
  have r9 := reachable.new_edge _ 1 ⟨[], []⟩ r8 rfl
  have f8 := not_lists_of_free _ 1 (reachable_consistent _ r8) rfl
  have r10 := reachable.insert_edge _ _ 1 2 1 1 r9 f8 rfl
  have r11 := reachable.insert_trajectory _ _ 3 ⟨0, false⟩ 2 0
    ⟨[fun _ => 9, fun _ => 10], [⟨1, []⟩]⟩ none none 1 r10 rfl rfl rfl
  have r12 := reachable.delete_edge _ _ 0 1 r11 rfl
  have r13 := reachable.delete_vertex _ _ 2 1 r12 rfl
  exact ⟨_, rfl, rfl, rfl, rfl, rfl, rfl, reachable_consistent _ r13⟩

/-- Counterexample for C15 as stated: from the empty planner, after four
vertices were inserted, `insert_edge(0, e, 1)` followed by
`insert_edge(2, e, 3)` on the same edge (every call returning 1) leaves the
edge in the outgoing list of vertex `0` and in the incoming list of vertex
`1` while its source is vertex `2` and its destination vertex `3`. -/
theorem double_insert_edge_counterexample :
    ∃ b, exRunDouble = Except.ok b ∧
      (b.graph.vertex_mem 0).map (fun ux => ux.outgoing_edges) = some [0] ∧
      (b.graph.vertex_mem 1).map (fun ux => ux.incoming_edges) = some [0] ∧
      (b.graph.edge_mem 0).map (fun ed => (ed.vertex_src, ed.vertex_dst)) =
        some (some 2, some 3) ∧
      ¬ edge_endpoint_consistency b.graph := by
  refine ⟨_, rfl, rfl, rfl, rfl, ?_⟩
  intro h
  obtain ⟨ed, d, dx, hed, hsrc, -⟩ :=
    h.1 0 ⟨fun _ => 0, ⟨0, true⟩, [], [0]⟩ rfl 0 (List.mem_singleton.mpr rfl)
  have hxx : (⟨some 2, some 3, ⟨[], []⟩⟩ : edge_t ℤ 1) = ed := Option.some.inj hed
  subst hxx
  exact absurd (Option.some.inj hsrc) (by decide)

end reachable_claims


section collision_claims

variable {R : Type} {N : Nat}

/-- Claim C24: for a collision checker that leaves the trajectory it is handed
as it was, `check_extended_trajectory_for_collision(state, trajectory)`
returns the answer of the checker on the trajectory whose state list is
`state` followed by the original states (the inputs being the original ones),
and the trajectory afterwards is the original one; the helper of the RRT
planner and the helper of the RRG planner are the same function. -/
theorem check_extended_trajectory_for_collision_spec
    (check_collision_trajectory : trajectory_t R N → Int × trajectory_t R N)
    (state : state_t R N) (trajectory : trajectory_t R N)
    (hpure :
      (check_collision_trajectory
        ⟨state :: trajectory.list_states, trajectory.list_inputs⟩).2 =
        ⟨state :: trajectory.list_states, trajectory.list_inputs⟩) :
    rrg.check_extended_trajectory_for_collision check_collision_trajectory state trajectory =
      Except.ok
        ((check_collision_trajectory
            ⟨state :: trajectory.list_states, trajectory.list_inputs⟩).1,
          trajectory) ∧
    rrt.check_extended_trajectory_for_collision check_collision_trajectory state trajectory =
      Except.ok
        ((check_collision_trajectory
            ⟨state :: trajectory.list_states, trajectory.list_inputs⟩).1,
          trajectory) ∧
    @rrt.check_extended_trajectory_for_collision R N =
      @rrg.check_extended_trajectory_for_collision R N := by
  refine ⟨?_, ?_, rfl⟩
  · unfold rrg.check_extended_trajectory_for_collision
    simp only [hpure]
  · unfold rrt.check_extended_trajectory_for_collision
    simp only [hpure]

/-- Witness for C24: a checker that answers 1 when it is handed more than two
states, on a trajectory of two states. -/
theorem check_extended_trajectory_for_collision_spec_witness :
    rrg.check_extended_trajectory_for_collision
        (fun t : trajectory_t ℤ 1 => (if 2 < t.list_states.length then 1 else 0, t))
        (fun _ => 0) ⟨[fun _ => 1, fun _ => 2], [⟨1, []⟩]⟩ =
      Except.ok (1, ⟨[fun _ => 1, fun _ => 2], [⟨1, []⟩]⟩) :=
  (check_extended_trajectory_for_collision_spec
    (fun t : trajectory_t ℤ 1 => (if 2 < t.list_states.length then 1 else 0, t))
    (fun _ => 0) ⟨[fun _ => 1, fun _ => 2], [⟨1, []⟩]⟩ rfl).1

end collision_claims

section constructor_claims

/-- Claim C29, evaluated: the default constructor yields a null
`min_cost_vertex`, a zero goal region and the best cost -1, and the first
goal-reaching vertex is recorded; the constructor taking a goal region stores
the region but leaves `min_cost_vertex` at the value its storage held.  When
that value is the address of vertex `1` of the example heap, `get_best_cost`
returns the cost 3 of that vertex and `ce_update_vertex_cost` on the
goal-reaching vertex `3` of cost 4 records nothing; when it is the address `9`
of no live vertex, both calls read outside the heap. -/
theorem of_region_leaves_min_cost_vertex :
    (minimum_time_reachability.default : minimum_time_reachability ℤ 1).min_cost_vertex = none ∧
    (minimum_time_reachability.default : minimum_time_reachability ℤ 1).region_goal.center 0 = 0 ∧
    (minimum_time_reachability.default : minimum_time_reachability ℤ 1).region_goal.size 0 = 0 ∧
    get_best_cost exG minimum_time_reachability.default = Except.ok (-1) ∧
    (ce_update_vertex_cost 5 exG minimum_time_reachability.default 3).map
      (fun r => r.mtr.min_cost_vertex) = Except.ok (some 3) ∧
    (∀ (p : Option VertexId) (region_in : region ℤ 1),
      (minimum_time_reachability.of_region p region_in).min_cost_vertex = p ∧
      (minimum_time_reachability.of_region p region_in).region_goal = region_in) ∧
    get_best_cost exG (minimum_time_reachability.of_region (some 1) ⟨fun _ => 6, fun _ => 2⟩) =
      Except.ok 3 ∧
    (ce_update_vertex_cost 5 exG
        (minimum_time_reachability.of_region (some 1) ⟨fun _ => 6, fun _ => 2⟩) 3).map
      (fun r => r.mtr.min_cost_vertex) = Except.ok (some 1) ∧
    get_best_cost exG (minimum_time_reachability.of_region (some 9) ⟨fun _ => 6, fun _ => 2⟩) =
      Except.error Fault.dangling ∧
    (ce_update_vertex_cost 5 exG
        (minimum_time_reachability.of_region (some 9) ⟨fun _ => 6, fun _ => 2⟩) 3).map
      (fun r => r.mtr.min_cost_vertex) = Except.error Fault.dangling :=
  ⟨rfl, rfl, rfl, rfl, rfl, fun _ _ => ⟨rfl, rfl⟩, rfl, rfl, rfl, rfl⟩

end constructor_claims


section delete_vertex_shape_lemmas

variable {R : Type} {N : Nat}

/-- A returning second half of `delete_vertex`, step by step: the vertex is
live, the run over its incoming edges returns, the vertex is still live, the
run over the outgoing edges it then lists returns, and the result is the state
reached with the vertex erased from the list, the count decreased and the
vertex freed. -/
theorem delete_vertex_edges_shape (b1 b2 : Base R N) (v : VertexId) (r : Int)
    (h : Base.delete_vertex_edges b1 v = Except.ok (b2, r)) :
    ∃ vx b3 vx2 b4, b1.graph.vertex_mem v = some vx ∧
      Base.delete_edge_list b1 vx.incoming_edges = Except.ok b3 ∧
      b3.graph.vertex_mem v = some vx2 ∧
      Base.delete_edge_list b3 vx2.outgoing_edges = Except.ok b4 ∧
      b2 = { b4 with
              list_vertices := b4.list_vertices.filter fun x => x != v
              num_vertices := b4.num_vertices - 1
              graph := { b4.graph with
                vertex_mem := Function.update b4.graph.vertex_mem v none } } ∧
      r = 1 := by
  unfold Base.delete_vertex_edges at h
  cases hvx : b1.graph.vertex_mem v with
  | none => simp [hvx] at h
  | some vx =>
    simp only [hvx] at h
    cases hb3 : Base.delete_edge_list b1 vx.incoming_edges with
    | error f => simp [hb3] at h
    | ok b3 =>
      simp only [hb3] at h
      cases hvx2 : b3.graph.vertex_mem v with
      | none => simp [hvx2] at h
      | some vx2 =>
        simp only [hvx2] at h
        cases hb4 : Base.delete_edge_list b3 vx2.outgoing_edges with
        | error f => simp [hb4] at h
        | ok b4 =>
          simp only [hb4, Except.ok.injEq, Prod.mk.injEq] at h
          obtain ⟨h1, h2⟩ := h
          exact ⟨vx, b3, vx2, b4, rfl, hb3, hvx2, hb4, h1.symm, h2.symm⟩

/-- A returning `delete_vertex`, step by step, from the state in which its own
notifications have been logged. -/
theorem delete_vertex_shape (b b2 : Base R N) (v : VertexId) (r : Int)
    (h : Base.delete_vertex b v = Except.ok (b2, r)) :
    ∃ vx b3 vx2 b4, b.graph.vertex_mem v = some vx ∧
      Base.delete_edge_list { b with trace := b.trace ++ delete_vertex_events b v }
        vx.incoming_edges = Except.ok b3 ∧
      b3.graph.vertex_mem v = some vx2 ∧
      Base.delete_edge_list b3 vx2.outgoing_edges = Except.ok b4 ∧
      b2 = { b4 with
              list_vertices := b4.list_vertices.filter fun x => x != v
              num_vertices := b4.num_vertices - 1
              graph := { b4.graph with
                vertex_mem := Function.update b4.graph.vertex_mem v none } } ∧
      r = 1 := by
  unfold Base.delete_vertex at h
  simp only [mc_update_delete_vertex] at h
  have hb1 : ({ b with
      graph := b.graph
      model_checker := b.model_checker
      trace := b.trace ++ [Event.de_update_delete_vertex v] ++
        [Event.mc_update_delete_vertex v] ++
        b.list_update_delete_vertex_functions.map fun f =>
          Event.update_delete_vertex_function f v } : Base R N) =
      { b with trace := b.trace ++ delete_vertex_events b v } := by
    simp [delete_vertex_events]
  rw [hb1] at h
  exact delete_vertex_edges_shape _ _ _ _ h

/-- A returning `delete_vertex` leaves the model checker as it was, erases the
vertex from the list, decreases the count by one and frees the vertex. -/
theorem delete_vertex_component (b b2 : Base R N) (v : VertexId) (r : Int)
    (h : Base.delete_vertex b v = Except.ok (b2, r)) :
    b2.model_checker = b.model_checker ∧ b2.graph.vertex_mem v = none ∧
      b2.list_vertices = b.list_vertices.filter (fun x => x != v) ∧
      b2.num_vertices = b.num_vertices - 1 := by
  obtain ⟨vx, b3, vx2, b4, -, h3, -, h4, rfl, -⟩ := delete_vertex_shape b b2 v r h
  obtain ⟨-, hl3, hn3, hm3, -⟩ := delete_edge_list_frame _ _ _ h3
  obtain ⟨-, hl4, hn4, hm4, -⟩ := delete_edge_list_frame _ _ _ h4
  refine ⟨hm4.trans hm3, by simp, ?_, ?_⟩
  · show b4.list_vertices.filter (fun x => x != v) = _
    rw [hl4, hl3]
  · show b4.num_vertices - 1 = _
    rw [hn4, hn3]

end delete_vertex_shape_lemmas

section delete_reference_claims

variable {R : Type} [LinearOrderedRing R] {N : Nat}

/-- The delete notification of the component does nothing, and a returning
`Base::delete_vertex(v)` frees `v` while the component is unchanged: when
`min_cost_vertex` was `v`, it is a dangling pointer afterwards, which
`get_best_cost` and `ce_update_vertex_cost` on any goal-reaching vertex
dereference. -/
theorem delete_vertex_keeps_best_vertex (g : Graph R N) (m : minimum_time_reachability R N)
    (v : VertexId) :
    mc_update_delete_vertex g m v = (g, m, 1) ∧
    ∀ (b b2 : Base R N) (r : Int), b.model_checker = m →
      Base.delete_vertex b v = Except.ok (b2, r) →
      b2.model_checker = m ∧ b2.graph.vertex_mem v = none ∧
        (m.min_cost_vertex = some v →
          get_best_cost b2.graph b2.model_checker = Except.error Fault.dangling ∧
          ∀ fuel u ux, b2.graph.vertex_mem u = some ux → ux.data.reaches_goal = true →
            ce_update_vertex_cost fuel b2.graph b2.model_checker u =
              Except.error Fault.dangling) := by
  refine ⟨rfl, ?_⟩
  intro b b2 r hm h
  obtain ⟨h1, h2, -, -⟩ := delete_vertex_component b b2 v r h
  rw [hm] at h1
  refine ⟨h1, h2, ?_⟩
  intro hbest
  constructor
  · simp [get_best_cost, h1, hbest, h2]
  · intro fuel u ux hu hgoal
    simp [ce_update_vertex_cost, hu, hgoal, h1, hbest, h2]

/-- Claim C21, evaluated at the failing input: on the example heap the
component records vertex `1`.  `mc_update_delete_vertex(1)` leaves
`min_cost_vertex` at vertex `1`, and `delete_vertex(1)` on the example planner
returns 1 with vertex `1` freed and `min_cost_vertex` still vertex `1`; the
following `get_best_cost` and `ce_update_vertex_cost` on the goal-reaching
vertex `3` read the deleted vertex. -/
theorem delete_vertex_leaves_dangling_best_vertex :
    exM1.min_cost_vertex = some 1 ∧
    (mc_update_delete_vertex exGB exM1 1).2.1.min_cost_vertex = some 1 ∧
    ∃ b2, Base.delete_vertex exB 1 = Except.ok (b2, 1) ∧
      b2.model_checker.min_cost_vertex = some 1 ∧ b2.graph.vertex_mem 1 = none ∧
      get_best_cost b2.graph b2.model_checker = Except.error Fault.dangling ∧
      (ce_update_vertex_cost 5 b2.graph b2.model_checker 3).map (fun r => r.ret) =
        Except.error Fault.dangling :=
  ⟨rfl, rfl, _, rfl, rfl, rfl, rfl, rfl⟩

end delete_reference_claims


section shape_lemmas

variable {R : Type} {N : Nat}

/-- The states along a chain, edge by edge: the states of the edge, then the
state of the vertex it enters. -/
theorem chain_states_flatMap (path : List (edge_t R N × vertex_t R N)) :
    chain_states path =
      path.flatMap fun p => p.1.trajectory_edge.list_states ++ [p.2.state] := by
  induction path with
  | nil => rfl
  | cons p rest ih => simp [chain_states, ih]

/-- The inputs along a chain, edge by edge. -/
theorem chain_inputs_flatMap (path : List (edge_t R N × vertex_t R N)) :
    chain_inputs path = path.flatMap fun p => p.1.trajectory_edge.list_inputs := by
  induction path with
  | nil => rfl
  | cons p rest ih => simp [chain_inputs, ih]

/-- With no more iterations than the chain has edges, the rebuild loop does
not finish. -/
theorem rebuild_loop_out_of_fuel (g : Graph R N) (root v : VertexId)
    (path : List (edge_t R N × vertex_t R N)) (h : parent_chain g root path v) :
    ∀ (fuel : Nat) (acc : trajectory_t R N), fuel ≤ path.length →
      rebuild_loop g fuel v acc = Except.error Fault.out_of_fuel := by
  induction h with
  | nil rx hroot hin =>
    intro fuel acc hf
    obtain rfl : fuel = 0 := by simpa using hf
    rfl
  | snoc path u v e vx ed hchain hv hlast he hsrc ih =>
    intro fuel acc hf
    cases fuel with
    | zero => rfl
    | succ k =>
      have hk : k ≤ path.length := by
        simp at hf
        omega
      simp [rebuild_loop, hv, hlast, he, hsrc, ih k _ hk]

end shape_lemmas

section shape_claims

variable {R : Type} [LinearOrderedRing R] {N : Nat}

/-- Claim C22: let `path` be the parent chain of `v` from the root, each edge
being the last element of the incoming list of the vertex it enters.  When
`ce_update_vertex_cost` selects `v`, it returns, and `get_solution` then
returns 1 with the states `S1 ++ [v1.state] ++ ... ++ Sk ++ [vk.state]` and the
inputs `U1 ++ ... ++ Uk`, each edge's lists in their stored forward order; the
output lists are the reversals of the lists stored in the component, and
`get_solution` leaves the component as it was. -/
theorem get_solution_exact_shape (fuel : Nat) (g : Graph R N)
    (m : minimum_time_reachability R N) (root v : VertexId) (vx : vertex_t R N)
    (path : List (edge_t R N × vertex_t R N)) (out : trajectory_t R N)
    (hp : parent_chain g root path v) (hf : path.length < fuel)
    (hv : g.vertex_mem v = some vx) (hgoal : vx.data.reaches_goal = true)
    (hsel : m.min_cost_vertex = none ∨
      ∃ b bx, m.min_cost_vertex = some b ∧ g.vertex_mem b = some bx ∧
        vx.data.total_cost ≤ bx.data.total_cost) :
    ∃ r, ce_update_vertex_cost fuel g m v = Except.ok r ∧
      r.mtr.min_cost_vertex = some v ∧
      (get_solution r.mtr out).1 = 1 ∧
      (get_solution r.mtr out).2.1.list_states =
        path.flatMap (fun p => p.1.trajectory_edge.list_states ++ [p.2.state]) ∧
      (get_solution r.mtr out).2.1.list_inputs =
        path.flatMap (fun p => p.1.trajectory_edge.list_inputs) ∧
      (get_solution r.mtr out).2.1.list_states =
        r.mtr.min_cost_trajectory.list_states.reverse ∧
      (get_solution r.mtr out).2.1.list_inputs =
        r.mtr.min_cost_trajectory.list_inputs.reverse ∧
      (get_solution r.mtr out).2.2 = r.mtr := by
  have hce : ce_update_vertex_cost fuel g m v = update_trajectory fuel g m v := by
    rcases hsel with hnone | ⟨b, bx, hbm, hbx, hle⟩
    · simp [ce_update_vertex_cost, hv, hgoal, hnone]
    · simp [ce_update_vertex_cost, hv, hgoal, hbm, hbx, hle]
  rw [hce, update_trajectory_chain fuel g m root v path hp hf]
  refine ⟨_, rfl, rfl, ?_⟩
  simp [get_solution, foldl_push_front, chain_states_flatMap, chain_inputs_flatMap]

/-- Witness for C22: vertex `1` of the example heap, entered from the root by
the edge `0` that carries the state 2 and one input, selected by a fresh
component: the solution has the states 2, 5 and that input. -/
theorem get_solution_exact_shape_witness :
    ∃ r, ce_update_vertex_cost 5 exG minimum_time_reachability.default 1 = Except.ok r ∧
      (get_solution r.mtr ⟨[], []⟩).2.1.list_states = [fun _ => 2, fun _ => 5] ∧
      (get_solution r.mtr ⟨[], []⟩).2.1.list_inputs.map (fun u => u.first) = [3] ∧
      r.mtr.min_cost_trajectory.list_states = [fun _ => 5, fun _ => 2] ∧
      (get_solution r.mtr ⟨[], []⟩).2.2 = r.mtr := by
  obtain ⟨r, h1, -, -, h4, h5, h6, -, h8⟩ :=
    get_solution_exact_shape 5 exG minimum_time_reachability.default 0 1 exV1 [(exE0, exV1)]
      ⟨[], []⟩
      (parent_chain.snoc [] 0 1 0 exV1 exE0 (parent_chain.nil exV0 rfl rfl) rfl rfl rfl rfl)
      (by decide) rfl rfl (Or.inl rfl)
  refine ⟨r, h1, h4, ?_, ?_, h8⟩
  · rw [h5]
    rfl
  · have h := congrArg List.reverse h6
    rw [List.reverse_reverse, h4] at h
    exact h.symm

end shape_claims

section termination_claims

variable {R : Type} {N : Nat}

/-- Claim C26: when the parent chain of `v` reaches the root after `k` edges
(`path` has `k` elements), the rebuild loop started at `v` returns after
exactly `k + 1` iterations, one per chain vertex, `k` of which follow an edge:
it returns with `k + 1` iterations allowed and does not with `k` or fewer.  It
emits, per edge followed, the state of the vertex the edge enters and the
states and inputs of the edge, and nothing for the root; with it
`update_trajectory`, the tail of `ce_update_vertex_cost`, returns. -/
theorem rebuild_loop_terminates (g : Graph R N) (m : minimum_time_reachability R N)
    (root v : VertexId) (path : List (edge_t R N × vertex_t R N))
    (hp : parent_chain g root path v) :
    (∀ acc : trajectory_t R N,
      rebuild_loop g (path.length + 1) v acc =
        Except.ok
          ⟨acc.list_states ++
              (path.flatMap fun p => p.1.trajectory_edge.list_states ++ [p.2.state]).reverse,
            acc.list_inputs ++
              (path.flatMap fun p => p.1.trajectory_edge.list_inputs).reverse⟩) ∧
    (∀ (fuel : Nat) (acc : trajectory_t R N), fuel ≤ path.length →
      rebuild_loop g fuel v acc = Except.error Fault.out_of_fuel) ∧
    (∀ (fuel : Nat) (acc : trajectory_t R N), path.length < fuel →
      rebuild_loop g fuel v acc = rebuild_loop g (path.length + 1) v acc) ∧
    (path = [] → ∀ acc : trajectory_t R N, rebuild_loop g 1 v acc = Except.ok acc) ∧
    (∃ r, update_trajectory (path.length + 1) g m v = Except.ok r ∧
      r.mtr.min_cost_vertex = some v) := by
  refine ⟨fun acc => ?_, rebuild_loop_out_of_fuel g root v path hp, fun fuel acc hf => ?_,
    fun hnil acc => ?_, ?_⟩
  · rw [rebuild_loop_chain g root v path hp _ acc (Nat.lt_succ_self _), chain_states_flatMap,
      chain_inputs_flatMap]
  · rw [rebuild_loop_chain g root v path hp _ acc (Nat.lt_succ_self _),
      rebuild_loop_chain g root v path hp _ acc hf]
  · subst hnil
    rw [rebuild_loop_chain g root v [] hp 1 acc Nat.zero_lt_one]
    simp [chain_states, chain_inputs]
  · rw [update_trajectory_chain _ g m root v path hp (Nat.lt_succ_self _)]
    exact ⟨_, rfl, rfl⟩

/-- Witness for C26: vertex `1` of the example heap is one edge away from the
root: the loop returns with two iterations and not with one. -/
theorem rebuild_loop_terminates_witness :
    rebuild_loop exG 2 1 ⟨[], []⟩ =
      Except.ok ⟨[fun _ => 5, fun _ => 2], [⟨3, []⟩]⟩ ∧
    rebuild_loop exG 1 1 ⟨[], []⟩ = Except.error Fault.out_of_fuel :=
  ⟨((rebuild_loop_terminates exG minimum_time_reachability.default 0 1 [(exE0, exV1)]
      (parent_chain.snoc [] 0 1 0 exV1 exE0 (parent_chain.nil exV0 rfl rfl)
        rfl rfl rfl rfl)).1 ⟨[], []⟩).trans rfl,
    (rebuild_loop_terminates exG minimum_time_reachability.default 0 1 [(exE0, exV1)]
      (parent_chain.snoc [] 0 1 0 exV1 exE0 (parent_chain.nil exV0 rfl rfl)
        rfl rfl rfl rfl)).2.1 1 ⟨[], []⟩ (by decide)⟩

end termination_claims


section existing_destination_claims

variable {R : Type} [LinearOrderedRing R] {N : Nat}

/-- Claim C28: on a live source `src`, a live destination `dst`, a trajectory
with at least one state and a new edge address `ne`, `insert_trajectory` with
the destination `dst` returns 1; it creates no vertex (the same addresses hold
live vertices before and after, the vertex list and the count are unchanged
and no insert-vertex notification is logged); it creates exactly one edge,
`ne`, from `src` to `dst`, appended to the outgoing list of `src` and to the
incoming list of `dst`, no other list or edge being touched; the trajectory of
that edge is the given one without its last state, the same trajectory the
edge receives when the destination is absent. -/
theorem insert_trajectory_existing_destination (b : Base R N) (nv : VertexId)
    (data0 : vertex_data R) (ne : EdgeId) (src dst : VertexId) (traj : trajectory_t R N)
    (iv : Option (List (state_t R N))) (sx dx : vertex_t R N)
    (hs : b.graph.vertex_mem src = some sx) (hd : b.graph.vertex_mem dst = some dx)
    (hstates : traj.list_states ≠ []) (_hne : b.graph.edge_mem ne = none) :
    ∃ b2, Base.insert_trajectory b nv data0 ne src traj iv (some dst) = Except.ok (b2, 1) ∧
      b2.list_vertices = b.list_vertices ∧
      b2.num_vertices = b.num_vertices ∧
      (∀ u, (b2.graph.vertex_mem u).isSome = (b.graph.vertex_mem u).isSome) ∧
      b2.graph.edge_mem ne =
        some ⟨some src, some dst, ⟨traj.list_states.dropLast, traj.list_inputs⟩⟩ ∧
      traj.list_states.dropLast ++ [traj.list_states.getLast hstates] = traj.list_states ∧
      (∀ e, e ≠ ne → b2.graph.edge_mem e = b.graph.edge_mem e) ∧
      (∀ u ux, b.graph.vertex_mem u = some ux →
        b2.graph.vertex_mem u =
          some { ux with
            outgoing_edges := if u = src then ux.outgoing_edges ++ [ne] else ux.outgoing_edges
            incoming_edges :=
              if u = dst then ux.incoming_edges ++ [ne] else ux.incoming_edges }) ∧
      b2.trace = b.trace ++ insert_edge_events b ne ∧
      (b.graph.vertex_mem nv = none →
        ∃ b3 ed3, Base.insert_trajectory b nv data0 ne src traj iv none = Except.ok (b3, 1) ∧
          b3.graph.edge_mem ne = some ed3 ∧
          ed3.trajectory_edge = ⟨traj.list_states.dropLast, traj.list_inputs⟩) := by
  obtain ⟨a, l, hl⟩ : ∃ a l, traj.list_states = a :: l := by
    cases hl : traj.list_states with
    | nil => exact absurd hl hstates
    | cons a l => exact ⟨a, l, rfl⟩
  have hcall : Base.insert_trajectory b nv data0 ne src traj iv (some dst) =
      Except.ok
        ({ b with
            graph := (b.graph.new_edge ne ⟨traj.list_states.dropLast, traj.list_inputs⟩).link
              src ne dst ⟨none, none, ⟨traj.list_states.dropLast, traj.list_inputs⟩⟩
            trace := b.trace ++ insert_edge_events b ne },
          1) := by
    unfold Base.insert_trajectory
    simp only [Base.insert_trajectory_edge, hl]
    rw [insert_edge_link _ src dst ne sx dx
      ⟨none, none, ⟨(a :: l).dropLast, traj.list_inputs⟩⟩
      (by simpa [Graph.new_edge] using hs) (by simp [Graph.new_edge])
      (by simpa [Graph.new_edge] using hd)]
    rfl
  refine ⟨_, hcall, rfl, rfl, ?_, ?_, ?_, ?_, ?_, rfl, ?_⟩
  · intro u
    simp [Graph.link, Graph.new_edge]
  · simp [Graph.link, Graph.new_edge]
  · exact List.dropLast_append_getLast hstates
  · intro e he
    simp [Graph.link, Graph.new_edge, Function.update, he]
  · intro u ux hu
    simp [Graph.link, Graph.new_edge, hu]
  · intro hnv
    have hlast : traj.list_states.getLast? = some (traj.list_states.getLast hstates) :=
      List.getLast?_eq_getLast _ hstates
    exact ⟨_, ⟨some src, some nv, ⟨traj.list_states.dropLast, traj.list_inputs⟩⟩,
      insert_trajectory_new_eq b nv data0 ne src traj iv sx _ hs hlast hnv, by simp, rfl⟩

/-- Witness for C28: on the example planner, a trajectory with the states 9
and 10 from vertex `1` to the existing vertex `2`, the new edge at address
`4`. -/
theorem insert_trajectory_existing_destination_witness :
    ∃ b2, Base.insert_trajectory exB 5 ⟨0, false⟩ 4 1
        ⟨[fun _ => 9, fun _ => 10], [⟨1, []⟩, ⟨2, []⟩]⟩ none (some 2) = Except.ok (b2, 1) ∧
      b2.list_vertices = [0, 1, 2, 3] ∧ b2.num_vertices = 4 ∧
      (b2.graph.edge_mem 4).map (fun ed => ed.trajectory_edge.list_states) =
        some [fun _ => 9] ∧
      b2.trace =
        [Event.de_update_insert_edge 4, Event.mc_update_insert_edge 4,
          Event.update_insert_edge_function 10 4, Event.update_insert_edge_function 11 4] := by
  obtain ⟨b2, h1, h2, h3, -, h5, -, -, -, h9, -⟩ :=
    insert_trajectory_existing_destination exB 5 ⟨0, false⟩ 4 1 2
      ⟨[fun _ => 9, fun _ => 10], [⟨1, []⟩, ⟨2, []⟩]⟩ none exV1 exV2 rfl rfl
      (fun h => List.noConfusion h) rfl
  refine ⟨b2, h1, h2, h3, ?_, h9⟩
  rw [h5]
  rfl

end existing_destination_claims


section delete_list_lemmas

variable {R : Type} {N : Nat}

/-- A returning `delete_edge` was called on a live edge and left the heap with
that edge unlinked from its two end points. -/
theorem delete_edge_graph (b b2 : Base R N) (e : EdgeId) (r : Int)
    (h : Base.delete_edge b e = Except.ok (b2, r)) :
    ∃ ed src dst, b.graph.edge_mem e = some ed ∧ b2.graph = b.graph.unlink src e dst := by
  obtain ⟨ed, src, dst, sx, dx, he, hsrc, hdst, hs, hd⟩ := delete_edge_live b b2 e r h
  rw [delete_edge_unlink b e src dst sx dx ed he hsrc hdst hs hd] at h
  simp only [Except.ok.injEq, Prod.mk.injEq] at h
  obtain ⟨rfl, -⟩ := h
  exact ⟨ed, src, dst, he, rfl⟩

/-- Erasing `e` and then the elements of `rest` erases the elements of
`e :: rest`. -/
theorem filter_not_mem_cons (e : EdgeId) (rest l : List EdgeId) :
    l.filter (fun x => decide (x ∉ e :: rest)) =
      (l.filter fun x => x != e).filter fun x => decide (x ∉ rest) := by
  rw [List.filter_filter]
  congr 1
  funext x
  by_cases hx : x = e <;> simp [hx]

/-- The same, the other way round. -/
theorem filter_not_mem_cons_comm (e : EdgeId) (rest l : List EdgeId) :
    l.filter (fun x => decide (x ∉ e :: rest)) =
      (l.filter fun x => decide (x ∉ rest)).filter fun x => x != e := by
  rw [List.filter_filter]
  congr 1
  funext x
  by_cases hx : x = e <;> simp [hx]

/-- A returning run of `delete_edge` over a list: the list has no repetition,
its edges were live and are freed, the other edges are untouched. -/
theorem delete_edge_list_edges (es : List EdgeId) :
    ∀ (b b2 : Base R N), Base.delete_edge_list b es = Except.ok b2 →
      es.Nodup ∧ (∀ e ∈ es, b2.graph.edge_mem e = none) ∧
        (∀ e ∈ es, ∃ ed, b.graph.edge_mem e = some ed) ∧
        (∀ e, e ∉ es → b2.graph.edge_mem e = b.graph.edge_mem e) := by
  induction es with
  | nil =>
    intro b b2 h
    simp only [Base.delete_edge_list, Except.ok.injEq] at h
    subst h
    simp
  | cons e rest ih =>
    intro b b2 h
    simp only [Base.delete_edge_list] at h
    cases hd : Base.delete_edge b e with
    | error f => simp [hd] at h
    | ok p =>
      obtain ⟨b1, r⟩ := p
      simp only [hd] at h
      obtain ⟨ed, src, dst, he, hg⟩ := delete_edge_graph b b1 e r hd
      obtain ⟨hnd, hfree, hlive, hother⟩ := ih b1 b2 h
      have he1 : b1.graph.edge_mem e = none := by
        rw [hg]
        simp [Graph.unlink]
      have hne : e ∉ rest := by
        intro hmem
        obtain ⟨ed1, hed1⟩ := hlive e hmem
        rw [he1] at hed1
        exact Option.noConfusion hed1
      have hx1 : ∀ x, x ≠ e → b1.graph.edge_mem x = b.graph.edge_mem x := by
        intro x hx
        rw [hg]
        simp [Graph.unlink, Function.update, hx]
      refine ⟨List.nodup_cons.mpr ⟨hne, hnd⟩, ?_, ?_, ?_⟩
      · intro x hx
        rcases List.mem_cons.mp hx with rfl | hx
        · rw [hother _ hne]
          exact he1
        · exact hfree x hx
      · intro x hx
        rcases List.mem_cons.mp hx with rfl | hx
        · exact ⟨ed, he⟩
        · obtain ⟨ed1, hed1⟩ := hlive x hx
          have hxe : x ≠ e := fun hxe => hne (hxe ▸ hx)
          exact ⟨ed1, (hx1 x hxe).symm.trans hed1⟩
      · intro x hx
        have hxe : x ≠ e := fun hxe => hx (hxe ▸ List.mem_cons_self _ _)
        have hxr : x ∉ rest := fun hxr => hx (List.mem_cons_of_mem _ hxr)
        rw [hother x hxr, hx1 x hxe]

/-- A returning run of `delete_edge` over a list frees no vertex and creates
none; in the adjacency lists of a vertex the entries outside the list keep
their order. -/
theorem delete_edge_list_vertices (es : List EdgeId) :
    ∀ (b b2 : Base R N), Base.delete_edge_list b es = Except.ok b2 →
      ∀ u,
        (b.graph.vertex_mem u = none → b2.graph.vertex_mem u = none) ∧
        ∀ ux, b.graph.vertex_mem u = some ux →
          ∃ uy, b2.graph.vertex_mem u = some uy ∧
            uy.outgoing_edges.filter (fun x => decide (x ∉ es)) =
              ux.outgoing_edges.filter (fun x => decide (x ∉ es)) ∧
            uy.incoming_edges.filter (fun x => decide (x ∉ es)) =
              ux.incoming_edges.filter (fun x => decide (x ∉ es)) := by
  induction es with
  | nil =>
    intro b b2 h u
    simp only [Base.delete_edge_list, Except.ok.injEq] at h
    subst h
    exact ⟨fun hn => hn, fun ux hu => ⟨ux, hu, rfl, rfl⟩⟩
  | cons e rest ih =>
    intro b b2 h u
    simp only [Base.delete_edge_list] at h
    cases hd : Base.delete_edge b e with
    | error f => simp [hd] at h
    | ok p =>
      obtain ⟨b1, r⟩ := p
      simp only [hd] at h
      obtain ⟨ed, src, dst, -, hg⟩ := delete_edge_graph b b1 e r hd
      obtain ⟨hnone, hsome⟩ := ih b1 b2 h u
      constructor
      · intro hn
        apply hnone
        rw [hg]
        simp [Graph.unlink, hn]
      · intro ux hu
        have hu1 : b1.graph.vertex_mem u =
            some { ux with
              outgoing_edges :=
                if u = src then ux.outgoing_edges.filter fun x => x != e
                else ux.outgoing_edges
              incoming_edges :=
                if u = dst then ux.incoming_edges.filter fun x => x != e
                else ux.incoming_edges } := by
          rw [hg]
          simp [Graph.unlink, hu]
        obtain ⟨uy, huy, hout, hin⟩ := hsome _ hu1
        refine ⟨uy, huy, ?_, ?_⟩
        · rw [filter_not_mem_cons_comm, hout, ← filter_not_mem_cons_comm,
            filter_not_mem_cons e rest ux.outgoing_edges, filter_not_mem_cons]
          dsimp only
          by_cases hus : u = src
          · simp only [hus, if_true, List.filter_filter, Bool.and_self]
          · simp only [hus, if_false]
        · rw [filter_not_mem_cons_comm, hin, ← filter_not_mem_cons_comm,
            filter_not_mem_cons e rest ux.incoming_edges, filter_not_mem_cons]
          dsimp only
          by_cases hud : u = dst
          · simp only [hud, if_true, List.filter_filter, Bool.and_self]
          · simp only [hud, if_false]

end delete_list_lemmas


section event_order_lemmas

variable {R : Type} {N : Nat}

/-- A returning `delete_vertex`: the outgoing edges still listed after the
incoming edges have been deleted are the outgoing edges that are not incoming
ones, and no edge is deleted twice. -/
theorem delete_vertex_edge_lists (b b2 : Base R N) (v : VertexId) (r : Int)
    (h : Base.delete_vertex b v = Except.ok (b2, r)) :
    ∃ vx b3 b4, b.graph.vertex_mem v = some vx ∧
      Base.delete_edge_list { b with trace := b.trace ++ delete_vertex_events b v }
        vx.incoming_edges = Except.ok b3 ∧
      Base.delete_edge_list b3
        (vx.outgoing_edges.filter fun x => decide (x ∉ vx.incoming_edges)) = Except.ok b4 ∧
      b2 = { b4 with
              list_vertices := b4.list_vertices.filter fun x => x != v
              num_vertices := b4.num_vertices - 1
              graph := { b4.graph with
                vertex_mem := Function.update b4.graph.vertex_mem v none } } ∧
      (vx.incoming_edges ++
        vx.outgoing_edges.filter fun x => decide (x ∉ vx.incoming_edges)).Nodup ∧
      r = 1 := by
  obtain ⟨vx, b3, vx2, b4, hv, h3, hv2, h4, hb2, hr⟩ := delete_vertex_shape b b2 v r h
  obtain ⟨hnd3, hfree3, -, -⟩ := delete_edge_list_edges _ _ _ h3
  obtain ⟨hnd4, -, hlive4, -⟩ := delete_edge_list_edges _ _ _ h4
  obtain ⟨uy, huy, hout, -⟩ := (delete_edge_list_vertices _ _ _ h3 v).2 vx hv
  rw [hv2] at huy
  obtain rfl : vx2 = uy := Option.some.inj huy
  have hdisj : ∀ x ∈ vx2.outgoing_edges, x ∉ vx.incoming_edges := by
    intro x hx hxin
    obtain ⟨ed, hed⟩ := hlive4 x hx
    rw [hfree3 x hxin] at hed
    exact Option.noConfusion hed
  have hself : vx2.outgoing_edges.filter (fun x => decide (x ∉ vx.incoming_edges)) =
      vx2.outgoing_edges := by
    rw [List.filter_eq_self]
    intro x hx
    simpa using hdisj x hx
  have hout2 : vx2.outgoing_edges =
      vx.outgoing_edges.filter fun x => decide (x ∉ vx.incoming_edges) := by
    rw [← hself]
    exact hout
  refine ⟨vx, b3, b4, hv, h3, hout2 ▸ h4, hb2, ?_, hr⟩
  rw [← hout2]
  exact List.nodup_append.mpr ⟨hnd3, hnd4, fun x hxin hxout => hdisj x hxout hxin⟩

end event_order_lemmas

section event_order_claims

variable {R : Type} {N : Nat}

/-- Claim C23: a returning `delete_vertex(v)` has logged, in this order,
`de_update_delete_vertex(v)`, `mc_update_delete_vertex(v)`, the vertex-delete
callbacks, then the delete notifications of each incoming edge of `v` in list
order, then those of each outgoing edge of `v` that is not also an incoming
one, in list order; the state `b4` reached at that point still has the vertex
list and the count of the start, and the result is `b4` with `v` erased from
the list, the count decreased and `v` freed.  Every edge listed at `v`, a
self-loop included, occurs exactly once among the edges handed to
`delete_edge`, and only such edges do.  On a heap with consistent end points
and a live vertex whose lists have no repetition the call returns. -/
theorem delete_vertex_event_order (b : Base R N) (v : VertexId) :
    (∀ b2 r, Base.delete_vertex b v = Except.ok (b2, r) →
      ∃ (vx : vertex_t R N) (b4 : Base R N), b.graph.vertex_mem v = some vx ∧ r = 1 ∧
        b4.trace =
          b.trace ++
            ([Event.de_update_delete_vertex v, Event.mc_update_delete_vertex v] ++
              b.list_update_delete_vertex_functions.map
                (fun f => Event.update_delete_vertex_function f v)) ++
            (vx.incoming_edges ++
              vx.outgoing_edges.filter
                (fun x => decide (x ∉ vx.incoming_edges))).flatMap (delete_edge_events b) ∧
        b4.list_vertices = b.list_vertices ∧ b4.num_vertices = b.num_vertices ∧
        b2 = { b4 with
                list_vertices := b4.list_vertices.filter fun x => x != v
                num_vertices := b4.num_vertices - 1
                graph := { b4.graph with
                  vertex_mem := Function.update b4.graph.vertex_mem v none } } ∧
        (∀ e, e ∈ vx.incoming_edges ∨ e ∈ vx.outgoing_edges →
          (vx.incoming_edges ++
            vx.outgoing_edges.filter
              (fun x => decide (x ∉ vx.incoming_edges))).count e = 1) ∧
        (∀ e, e ∈ vx.incoming_edges ++
            vx.outgoing_edges.filter (fun x => decide (x ∉ vx.incoming_edges)) →
          e ∈ vx.incoming_edges ∨ e ∈ vx.outgoing_edges)) ∧
    (∀ vx, b.graph.vertex_mem v = some vx → edge_endpoint_consistency b.graph →
      vx.incoming_edges.Nodup → vx.outgoing_edges.Nodup →
      ∃ b2, Base.delete_vertex b v = Except.ok (b2, 1)) := by
  refine ⟨?_, fun vx hv hc hin hout => delete_vertex_returns b v vx hc hv hin hout⟩
  intro b2 r h
  obtain ⟨vx, b3, b4, hv, h3, h4, hb2, hnd, hr⟩ := delete_vertex_edge_lists b b2 v r h
  obtain ⟨ht3, hl3, hn3, -, hc3⟩ := delete_edge_list_frame _ _ _ h3
  obtain ⟨ht4, hl4, hn4, -, -⟩ := delete_edge_list_frame _ _ _ h4
  have hev3 : delete_edge_events b3 = delete_edge_events b := by
    funext x
    simp [delete_edge_events, hc3]
  have hev1 : delete_edge_events { b with trace := b.trace ++ delete_vertex_events b v } =
      delete_edge_events b := rfl
  refine ⟨vx, b4, hv, hr, ?_, hl4.trans hl3, hn4.trans hn3, hb2, ?_, ?_⟩
  · rw [ht4, ht3, hev3, hev1, List.flatMap_append]
    simp [delete_vertex_events]
  · intro e he
    apply List.count_eq_one_of_mem hnd
    rcases he with he | he
    · exact List.mem_append_left _ he
    · by_cases hin : e ∈ vx.incoming_edges
      · exact List.mem_append_left _ hin
      · exact List.mem_append_right _ (List.mem_filter.mpr ⟨he, by simpa using hin⟩)
  · intro e he
    rcases List.mem_append.mp he with he | he
    · exact Or.inl he
    · exact Or.inr (List.mem_filter.mp he).1

/-- Witness for C23: vertex `1` of the heap with a self-loop has the incoming
edges `0` and `1` and the outgoing edges `1` and `2`; its deletion logs the
notifications of the vertex, then those of the edges `0`, `1` and `2`, each
once. -/
theorem delete_vertex_event_order_witness :
    ∃ b2, Base.delete_vertex exBloop 1 = Except.ok (b2, 1) ∧
      b2.trace =
        [Event.de_update_delete_vertex 1, Event.mc_update_delete_vertex 1,
          Event.update_delete_vertex_function 9 1,
          Event.de_update_delete_edge 0, Event.mc_update_delete_edge 0,
          Event.update_delete_edge_function 12 0,
          Event.de_update_delete_edge 1, Event.mc_update_delete_edge 1,
          Event.update_delete_edge_function 12 1,
          Event.de_update_delete_edge 2, Event.mc_update_delete_edge 2,
          Event.update_delete_edge_function 12 2] ∧
      b2.list_vertices = [0, 2] := by
  obtain ⟨vx, b4, hv, -, ht, -, -, hb2, -, -⟩ :=
    (delete_vertex_event_order exBloop 1).1 _ 1 rfl
  obtain rfl : (⟨fun _ => 5, ⟨3, true⟩, [0, 1], [1, 2]⟩ : vertex_t ℤ 1) = vx :=
    Option.some.inj hv
  exact ⟨_, rfl, (congrArg Base.trace hb2).trans ht, rfl⟩

end event_order_claims


section counting_lemmas

variable {R : Type} {N : Nat}

/-- Erasing the one occurrence of a listed element shortens a list without
repetition by one. -/
theorem length_filter_ne (l : List VertexId) (v : VertexId) (hnd : l.Nodup) (hv : v ∈ l) :
    ((l.filter fun x => x != v).length : Int) = (l.length : Int) - 1 := by
  rw [← hnd.erase_eq_filter v, List.length_erase_of_mem hv]
  have hpos := List.length_pos_of_mem hv
  omega

/-- A returning `insert_vertex` appends the vertex to the list, increases the
count by one, and neither frees nor creates a vertex. -/
theorem insert_vertex_count [LinearOrderedRing R] (b b2 : Base R N) (v : VertexId) (r : Int)
    (h : Base.insert_vertex b v = Except.ok (b2, r)) :
    b2.list_vertices = b.list_vertices ++ [v] ∧ b2.num_vertices = b.num_vertices + 1 ∧
      (∃ vx, b.graph.vertex_mem v = some vx) ∧
      ∀ u, (b2.graph.vertex_mem u).isSome = (b.graph.vertex_mem u).isSome := by
  obtain ⟨vx, hv⟩ := insert_vertex_live b b2 v r h
  rw [insert_vertex_eq b v vx hv] at h
  simp only [Except.ok.injEq, Prod.mk.injEq] at h
  obtain ⟨rfl, -⟩ := h
  refine ⟨rfl, rfl, ⟨vx, hv⟩, fun u => ?_⟩
  by_cases hu : u = v
  · subst hu
    simp [hv]
  · simp [Function.update, hu]

/-- A returning `insert_edge` neither frees nor creates a vertex. -/
theorem insert_edge_vertices (b b2 : Base R N) (src dst : VertexId) (e : EdgeId) (r : Int)
    (h : Base.insert_edge b src e dst = Except.ok (b2, r)) :
    ∀ u, (b2.graph.vertex_mem u).isSome = (b.graph.vertex_mem u).isSome := by
  obtain ⟨sx, dx, ed, hs, he, hd⟩ := insert_edge_live b b2 src dst e r h
  rw [insert_edge_link b src dst e sx dx ed hs he hd] at h
  simp only [Except.ok.injEq, Prod.mk.injEq] at h
  obtain ⟨rfl, -⟩ := h
  intro u
  simp [Graph.link]

/-- A returning `delete_edge` neither frees nor creates a vertex. -/
theorem delete_edge_vertices (b b2 : Base R N) (e : EdgeId) (r : Int)
    (h : Base.delete_edge b e = Except.ok (b2, r)) :
    ∀ u, (b2.graph.vertex_mem u).isSome = (b.graph.vertex_mem u).isSome := by
  obtain ⟨ed, src, dst, -, hg⟩ := delete_edge_graph b b2 e r h
  intro u
  rw [hg]
  simp [Graph.unlink]

/-- A returning second half of `insert_trajectory` keeps the vertex list and
the count and neither frees nor creates a vertex. -/
theorem insert_trajectory_edge_count (b b2 : Base R N) (ne : EdgeId) (src dst : VertexId)
    (traj : trajectory_t R N) (r : Int)
    (h : Base.insert_trajectory_edge b ne src traj dst = Except.ok (b2, r)) :
    b2.list_vertices = b.list_vertices ∧ b2.num_vertices = b.num_vertices ∧
      ∀ u, (b2.graph.vertex_mem u).isSome = (b.graph.vertex_mem u).isSome := by
  unfold Base.insert_trajectory_edge at h
  cases hl : traj.list_states with
  | nil => simp [hl] at h
  | cons a l =>
    simp only [hl] at h
    cases hi : Base.insert_edge
        { b with graph := b.graph.new_edge ne { traj with list_states := (a :: l).dropLast } }
        src ne dst with
    | error f => simp [hi] at h
    | ok p =>
      obtain ⟨b3, r3⟩ := p
      simp only [hi, Except.ok.injEq, Prod.mk.injEq] at h
      obtain ⟨rfl, -⟩ := h
      obtain ⟨-, -, hlist, hnum, -⟩ := insert_edge_frame _ _ _ _ _ _ hi
      have hvs := insert_edge_vertices _ _ _ _ _ _ hi
      exact ⟨hlist, hnum, fun u => (hvs u).trans (by simp [Graph.new_edge])⟩

/-- A returning `insert_trajectory` whose new vertex address is not live
either keeps the vertex list and the count (destination given) or appends the
new vertex and increases the count by one (destination absent); no vertex is
freed, and the only vertex that can become live is the new one. -/
theorem insert_trajectory_count [LinearOrderedRing R] (b b2 : Base R N) (nv : VertexId)
    (data0 : vertex_data R) (ne : EdgeId) (src : VertexId) (traj : trajectory_t R N)
    (iv : Option (List (state_t R N))) (dst : Option VertexId) (r : Int)
    (h : Base.insert_trajectory b nv data0 ne src traj iv dst = Except.ok (b2, r)) :
    ((dst ≠ none ∧ b2.list_vertices = b.list_vertices ∧ b2.num_vertices = b.num_vertices) ∨
      (dst = none ∧ b2.list_vertices = b.list_vertices ++ [nv] ∧
        b2.num_vertices = b.num_vertices + 1 ∧ ∃ ny, b2.graph.vertex_mem nv = some ny)) ∧
      ∀ u, (b.graph.vertex_mem u).isSome = true → (b2.graph.vertex_mem u).isSome = true := by
  unfold Base.insert_trajectory at h
  cases dst with
  | some d =>
    simp only at h
    obtain ⟨hl, hn, hvs⟩ := insert_trajectory_edge_count _ _ _ _ _ _ _ h
    exact ⟨Or.inl ⟨fun hd => Option.noConfusion hd, hl, hn⟩, fun u hu => (hvs u).trans hu⟩
  | none =>
    simp only at h
    cases hlast : traj.list_states.getLast? with
    | none => simp [hlast] at h
    | some final_state =>
      simp only [hlast] at h
      cases hi : Base.insert_vertex
          { b with graph := b.graph.new_vertex nv final_state data0 } nv with
      | error f => simp [hi] at h
      | ok p =>
        obtain ⟨b3, r3⟩ := p
        simp only [hi] at h
        obtain ⟨hl3, hn3, -, hvs3⟩ := insert_vertex_count _ _ _ _ hi
        obtain ⟨hl, hn, hvs⟩ := insert_trajectory_edge_count _ _ _ _ _ _ _ h
        have hnew : ∀ u, (b.graph.vertex_mem u).isSome = true →
            (b2.graph.vertex_mem u).isSome = true := by
          intro u hu
          rw [hvs u, hvs3 u]
          by_cases hun : u = nv
          · subst hun
            simp [Graph.new_vertex]
          · simpa [Graph.new_vertex, Function.update, hun] using hu
        have hnv : (b2.graph.vertex_mem nv).isSome = true := by
          rw [hvs nv, hvs3 nv]
          simp [Graph.new_vertex]
        exact ⟨Or.inr ⟨rfl, hl.trans hl3, hn.trans hn3, Option.isSome_iff_exists.mp hnv⟩, hnew⟩

/-- A returning `delete_vertex` frees no other vertex. -/
theorem delete_vertex_vertices (b b2 : Base R N) (v : VertexId) (r : Int)
    (h : Base.delete_vertex b v = Except.ok (b2, r)) :
    ∀ u, u ≠ v → (b.graph.vertex_mem u).isSome = true →
      (b2.graph.vertex_mem u).isSome = true := by
  obtain ⟨vx, b3, vx2, b4, -, h3, -, h4, rfl, -⟩ := delete_vertex_shape b b2 v r h
  intro u hu hlive
  obtain ⟨ux, hux⟩ := Option.isSome_iff_exists.mp hlive
  obtain ⟨uy, huy, -, -⟩ := (delete_edge_list_vertices _ _ _ h3 u).2 ux hux
  obtain ⟨uz, huz, -, -⟩ := (delete_edge_list_vertices _ _ _ h4 u).2 uy huy
  simp [Function.update, hu, huz]

end counting_lemmas

section counting_claims

variable {R : Type} [LinearOrderedRing R] {N : Nat}

/-- Claim C27: in every planner state reached from a newly constructed planner
by allocations and returning calls of `insert_vertex` on a vertex not in the
list, `insert_edge`, `delete_edge`, `insert_trajectory` and `delete_vertex` on
a vertex in the list, the stored count equals the length of the vertex list;
moreover the list has no repetition and every listed vertex is live. -/
theorem num_vertices_eq_length (b : Base R N) (h : listed_once b) :
    b.num_vertices = (b.list_vertices.length : Int) ∧ b.list_vertices.Nodup ∧
      ∀ v ∈ b.list_vertices, (b.graph.vertex_mem v).isSome = true := by
  induction h with
  | init m g => simp [Base.new]
  | new_vertex b p state data hb hp ih =>
    obtain ⟨hn, hnd, hlive⟩ := ih
    refine ⟨hn, hnd, fun v hv => ?_⟩
    have hvp : v ≠ p := fun hvp => by
      have := hlive v hv
      rw [hvp, hp] at this
      simp at this
    simpa [Graph.new_vertex, Function.update, hvp] using hlive v hv
  | new_edge b p trajectory hb hp ih => exact ih
  | insert_vertex b b2 v r hb hnew h ih =>
    obtain ⟨hn, hnd, hlive⟩ := ih
    obtain ⟨hl2, hn2, ⟨vx, hvx⟩, hvs⟩ := insert_vertex_count b b2 v r h
    refine ⟨?_, ?_, ?_⟩
    · rw [hn2, hl2, hn]
      simp
    · rw [hl2]
      exact List.nodup_append.mpr ⟨hnd, List.nodup_singleton v, fun x hx hxv => by
        rw [List.mem_singleton.mp hxv] at hx
        exact hnew hx⟩
    · intro u hu
      rw [hl2] at hu
      rw [hvs u]
      rcases List.mem_append.mp hu with hu | hu
      · exact hlive u hu
      · rw [List.mem_singleton.mp hu, hvx]
        rfl
  | insert_edge b b2 src dst e r hb h ih =>
    obtain ⟨hn, hnd, hlive⟩ := ih
    obtain ⟨-, -, hl2, hn2, -⟩ := insert_edge_frame b b2 src dst e r h
    have hvs := insert_edge_vertices b b2 src dst e r h
    rw [hl2, hn2]
    exact ⟨hn, hnd, fun u hu => (hvs u).trans (hlive u hu)⟩
  | delete_edge b b2 e r hb h ih =>
    obtain ⟨hn, hnd, hlive⟩ := ih
    obtain ⟨-, -, hl2, hn2, -, -⟩ := delete_edge_frame b b2 e r h
    have hvs := delete_edge_vertices b b2 e r h
    rw [hl2, hn2]
    exact ⟨hn, hnd, fun u hu => (hvs u).trans (hlive u hu)⟩
  | delete_vertex b b2 v r hb hlisted h ih =>
    obtain ⟨hn, hnd, hlive⟩ := ih
    obtain ⟨-, -, hl2, hn2⟩ := delete_vertex_component b b2 v r h
    have hvs := delete_vertex_vertices b b2 v r h
    refine ⟨?_, ?_, ?_⟩
    · rw [hn2, hl2, hn, length_filter_ne _ v hnd hlisted]
    · rw [hl2]
      exact hnd.filter _
    · intro u hu
      rw [hl2] at hu
      obtain ⟨hu1, hu2⟩ := List.mem_filter.mp hu
      exact hvs u (by simpa using hu2) (hlive u hu1)
  | insert_trajectory b b2 nv data0 ne src traj iv dst r hb hnv hne h ih =>
    obtain ⟨hn, hnd, hlive⟩ := ih
    obtain ⟨hcase, hvs⟩ := insert_trajectory_count b b2 nv data0 ne src traj iv dst r h
    rcases hcase with ⟨-, hl2, hn2⟩ | ⟨-, hl2, hn2, ny, hny⟩
    · rw [hl2, hn2]
      exact ⟨hn, hnd, fun u hu => hvs u (hlive u hu)⟩
    · have hnot : nv ∉ b.list_vertices := fun hmem => by
        have := hlive nv hmem
        rw [hnv] at this
        simp at this
      refine ⟨?_, ?_, ?_⟩
      · rw [hn2, hl2, hn]
        simp
      · rw [hl2]
        exact List.nodup_append.mpr ⟨hnd, List.nodup_singleton nv, fun x hx hxv => by
          rw [List.mem_singleton.mp hxv] at hx
          exact hnot hx⟩
      · intro u hu
        rw [hl2] at hu
        rcases List.mem_append.mp hu with hu | hu
        · exact hvs u (hlive u hu)
        · rw [List.mem_singleton.mp hu, hny]
          rfl

end counting_claims


section counting_examples

/-- Witness for C27: from the newly constructed planner over the empty heap, a
vertex `0` is allocated and inserted, a trajectory with the single state 5 is
inserted from it without destination (new vertex `1`, new edge `0`), and vertex
`0` is deleted: the list holds vertex `1` and the count is 1. -/
theorem num_vertices_eq_length_witness :
    ∃ b1 b2 b3 : Base ℤ 1,
      Base.insert_vertex
        { (Base.new minimum_time_reachability.default ⟨fun _ => none, fun _ => none⟩ :
            Base ℤ 1) with
          graph :=
            Graph.new_vertex (⟨fun _ => none, fun _ => none⟩ : Graph ℤ 1) 0 (fun _ => 0)
              ⟨0, false⟩ }
        0 = Except.ok (b1, 1) ∧
      Base.insert_trajectory b1 1 ⟨0, false⟩ 0 0 ⟨[fun _ => 5], [⟨1, []⟩]⟩ none none =
        Except.ok (b2, 1) ∧
      Base.delete_vertex b2 0 = Except.ok (b3, 1) ∧
      b3.list_vertices = [1] ∧
      b3.num_vertices = (b3.list_vertices.length : Int) :=
  ⟨_, _, _, rfl, rfl, rfl, rfl,
    (num_vertices_eq_length _
      (listed_once.delete_vertex _ _ 0 1
        (listed_once.insert_trajectory _ _ 1 ⟨0, false⟩ 0 0 ⟨[fun _ => 5], [⟨1, []⟩]⟩ none none 1
          (listed_once.insert_vertex _ _ 0 1
            (listed_once.new_vertex _ 0 (fun _ => 0) ⟨0, false⟩
              (listed_once.init minimum_time_reachability.default
                ⟨fun _ => none, fun _ => none⟩) rfl)
            (List.not_mem_nil 0) rfl)
          rfl rfl rfl)
        (List.mem_cons_self 0 [1]) rfl)).1⟩

end counting_examples


section notify_lemmas

variable {R : Type} [LinearOrderedRing R] {N : Nat}

/-- The three ways a returning `ce_update_vertex_cost` went: the vertex does
not reach the goal and nothing changed; it does, a best vertex of strictly
smaller cost is recorded and nothing changed; it does, and it is now the
recorded vertex, of cost at most that of the vertex recorded before. -/
theorem ce_update_vertex_cost_decision {R : Type} [LinearOrder R] {N : Nat} (fuel : Nat)
    (g : Graph R N)
    (m : minimum_time_reachability R N) (v : VertexId) (r : ce_result R N)
    (h : ce_update_vertex_cost fuel g m v = Except.ok r) :
    ∃ vx, g.vertex_mem v = some vx ∧
      ((vx.data.reaches_goal = false ∧ r.mtr = m) ∨
        (vx.data.reaches_goal = true ∧ r.mtr = m ∧
          ∃ b bx, m.min_cost_vertex = some b ∧ g.vertex_mem b = some bx ∧
            bx.data.total_cost < vx.data.total_cost) ∨
        (vx.data.reaches_goal = true ∧ r.mtr.min_cost_vertex = some v ∧
          ∀ b bx, m.min_cost_vertex = some b → g.vertex_mem b = some bx →
            vx.data.total_cost ≤ bx.data.total_cost)) := by
  unfold ce_update_vertex_cost at h
  cases hv : g.vertex_mem v with
  | none => simp [hv] at h
  | some vx =>
    simp only [hv] at h
    refine ⟨vx, rfl, ?_⟩
    cases hgoal : vx.data.reaches_goal with
    | false =>
      simp only [hgoal, Bool.false_eq_true, if_false, Except.ok.injEq] at h
      exact Or.inl ⟨rfl, by rw [← h]⟩
    | true =>
      simp only [hgoal, if_true] at h
      cases hm : m.min_cost_vertex with
      | none =>
        simp only [hm] at h
        obtain ⟨traj, -, rfl⟩ := update_trajectory_ok fuel g m v r h
        exact Or.inr (Or.inr ⟨rfl, rfl, fun b bx hb => Option.noConfusion hb⟩)
      | some best =>
        simp only [hm] at h
        cases hb : g.vertex_mem best with
        | none => simp [hb] at h
        | some bx =>
          simp only [hb] at h
          by_cases hle : vx.data.total_cost ≤ bx.data.total_cost
          · simp only [hle, if_true] at h
            obtain ⟨traj, -, rfl⟩ := update_trajectory_ok fuel g m v r h
            refine Or.inr (Or.inr ⟨rfl, rfl, fun b bx2 hb1 hb2 => ?_⟩)
            obtain rfl : best = b := Option.some.inj hb1
            rw [hb] at hb2
            obtain rfl : bx = bx2 := Option.some.inj hb2
            exact hle
          · simp only [hle, if_false, Except.ok.injEq] at h
            exact Or.inr (Or.inl ⟨rfl, by rw [← h], best, bx, rfl, hb, lt_of_not_le hle⟩)

/-- One notification keeps the invariant: the heap changed at most at the
notified vertex, whose cost did not increase, and `ce_update_vertex_cost`
returned. -/
theorem notify_invariant_step {R : Type} [LinearOrder R] {N : Nat} (fuel : Nat)
    (g g1 : Graph R N)
    (m : minimum_time_reachability R N) (ns : List (VertexId × Bool)) (v : VertexId)
    (r : ce_result R N) (hinv : notify_invariant ⟨g, m, ns⟩) (hg : only_lowered g g1 v)
    (hlive : ∀ u ux, g.vertex_mem u = some ux → ∃ ux1, g1.vertex_mem u = some ux1)
    (h : ce_update_vertex_cost fuel g1 m v = Except.ok r) :
    notify_invariant ⟨g1, r.mtr, ns ++ [(v, goal_reaching g1 v)]⟩ := by
  obtain ⟨h1, h2, h3⟩ := hinv
  dsimp only at h1 h2 h3
  obtain ⟨vx1, hv1, hcase⟩ := ce_update_vertex_cost_decision fuel g1 m v r h
  have hflag : goal_reaching g1 v = vx1.data.reaches_goal := by
    simp [goal_reaching, hv1]
  -- a bound known in `g` for a vertex other than `v` carries over to `g1`
  have hcarry : ∀ p ∈ ns, p.1 ≠ v → ∀ ux1, g1.vertex_mem p.1 = some ux1 →
      ux1.data.reaches_goal = true →
      ∃ b bx1, m.min_cost_vertex = some b ∧ g1.vertex_mem b = some bx1 ∧
        bx1.data.total_cost ≤ ux1.data.total_cost := by
    intro p hp hpv ux1 hux1 hgoal
    obtain ⟨ux, hux, hsame, -⟩ := hg p.1 ux1 hux1
    obtain rfl := hsame hpv
    obtain ⟨b, bx, hb, hbx, hle⟩ := h3 p hp ux1 hux hgoal
    obtain ⟨bx1, hbx1⟩ := hlive b bx hbx
    obtain ⟨bx0, hbx0, -, hle1⟩ := hg b bx1 hbx1
    rw [hbx] at hbx0
    obtain rfl : bx = bx0 := Option.some.inj hbx0
    exact ⟨b, bx1, hb, hbx1, le_trans hle1 hle⟩
  refine ⟨?_, ?_, ?_⟩
  · dsimp only
    rcases hcase with ⟨hf, hm⟩ | ⟨hf, hm, b, bx, hb, -, -⟩ | ⟨hf, hm, -⟩
    · rw [hm, h1, hflag, hf]
      constructor
      · rintro ⟨p, hp, hp2⟩
        exact ⟨p, List.mem_append_left _ hp, hp2⟩
      · rintro ⟨p, hp, hp2⟩
        rcases List.mem_append.mp hp with hp | hp
        · exact ⟨p, hp, hp2⟩
        · rw [List.mem_singleton.mp hp] at hp2
          simp at hp2
    · rw [hm, hflag, hf, hb]
      exact ⟨fun _ => ⟨(v, true), List.mem_append_right _ (List.mem_singleton_self _), rfl⟩,
        fun _ hn => Option.noConfusion hn⟩
    · rw [hm, hflag, hf]
      exact ⟨fun _ => ⟨(v, true), List.mem_append_right _ (List.mem_singleton_self _), rfl⟩,
        fun _ hn => Option.noConfusion hn⟩
  · dsimp only
    intro b hb
    rcases hcase with ⟨-, hm⟩ | ⟨-, hm, -⟩ | ⟨-, hm, -⟩
    · rw [hm] at hb
      obtain ⟨bx, hbx⟩ := h2 b hb
      exact hlive b bx hbx
    · rw [hm] at hb
      obtain ⟨bx, hbx⟩ := h2 b hb
      exact hlive b bx hbx
    · rw [hm] at hb
      obtain rfl : v = b := Option.some.inj hb
      exact ⟨vx1, hv1⟩
  · dsimp only
    intro p hp ux1 hux1 hgoal
    by_cases hpv : p.1 = v
    · -- the notified vertex itself
      rw [hpv, hv1] at hux1
      obtain rfl : vx1 = ux1 := Option.some.inj hux1
      rcases hcase with ⟨hf, -⟩ | ⟨-, hm, b, bx, hb, hbx, hlt⟩ | ⟨-, hm, -⟩
      · rw [hf] at hgoal
        exact Bool.noConfusion hgoal
      · rw [hm]
        exact ⟨b, bx, hb, hbx, le_of_lt hlt⟩
      · exact ⟨v, vx1, hm, hv1, le_refl _⟩
    · have hpns : p ∈ ns := by
        rcases List.mem_append.mp hp with hp | hp
        · exact hp
        · exact absurd (by rw [List.mem_singleton.mp hp]) hpv
      obtain ⟨b, bx1, hb, hbx1, hle⟩ := hcarry p hpns hpv ux1 hux1 hgoal
      rcases hcase with ⟨-, hm⟩ | ⟨-, hm, -⟩ | ⟨-, hm, hmin⟩
      · rw [hm]
        exact ⟨b, bx1, hb, hbx1, hle⟩
      · rw [hm]
        exact ⟨b, bx1, hb, hbx1, hle⟩
      · exact ⟨v, vx1, hm, hv1, le_trans (hmin b bx1 hb hbx1) hle⟩

end notify_lemmas


section notify_run_lemmas

variable {R : Type} [LinearOrderedRing R] {N : Nat}

/-- A returning run keeps the invariant and records the vertex of each step,
in order. -/
theorem notify_run_invariant {R : Type} [LinearOrder R] [Sub R] [Fabs R] {N : Nat} (fuel : Nat)
    (steps : List (notify_step R)) :
    ∀ (s s2 : notify_state R N), notify_invariant s → notify_run fuel s steps = Except.ok s2 →
      notify_invariant s2 ∧
        s2.notified.map Prod.fst = s.notified.map Prod.fst ++ steps.map notify_step.vertex := by
  induction steps with
  | nil =>
    intro s s2 hinv h
    simp only [notify_run, Except.ok.injEq] at h
    subst h
    exact ⟨hinv, by simp⟩
  | cons step rest ih =>
    intro s s2 hinv h
    obtain ⟨g, m, ns⟩ := s
    cases step with
    | insert v =>
      simp only [notify_run, mc_update_insert_vertex] at h
      cases hv : g.vertex_mem v with
      | none => simp [hv] at h
      | some vx =>
        simp only [hv] at h
        cases hce : ce_update_vertex_cost fuel
            { g with
              vertex_mem := Function.update g.vertex_mem v
                (some { vx with data := { vx.data with reaches_goal := reaches_goal m vx } }) }
            m v with
        | error f => simp [hce] at h
        | ok r =>
          simp only [hce] at h
          have hstep := notify_invariant_step fuel g _ m ns v r hinv
            (by
              intro u ux1 hu
              by_cases huv : u = v
              · subst huv
                simp only [Function.update_same, Option.some.injEq] at hu
                subst hu
                exact ⟨vx, hv, fun hne => absurd rfl hne, le_refl _⟩
              · simp only [Function.update, huv, dite_false] at hu
                exact ⟨ux1, hu, fun _ => rfl, le_refl _⟩)
            (by
              intro u ux hu
              by_cases huv : u = v
              · subst huv
                exact ⟨_, Function.update_same _ _ _⟩
              · exact ⟨ux, by simp [Function.update, huv, hu]⟩)
            hce
          obtain ⟨hinv2, hmap⟩ := ih _ s2 hstep h
          refine ⟨hinv2, ?_⟩
          rw [hmap]
          simp [notify_step.vertex]
    | lower v cost =>
      simp only [notify_run] at h
      cases hv : g.vertex_mem v with
      | none => simp [hv] at h
      | some vx =>
        simp only [hv] at h
        cases hce : ce_update_vertex_cost fuel (lower_cost g v vx cost) m v with
        | error f => simp [hce] at h
        | ok r =>
          simp only [hce] at h
          have hstep := notify_invariant_step fuel g _ m ns v r hinv
            (by
              intro u ux1 hu
              by_cases huv : u = v
              · subst huv
                simp only [lower_cost, Function.update_same, Option.some.injEq] at hu
                subst hu
                refine ⟨vx, hv, fun hne => absurd rfl hne, ?_⟩
                dsimp only
                split_ifs with hc
                · exact hc
                · exact le_refl _
              · simp only [lower_cost, Function.update, huv, dite_false] at hu
                exact ⟨ux1, hu, fun _ => rfl, le_refl _⟩)
            (by
              intro u ux hu
              by_cases huv : u = v
              · subst huv
                exact ⟨_, Function.update_same _ _ _⟩
              · exact ⟨ux, by simp [lower_cost, Function.update, huv, hu]⟩)
            hce
          obtain ⟨hinv2, hmap⟩ := ih _ s2 hstep h
          refine ⟨hinv2, ?_⟩
          rw [hmap]
          simp [notify_step.vertex]

/-- A returning run returned after each of its prefixes. -/
theorem notify_run_prefix {R : Type} [LinearOrder R] [Sub R] [Fabs R] {N : Nat} (fuel : Nat)
    (suf : List (notify_step R)) :
    ∀ (pre : List (notify_step R)) (s s2 : notify_state R N),
      notify_run fuel s (pre ++ suf) = Except.ok s2 →
      ∃ s1, notify_run fuel s pre = Except.ok s1 ∧ notify_run fuel s1 suf = Except.ok s2 := by
  intro pre
  induction pre with
  | nil =>
    intro s s2 h
    exact ⟨s, rfl, h⟩
  | cons step rest ih =>
    intro s s2 h
    cases step with
    | insert v =>
      simp only [List.cons_append, notify_run] at h ⊢
      cases hmc : mc_update_insert_vertex s.graph s.mtr v with
      | error f => simp [hmc] at h
      | ok p =>
        obtain ⟨g1, m1, r1⟩ := p
        simp only [hmc] at h ⊢
        cases hce : ce_update_vertex_cost fuel g1 m1 v with
        | error f => simp [hce] at h
        | ok r =>
          simp only [hce] at h ⊢
          exact ih _ s2 h
    | lower v cost =>
      simp only [List.cons_append, notify_run] at h ⊢
      cases hv : s.graph.vertex_mem v with
      | none => simp [hv] at h
      | some vx =>
        simp only [hv] at h ⊢
        cases hce : ce_update_vertex_cost fuel (lower_cost s.graph v vx cost) s.mtr v with
        | error f => simp [hce] at h
        | ok r =>
          simp only [hce] at h ⊢
          exact ih _ s2 h

end notify_run_lemmas

section minimum_claims

variable {R : Type} [LinearOrderedRing R] {N : Nat}

/-- Claim C25 (amended): let the comparison `<=` of the scalar type be a
linear order (no total cost is NaN).  Start from a default-constructed
component over any heap and run steps each of which inserts a vertex
(`mc_update_insert_vertex`, then `ce_update_vertex_cost` on it) or lowers the
total cost of a vertex and calls `ce_update_vertex_cost` on it.  After every prefix `pre` of a returning run:
the vertices notified are those of the steps; `min_cost_vertex` is non-null
exactly when some notification was made on a vertex whose `reaches_goal` was
set; and a recorded `min_cost_vertex` is live with a total cost at most that
of every notified vertex whose `reaches_goal` is set. -/
theorem best_vertex_is_minimum {R : Type} [LinearOrder R] [Zero R] [Sub R] [Fabs R] {N : Nat}
    (fuel : Nat) (g0 : Graph R N)
    (pre suf : List (notify_step R)) (s2 : notify_state R N)
    (h : notify_run fuel ⟨g0, minimum_time_reachability.default, []⟩ (pre ++ suf) =
      Except.ok s2) :
    ∃ s, notify_run fuel ⟨g0, minimum_time_reachability.default, []⟩ pre = Except.ok s ∧
      s.notified.map Prod.fst = pre.map notify_step.vertex ∧
      (s.mtr.min_cost_vertex ≠ none ↔ ∃ p ∈ s.notified, p.2 = true) ∧
      ∀ b, s.mtr.min_cost_vertex = some b →
        ∃ bx, s.graph.vertex_mem b = some bx ∧
          ∀ p ∈ s.notified, ∀ ux, s.graph.vertex_mem p.1 = some ux →
            ux.data.reaches_goal = true → bx.data.total_cost ≤ ux.data.total_cost := by
  obtain ⟨s, hs, -⟩ := notify_run_prefix fuel suf pre _ s2 h
  have hinit : notify_invariant
      (⟨g0, minimum_time_reachability.default, []⟩ : notify_state R N) := by
    refine ⟨?_, ?_, ?_⟩
    · simp [minimum_time_reachability.default]
    · intro b hb
      simp [minimum_time_reachability.default] at hb
    · intro p hp
      simp at hp
  obtain ⟨⟨h1, h2, h3⟩, hmap⟩ := notify_run_invariant fuel pre _ s hinit hs
  refine ⟨s, hs, by simpa using hmap, h1, ?_⟩
  intro b hb
  obtain ⟨bx, hbx⟩ := h2 b hb
  refine ⟨bx, hbx, ?_⟩
  intro p hp ux hux hgoal
  obtain ⟨b2, bx2, hb2, hbx2, hle⟩ := h3 p hp ux hux hgoal
  rw [hb] at hb2
  obtain rfl : b = b2 := Option.some.inj hb2
  rw [hbx] at hbx2
  obtain rfl : bx = bx2 := Option.some.inj hbx2
  exact hle

/-- Counterexample for C25 as stated, on doubles: from a default-constructed
component, the goal-reaching vertex `0` of total cost NaN is inserted and
recorded (no comparison is made for the first solution), then the
goal-reaching vertex `1` of total cost 1 is inserted and not recorded, because
`1 <= NaN` is false.  Afterwards `min_cost_vertex` is vertex `0`, both
vertices are goal-reaching and notified, and the total cost NaN of the
recorded vertex is not less than or equal to the total cost 1 of vertex `1`
(nor to its own). -/
theorem best_vertex_nan_counterexample :
    ∃ s : notify_state xdouble 1,
      notify_run 1 ⟨exGnanCost, minimum_time_reachability.default, []⟩
        [notify_step.insert 0, notify_step.insert 1] = Except.ok s ∧
      s.mtr.min_cost_vertex = some 0 ∧
      s.notified = [(0, true), (1, true)] ∧
      (s.graph.vertex_mem 0).map (fun ux => (ux.data.total_cost, ux.data.reaches_goal)) =
        some (xdouble.nan, true) ∧
      (s.graph.vertex_mem 1).map (fun ux => (ux.data.total_cost, ux.data.reaches_goal)) =
        some (xdouble.val 1, true) ∧
      ¬ (xdouble.nan ≤ xdouble.val 1) ∧ ¬ (xdouble.nan ≤ xdouble.nan) :=
  ⟨_, rfl, rfl, rfl, rfl, rfl, by decide, by decide⟩

/-- Witness for C25: on the example heap, the cost of vertex `3` is lowered
from 4 to 3 (it becomes the best vertex), the root `0` of cost 0 is inserted
(it becomes the best vertex), the cost of vertex `1` is lowered from 3 to 1
(the root stays the best vertex). -/
theorem best_vertex_is_minimum_witness :
    (notify_run 5 ⟨exG, minimum_time_reachability.default, []⟩
        [notify_step.lower 3 3, notify_step.insert 0, notify_step.lower 1 1]).map
      (fun s => (s.mtr.min_cost_vertex, s.notified,
        (s.graph.vertex_mem 0).map (fun ux => ux.data.total_cost),
        (s.graph.vertex_mem 1).map (fun ux => ux.data.total_cost),
        (s.graph.vertex_mem 3).map (fun ux => ux.data.total_cost))) =
      Except.ok (some 0, [(3, true), (0, true), (1, true)], some 0, some 1, some 3) ∧
    ∃ s : notify_state ℤ 1,
      notify_run 5 ⟨exG, minimum_time_reachability.default, []⟩
        [notify_step.lower 3 3, notify_step.insert 0, notify_step.lower 1 1] = Except.ok s ∧
      s.notified.map Prod.fst =
        [notify_step.lower 3 (3 : ℤ), notify_step.insert 0, notify_step.lower 1 1].map
          notify_step.vertex ∧
      (s.mtr.min_cost_vertex ≠ none ↔ ∃ p ∈ s.notified, p.2 = true) ∧
      ∀ b, s.mtr.min_cost_vertex = some b →
        ∃ bx, s.graph.vertex_mem b = some bx ∧
          ∀ p ∈ s.notified, ∀ ux, s.graph.vertex_mem p.1 = some ux →
            ux.data.reaches_goal = true → bx.data.total_cost ≤ ux.data.total_cost :=
  ⟨rfl,
    best_vertex_is_minimum 5 exG
      [notify_step.lower 3 3, notify_step.insert 0, notify_step.lower 1 1] [] _ rfl⟩

end minimum_claims

section notification_claims

variable {R : Type} {N : Nat}

/-- A returning `delete_vertex` logged its own notifications, then those of
the deletion of each incoming edge, then those of the deletion of each
outgoing edge that is not an incoming one. -/
theorem delete_vertex_trace (b b2 : Base R N) (v : VertexId) (r : Int)
    (h : Base.delete_vertex b v = Except.ok (b2, r)) :
    ∃ vx, b.graph.vertex_mem v = some vx ∧
      b2.trace = b.trace ++ delete_vertex_events b v ++
        (vx.incoming_edges ++
          vx.outgoing_edges.filter (fun x => decide (x ∉ vx.incoming_edges))).flatMap
          (delete_edge_events b) := by
  obtain ⟨vx, b3, b4, hv, h3, h4, hb2, -, -⟩ := delete_vertex_edge_lists b b2 v r h
  obtain ⟨ht3, -, -, -, hc3⟩ := delete_edge_list_frame _ _ _ h3
  obtain ⟨ht4, -, -, -, -⟩ := delete_edge_list_frame _ _ _ h4
  have hev3 : delete_edge_events b3 = delete_edge_events b := by
    funext x
    simp [delete_edge_events, hc3]
  have hev1 : delete_edge_events { b with trace := b.trace ++ delete_vertex_events b v } =
      delete_edge_events b := rfl
  refine ⟨vx, hv, ?_⟩
  rw [hb2]
  show b4.trace = _
  rw [ht4, ht3, hev3, hev1, List.flatMap_append]
  simp

/-- Claim C8: the notifications that each of `insert_vertex`, `delete_vertex`,
`insert_edge` and `delete_edge` itself appends to the log are, in this order,
the distance-evaluator update, the model-checker update, and one call of each
callback of the list of that event in list order (`delete_vertex` then
continues with the notifications of the edge deletions it performs).  The
callback list after a `clear_update_function_list_*` followed by registrations
is exactly the registered callbacks in registration order; right after the
clear the mutation logs the two component updates and no callback call.  This
holds of every returning call (first part), and the calls do return with
these logs (second part): `insert_vertex` on a live vertex, `insert_edge` on
live objects, `delete_edge` on a live edge with live end points, and
`delete_vertex` on a live vertex of a heap with consistent end points whose
lists have no repetition. -/
theorem notification_order [Sub R] [LT R] [∀ a b : R, Decidable (a < b)] [Fabs R]
    (b : Base R N) :
    ((∀ v b2 r, Base.insert_vertex b v = Except.ok (b2, r) →
        b2.trace = b.trace ++
          [Event.de_update_insert_vertex v, Event.mc_update_insert_vertex v] ++
          b.list_update_insert_vertex_functions.map
            (fun f => Event.update_insert_vertex_function f v)) ∧
      (∀ v b2 r, Base.delete_vertex b v = Except.ok (b2, r) →
        ∃ es : List EdgeId, b2.trace = b.trace ++
          [Event.de_update_delete_vertex v, Event.mc_update_delete_vertex v] ++
          b.list_update_delete_vertex_functions.map
            (fun f => Event.update_delete_vertex_function f v) ++
          es.flatMap (fun e =>
            [Event.de_update_delete_edge e, Event.mc_update_delete_edge e] ++
              b.list_update_delete_edge_functions.map
                (fun f => Event.update_delete_edge_function f e))) ∧
      (∀ src e dst b2 r, Base.insert_edge b src e dst = Except.ok (b2, r) →
        b2.trace = b.trace ++
          [Event.de_update_insert_edge e, Event.mc_update_insert_edge e] ++
          b.list_update_insert_edge_functions.map
            (fun f => Event.update_insert_edge_function f e)) ∧
      (∀ e b2 r, Base.delete_edge b e = Except.ok (b2, r) →
        b2.trace = b.trace ++
          [Event.de_update_delete_edge e, Event.mc_update_delete_edge e] ++
          b.list_update_delete_edge_functions.map
            (fun f => Event.update_delete_edge_function f e)) ∧
      (∀ fs : List FuncId,
        (fs.foldl (fun acc f => (Base.register_new_update_function_vertex_insert acc f).1)
          (Base.clear_update_function_list_vertex_insert b).1).list_update_insert_vertex_functions
          = fs) ∧
      (∀ fs : List FuncId,
        (fs.foldl (fun acc f => (Base.register_new_update_function_vertex_delete acc f).1)
          (Base.clear_update_function_list_vertex_delete b).1).list_update_delete_vertex_functions
          = fs) ∧
      (∀ fs : List FuncId,
        (fs.foldl (fun acc f => (Base.register_new_update_function_edge_insert acc f).1)
          (Base.clear_update_function_list_edge_insert b).1).list_update_insert_edge_functions
          = fs) ∧
      (∀ fs : List FuncId,
        (fs.foldl (fun acc f => (Base.register_new_update_function_edge_delete acc f).1)
          (Base.clear_update_function_list_edge_delete b).1).list_update_delete_edge_functions
          = fs) ∧
      (∀ v b2 r,
        Base.insert_vertex (Base.clear_update_function_list_vertex_insert b).1 v =
          Except.ok (b2, r) →
        b2.trace = b.trace ++
          [Event.de_update_insert_vertex v, Event.mc_update_insert_vertex v]) ∧
      (∀ v b2 r,
        Base.delete_vertex (Base.clear_update_function_list_vertex_delete b).1 v =
          Except.ok (b2, r) →
        ∃ es : List EdgeId, b2.trace = b.trace ++
          [Event.de_update_delete_vertex v, Event.mc_update_delete_vertex v] ++
          es.flatMap (fun e =>
            [Event.de_update_delete_edge e, Event.mc_update_delete_edge e] ++
              b.list_update_delete_edge_functions.map
                (fun f => Event.update_delete_edge_function f e))) ∧
      (∀ src e dst b2 r,
        Base.insert_edge (Base.clear_update_function_list_edge_insert b).1 src e dst =
          Except.ok (b2, r) →
        b2.trace = b.trace ++
          [Event.de_update_insert_edge e, Event.mc_update_insert_edge e]) ∧
      (∀ e b2 r,
        Base.delete_edge (Base.clear_update_function_list_edge_delete b).1 e =
          Except.ok (b2, r) →
        b2.trace = b.trace ++
          [Event.de_update_delete_edge e, Event.mc_update_delete_edge e])) ∧
    ((∀ v vx, b.graph.vertex_mem v = some vx →
        ∃ b2, Base.insert_vertex b v = Except.ok (b2, 1) ∧
          b2.trace = b.trace ++
            [Event.de_update_insert_vertex v, Event.mc_update_insert_vertex v] ++
            b.list_update_insert_vertex_functions.map
              (fun f => Event.update_insert_vertex_function f v)) ∧
      (∀ v vx, edge_endpoint_consistency b.graph → b.graph.vertex_mem v = some vx →
        vx.incoming_edges.Nodup → vx.outgoing_edges.Nodup →
        ∃ b2, Base.delete_vertex b v = Except.ok (b2, 1) ∧
          b2.trace = b.trace ++
            [Event.de_update_delete_vertex v, Event.mc_update_delete_vertex v] ++
            b.list_update_delete_vertex_functions.map
              (fun f => Event.update_delete_vertex_function f v) ++
            (vx.incoming_edges ++
              vx.outgoing_edges.filter (fun x => decide (x ∉ vx.incoming_edges))).flatMap
              (fun e =>
                [Event.de_update_delete_edge e, Event.mc_update_delete_edge e] ++
                  b.list_update_delete_edge_functions.map
                    (fun f => Event.update_delete_edge_function f e))) ∧
      (∀ src e dst sx ed dx, b.graph.vertex_mem src = some sx → b.graph.edge_mem e = some ed →
        b.graph.vertex_mem dst = some dx →
        ∃ b2, Base.insert_edge b src e dst = Except.ok (b2, 1) ∧
          b2.trace = b.trace ++
            [Event.de_update_insert_edge e, Event.mc_update_insert_edge e] ++
            b.list_update_insert_edge_functions.map
              (fun f => Event.update_insert_edge_function f e)) ∧
      (∀ e ed src dst sx dx, b.graph.edge_mem e = some ed → ed.vertex_src = some src →
        ed.vertex_dst = some dst → b.graph.vertex_mem src = some sx →
        b.graph.vertex_mem dst = some dx →
        ∃ b2, Base.delete_edge b e = Except.ok (b2, 1) ∧
          b2.trace = b.trace ++
            [Event.de_update_delete_edge e, Event.mc_update_delete_edge e] ++
            b.list_update_delete_edge_functions.map
              (fun f => Event.update_delete_edge_function f e)) ∧
      (∀ v vx, b.graph.vertex_mem v = some vx →
        ∃ b2, Base.insert_vertex (Base.clear_update_function_list_vertex_insert b).1 v =
            Except.ok (b2, 1) ∧
          b2.trace = b.trace ++
            [Event.de_update_insert_vertex v, Event.mc_update_insert_vertex v]) ∧
      (∀ v vx, edge_endpoint_consistency b.graph → b.graph.vertex_mem v = some vx →
        vx.incoming_edges.Nodup → vx.outgoing_edges.Nodup →
        ∃ b2, Base.delete_vertex (Base.clear_update_function_list_vertex_delete b).1 v =
            Except.ok (b2, 1) ∧
          b2.trace = b.trace ++
            [Event.de_update_delete_vertex v, Event.mc_update_delete_vertex v] ++
            (vx.incoming_edges ++
              vx.outgoing_edges.filter (fun x => decide (x ∉ vx.incoming_edges))).flatMap
              (fun e =>
                [Event.de_update_delete_edge e, Event.mc_update_delete_edge e] ++
                  b.list_update_delete_edge_functions.map
                    (fun f => Event.update_delete_edge_function f e))) ∧
      (∀ src e dst sx ed dx, b.graph.vertex_mem src = some sx → b.graph.edge_mem e = some ed →
        b.graph.vertex_mem dst = some dx →
        ∃ b2, Base.insert_edge (Base.clear_update_function_list_edge_insert b).1 src e dst =
            Except.ok (b2, 1) ∧
          b2.trace = b.trace ++
            [Event.de_update_insert_edge e, Event.mc_update_insert_edge e]) ∧
      (∀ e ed src dst sx dx, b.graph.edge_mem e = some ed → ed.vertex_src = some src →
        ed.vertex_dst = some dst → b.graph.vertex_mem src = some sx →
        b.graph.vertex_mem dst = some dx →
        ∃ b2, Base.delete_edge (Base.clear_update_function_list_edge_delete b).1 e =
            Except.ok (b2, 1) ∧
          b2.trace = b.trace ++
            [Event.de_update_delete_edge e, Event.mc_update_delete_edge e])) := by
  refine ⟨?_, ?_⟩
  · refine ⟨fun v b2 r h => ?_, fun v b2 r h => ?_, fun src e dst b2 r h => ?_,
      fun e b2 r h => ?_, fun fs => ?_, fun fs => ?_, fun fs => ?_, fun fs => ?_,
      fun v b2 r h => ?_, fun v b2 r h => ?_, fun src e dst b2 r h => ?_,
      fun e b2 r h => ?_⟩
    · rw [(mutation_frames b).1 v b2 r h]
      simp [insert_vertex_events]
    · obtain ⟨es, hes⟩ := (mutation_frames b).2.1 v b2 r h
      refine ⟨es, ?_⟩
      show b2.trace = b.trace ++
        [Event.de_update_delete_vertex v, Event.mc_update_delete_vertex v] ++
        b.list_update_delete_vertex_functions.map
          (fun f => Event.update_delete_vertex_function f v) ++
        es.flatMap (delete_edge_events b)
      rw [hes]
      simp [delete_vertex_events]
    · rw [(mutation_frames b).2.2.1 src e dst b2 r h]
      simp [insert_edge_events]
    · rw [(mutation_frames b).2.2.2 e b2 r h]
      simp [delete_edge_events]
    · rw [register_vertex_insert_foldl]
      simp [Base.clear_update_function_list_vertex_insert]
    · rw [register_vertex_delete_foldl]
      simp [Base.clear_update_function_list_vertex_delete]
    · rw [register_edge_insert_foldl]
      simp [Base.clear_update_function_list_edge_insert]
    · rw [register_edge_delete_foldl]
      simp [Base.clear_update_function_list_edge_delete]
    · rw [(mutation_frames _).1 v b2 r h]
      simp [insert_vertex_events, Base.clear_update_function_list_vertex_insert]
    · obtain ⟨es, hes⟩ := (mutation_frames _).2.1 v b2 r h
      refine ⟨es, ?_⟩
      show b2.trace = b.trace ++
        [Event.de_update_delete_vertex v, Event.mc_update_delete_vertex v] ++
        es.flatMap (delete_edge_events b)
      rw [hes]
      simp [delete_vertex_events, Base.clear_update_function_list_vertex_delete]
      rfl
    · rw [(mutation_frames _).2.2.1 src e dst b2 r h]
      simp [insert_edge_events, Base.clear_update_function_list_edge_insert]
    · rw [(mutation_frames _).2.2.2 e b2 r h]
      simp [delete_edge_events, Base.clear_update_function_list_edge_delete]
  · refine ⟨fun v vx hv => ?_, fun v vx hc hv hin hout => ?_,
      fun src e dst sx ed dx hs he hd => ?_, fun e ed src dst sx dx he hsrc hdst hs hd => ?_,
      fun v vx hv => ?_, fun v vx hc hv hin hout => ?_,
      fun src e dst sx ed dx hs he hd => ?_, fun e ed src dst sx dx he hsrc hdst hs hd => ?_⟩
    · exact ⟨_, insert_vertex_eq b v vx hv, by simp [insert_vertex_events]⟩
    · obtain ⟨b2, h2⟩ := delete_vertex_returns b v vx hc hv hin hout
      obtain ⟨vy, hvy, ht⟩ := delete_vertex_trace b b2 v 1 h2
      rw [hv] at hvy
      obtain rfl : vx = vy := Option.some.inj hvy
      refine ⟨b2, h2, ?_⟩
      show b2.trace = b.trace ++
        [Event.de_update_delete_vertex v, Event.mc_update_delete_vertex v] ++
        b.list_update_delete_vertex_functions.map
          (fun f => Event.update_delete_vertex_function f v) ++
        (vx.incoming_edges ++
          vx.outgoing_edges.filter (fun x => decide (x ∉ vx.incoming_edges))).flatMap
          (delete_edge_events b)
      rw [ht]
      simp [delete_vertex_events]
    · exact ⟨_, insert_edge_link b src dst e sx dx ed hs he hd, by simp [insert_edge_events]⟩
    · exact ⟨_, delete_edge_unlink b e src dst sx dx ed he hsrc hdst hs hd,
        by simp [delete_edge_events]⟩
    · exact ⟨_, insert_vertex_eq (Base.clear_update_function_list_vertex_insert b).1 v vx hv,
        by simp [insert_vertex_events, Base.clear_update_function_list_vertex_insert]⟩
    · obtain ⟨b2, h2⟩ :=
        delete_vertex_returns (Base.clear_update_function_list_vertex_delete b).1 v vx hc hv
          hin hout
      obtain ⟨vy, hvy, ht⟩ := delete_vertex_trace _ b2 v 1 h2
      have hvy2 : b.graph.vertex_mem v = some vy := hvy
      rw [hv] at hvy2
      obtain rfl : vx = vy := Option.some.inj hvy2
      refine ⟨b2, h2, ?_⟩
      show b2.trace = b.trace ++
        [Event.de_update_delete_vertex v, Event.mc_update_delete_vertex v] ++
        (vx.incoming_edges ++
          vx.outgoing_edges.filter (fun x => decide (x ∉ vx.incoming_edges))).flatMap
          (delete_edge_events b)
      rw [ht]
      simp [delete_vertex_events, Base.clear_update_function_list_vertex_delete]
      rfl
    · exact ⟨_, insert_edge_link (Base.clear_update_function_list_edge_insert b).1 src dst e
        sx dx ed hs he hd,
        by simp [insert_edge_events, Base.clear_update_function_list_edge_insert]⟩
    · exact ⟨_, delete_edge_unlink (Base.clear_update_function_list_edge_delete b).1 e src dst
        sx dx ed he hsrc hdst hs hd,
        by simp [delete_edge_events, Base.clear_update_function_list_edge_delete]⟩

/-- Witness for C8 on the example planners, one call of each mutation:
inserting the allocated vertex `4` logs the two component updates and the
vertex-insert callbacks `7` and `8`; deleting vertex `1` of the two-vertex
planner, on which no callback is registered, logs the two component updates,
then the notifications of the deletion of its incoming edge `0`; inserting the allocated edge `3`
from vertex `1` to vertex `2` logs the two component updates and the
edge-insert callbacks `10` and `11`; deleting edge `0` logs the two component
updates and the edge-delete callback `12`; and after
`clear_update_function_list_vertex_insert` the insertion of vertex `4` logs
the two component updates only. -/
theorem notification_order_witness :
    (∃ b2, Base.insert_vertex exB 4 = Except.ok (b2, 1) ∧
      b2.trace =
        [Event.de_update_insert_vertex 4, Event.mc_update_insert_vertex 4,
          Event.update_insert_vertex_function 7 4,
          Event.update_insert_vertex_function 8 4]) ∧
    (∃ b2, Base.delete_vertex exBsmall 1 = Except.ok (b2, 1) ∧
      b2.trace =
        [Event.de_update_delete_vertex 1, Event.mc_update_delete_vertex 1,
          Event.de_update_delete_edge 0, Event.mc_update_delete_edge 0]) ∧
    (∃ b2, Base.insert_edge exB 1 3 2 = Except.ok (b2, 1) ∧
      b2.trace =
        [Event.de_update_insert_edge 3, Event.mc_update_insert_edge 3,
          Event.update_insert_edge_function 10 3, Event.update_insert_edge_function 11 3]) ∧
    (∃ b2, Base.delete_edge exB 0 = Except.ok (b2, 1) ∧
      b2.trace =
        [Event.de_update_delete_edge 0, Event.mc_update_delete_edge 0,
          Event.update_delete_edge_function 12 0]) ∧
    (∃ b2, Base.insert_vertex (Base.clear_update_function_list_vertex_insert exB).1 4 =
        Except.ok (b2, 1) ∧
      b2.trace = [Event.de_update_insert_vertex 4, Event.mc_update_insert_vertex 4]) :=
  ⟨(notification_order exB).2.1 4 ⟨fun _ => 8, ⟨0, false⟩, [], []⟩ rfl,
    (notification_order exBsmall).2.2.1 1 ⟨fun _ => 5, ⟨3, true⟩, [0], []⟩ exGsmall_consistent
      rfl (by decide) (by decide),
    (notification_order exB).2.2.2.1 1 3 2 exV1 ⟨none, none, ⟨[], [⟨1, []⟩]⟩⟩ exV2 rfl rfl rfl,
    (notification_order exB).2.2.2.2.1 0 exE0 0 1 exV0 exV1 rfl rfl rfl rfl rfl,
    (notification_order exB).2.2.2.2.2.1 4 ⟨fun _ => 8, ⟨0, false⟩, [], []⟩ rfl⟩

end notification_claims

end smp
